import Mathlib

/-!
Verification development for the Octree repository (N-dimensional linear
orthotree indexed by Morton location codes).

The repository ships the geometry adaptor `adaptor.xyz.h` and the benchmark
harness `benchmarks.cpp`; the core header `octree.h` is referenced but not
part of the source tree, so the core data model (grid mapper, location-code
algebra, bulk builder, node table, queries, edit operations) is modelled
from the specification (spec.md sections 3 and 4).  Scalars are modelled as
rationals; machine floating point is replaced by exact arithmetic.
-/

namespace OrthoTree

/-- A point is a list of rational components (dimension = length). -/
abbrev Pt := List ℚ

/-- Modelled from the spec: an axis-aligned bounding box is a `Min` and a
`Max` corner point (adaptor contract, spec section 3). -/
structure Bx where
  Min : Pt
  Max : Pt
deriving DecidableEq

/-- Componentwise conjunction of a binary scalar predicate over two
component lists; `false` on length mismatch. -/
def all2 (f : ℚ → ℚ → Bool) : List ℚ → List ℚ → Bool
  | [], [] => true
  | a :: as, b :: bs => f a b && all2 f as bs
  | _, _ => false

/-- Modelled from the spec: derived box-box overlap predicate
(`are_boxes_overlapped` with `e1_must_contain_e2 = false` and point-touch
not allowed): strict inequality on every dimension.  This choice is forced
by the spec's scenario 2, where touching boxes are not reported as
colliding. -/
def boxesOverlapStrict (a b : Bx) : Bool :=
  all2 (fun x y => decide (x < y)) a.Min b.Max && all2 (fun x y => decide (x < y)) b.Min a.Max

/-- Modelled from the spec: derived box-contains-point predicate
(inclusive bounds). -/
def boxContainsPoint (b : Bx) (p : Pt) : Bool :=
  all2 (fun x y => decide (x ≤ y)) b.Min p && all2 (fun x y => decide (x ≤ y)) p b.Max

/-- Modelled from the spec: box `inner` fully contained in box `outer`
(both corners inside, inclusive). -/
def boxInBox (outer inner : Bx) : Bool :=
  boxContainsPoint outer inner.Min && boxContainsPoint outer inner.Max

/-- Modelled from the spec: inclusive box-box intersection (used for the
conservative node-cell versus query-box tests). -/
def boxesTouch (a b : Bx) : Bool :=
  all2 (fun x y => decide (x ≤ y)) a.Min b.Max && all2 (fun x y => decide (x ≤ y)) b.Min a.Max

/-! ## Kernel-computable rational arithmetic

The ambient `Rat` ring operations are irreducible for kernel reduction, so
the model computes through `Rat.divInt` on numerators and denominators;
bridge lemmas below identify these with the ring operations. -/
/-- `a + b` computed through `Rat.divInt`. -/
def qadd (a b : ℚ) : ℚ := Rat.divInt (a.num * b.den + b.num * a.den) (a.den * b.den)

/-- `a - b` computed through `Rat.divInt`. -/
def qsub (a b : ℚ) : ℚ := Rat.divInt (a.num * b.den - b.num * a.den) (a.den * b.den)

/-- `a * b` computed through `Rat.divInt`. -/
def qmul (a b : ℚ) : ℚ := Rat.divInt (a.num * b.num) (a.den * b.den)

/-- `a / b` computed through `Rat.divInt` (zero when `b = 0`). -/
def qdiv (a b : ℚ) : ℚ := Rat.divInt (a.num * b.den) (a.den * b.num)

/-- The rational value of a natural number, computed through `Rat.divInt`. -/
def qofNat (n : ℕ) : ℚ := Rat.divInt n 1

/-! ## Grid mapper (spec section 4.C) -/
/-- Modelled from the spec: dimension `i` of a world point `x` maps to grid
coordinate `floor((x - w0)/(w1 - w0) * 2^L)`, clamped to `[0, 2^L - 1]`. -/
def gridCoord (w0 w1 : ℚ) (L : ℕ) (x : ℚ) : ℕ :=
  min (qmul (qdiv (qsub x w0) (qsub w1 w0)) (qofNat (2 ^ L))).floor.toNat (2 ^ L - 1)

/-- Modelled from the spec: map a world point (third list) to its grid
coordinates at maximum depth `L`, given the world box corners. -/
def gridOf (L : ℕ) : List ℚ → List ℚ → List ℚ → List ℕ
  | w0 :: ws0, w1 :: ws1, x :: xs => gridCoord w0 w1 L x :: gridOf L ws0 ws1 xs
  | _, _, _ => []

/-! ## Location-code algebra (spec section 4.B)

A location code is a natural number: a sentinel `1` bit followed by `depth`
groups of `D` bits, one bit per dimension per level, where bit `j` of a
group is 1 iff the cell lies in the upper half along dimension `j`. -/
/-- Little-endian binary value of a list of bits (dimension 0 is bit 0). -/
def bitsVal : List ℕ → ℕ
  | [] => 0
  | b :: bs => b % 2 + 2 * bitsVal bs

/-- The level-0 bit group of a coordinate list. -/
def lowGroup (cs : List ℕ) : ℕ := bitsVal (cs.map (· % 2))

/-- Modelled from the spec: interleave `D` grid coordinates, each `depth`
bits wide, into a single location code with a sentinel bit. -/
def encode : ℕ → List ℕ → ℕ
  | 0, _ => 1
  | d + 1, cs => encode d (cs.map (· / 2)) * 2 ^ cs.length + lowGroup cs

/-- The root's location code (sentinel bit only). -/
def rootCode : ℕ := 1

/-- Modelled from the spec: `parent(c)` strips the last `D` bits. -/
def parentC (D c : ℕ) : ℕ := c / 2 ^ D

/-- Modelled from the spec: `child(c, j)` appends the `D`-bit child index
`j`. -/
def childC (D c j : ℕ) : ℕ := c * 2 ^ D + j

/-- The child index of a non-root code within its parent. -/
def childIdx (D c : ℕ) : ℕ := c % 2 ^ D

/-- Structural (fuel-based) binary logarithm; agrees with `Nat.log 2`
whenever the fuel dominates the argument. -/
def log2Fuel : ℕ → ℕ → ℕ
  | 0, _ => 0
  | fuel + 1, c => if c ≤ 1 then 0 else log2Fuel fuel (c / 2) + 1

/-- Binary logarithm, kernel-computable. -/
def lg (c : ℕ) : ℕ := log2Fuel c c

/-- Modelled from the spec: `depth(c)` = bit-length of the meaningful
prefix divided by `D`. -/
def depthOf (D c : ℕ) : ℕ := lg c / D

/-- The ancestor of code `c` at depth `d` (strip whole bit groups). -/
def prefAt (D c d : ℕ) : ℕ := c / 2 ^ (D * (depthOf D c - d))

/-- Executable ancestor-or-self test on codes. -/
def ancSelf (D a c : ℕ) : Bool := c / 2 ^ (D * (depthOf D c - depthOf D a)) == a

/-- Ancestor-or-self as the existence of a whole-group right shift; this is
the form used in proofs. -/
def AncSelfP (D a c : ℕ) : Prop := ∃ m, a = c / 2 ^ (D * m)

/-- The bits of `g` below position `D`, as a list (dimension 0 first). -/
def lowBits (D g : ℕ) : List ℕ := (List.range D).map fun j => g / 2 ^ j % 2

/-- Inverse of `encode`: recover the grid coordinates of a code known to
have depth `d`. -/
def decode (D : ℕ) : ℕ → ℕ → List ℕ
  | 0, _ => List.replicate D 0
  | d + 1, c => List.zipWith (fun hi b => hi * 2 + b) (decode D d (c / 2 ^ D)) (lowBits D (c % 2 ^ D))

/-! ## Canonical codes and the deeper-split strategy (spec sections 4.C, 4.G) -/
/-- Grid coordinates of a box's `Min` corner at maximum depth. -/
def gridMinOf (W : Bx) (L : ℕ) (b : Bx) : List ℕ := gridOf L W.Min W.Max b.Min

/-- Grid coordinates of a box's `Max` corner at maximum depth. -/
def gridMaxOf (W : Bx) (L : ℕ) (b : Bx) : List ℕ := gridOf L W.Min W.Max b.Max

/-- Modelled from the spec: the canonical depth of a box is the largest
`d ≤ L` for which the depth-`d` cell of the min grid corner equals that of
the max grid corner. -/
def canDepth (L : ℕ) (gmin gmax : List ℕ) : ℕ :=
  Nat.findGreatest (fun d => gmin.map (· / 2 ^ (L - d)) = gmax.map (· / 2 ^ (L - d))) L

/-- Inclusive integer range `[lo, hi]` as a list (empty when `hi < lo`). -/
def rangeIcc (lo hi : ℕ) : List ℕ := (List.range (hi + 1 - lo)).map (lo + ·)

/-- Cartesian product of per-dimension coordinate choices. -/
def prodLists : List (List ℕ) → List (List ℕ)
  | [] => [[]]
  | r :: rs => r.flatMap fun x => (prodLists rs).map (x :: ·)

/-- Modelled from the spec: the coordinates, at part depth `dp`, of every
descendant cell whose grid range intersects the box's grid range. -/
def partCoords (L dp : ℕ) (gmin gmax : List ℕ) : List (List ℕ) :=
  prodLists ((gmin.zip gmax).map fun ab => rangeIcc (ab.1 / 2 ^ (L - dp)) (ab.2 / 2 ^ (L - dp)))

/-- Modelled from the spec (section 4.G): the location codes a box is
stored under.  With additional split depth `k`, a box is replicated into
every descendant cell of its canonical node at depth
`min(canonical_depth + k, L)` that overlaps the box. -/
def boxPartCodes (L k : ℕ) (W : Bx) (b : Bx) : List ℕ :=
  let gmin := gridMinOf W L b
  let gmax := gridMaxOf W L b
  let can := canDepth L gmin gmax
  let dp := min (can + k) L
  (partCoords L dp gmin gmax).map (encode dp)

/-- Modelled from the spec: a point's code is the leaf-cell code of its
grid coordinates at maximum depth. -/
def pointCode (L : ℕ) (W : Bx) (p : Pt) : ℕ := encode L (gridOf L W.Min W.Max p)

/-! ## World box auto-computation (spec section 4.E step 1) -/
/-- Componentwise minimum. -/
def minPts (a b : List ℚ) : List ℚ := List.zipWith min a b

/-- Componentwise maximum. -/
def maxPts (a b : List ℚ) : List ℚ := List.zipWith max a b

/-- Modelled from the spec: the world box computed from a box span. -/
def boxOfBoxes : List Bx → Bx
  | [] => ⟨[], []⟩
  | b :: bs => bs.foldl (fun acc x => ⟨minPts acc.Min x.Min, maxPts acc.Max x.Max⟩) b

/-- Modelled from the spec: the world box computed from a point span. -/
def boxOfPoints : List Pt → Bx
  | [] => ⟨[], []⟩
  | p :: ps => ps.foldl (fun acc x => ⟨minPts acc.Min x, maxPts acc.Max x⟩) ⟨p, p⟩

/-! ## Bulk builder (spec section 4.E) -/
/-- The (code, id) pairs a single box entity generates. -/
def boxPairsOf (L k : ℕ) (W : Bx) (boxes : List Bx) (i : ℕ) : List (ℕ × ℕ) :=
  (boxPartCodes L k W (boxes.getD i ⟨[], []⟩)).map fun c => (c, i)

/-- The per-entity (code, id) pairs of a box span, in generation order. -/
def boxBuildPairs (L k : ℕ) (W : Bx) (boxes : List Bx) : List (ℕ × ℕ) :=
  (List.range boxes.length).flatMap (boxPairsOf L k W boxes)

/-- The (code, id) pair a single point entity generates. -/
def pointPairsOf (L : ℕ) (W : Bx) (pts : List Pt) (i : ℕ) : List (ℕ × ℕ) :=
  [(pointCode L W (pts.getD i []), i)]

/-- The per-entity (code, id) pairs of a point span, in generation order. -/
def pointBuildPairs (L : ℕ) (W : Bx) (pts : List Pt) : List (ℕ × ℕ) :=
  (List.range pts.length).flatMap (pointPairsOf L W pts)

/-- Modelled from the spec (step 3): stable sort of the pairs by code;
ties preserve generation order. -/
def sortPairs (prs : List (ℕ × ℕ)) : List (ℕ × ℕ) :=
  List.insertionSort (fun a b => a.1 ≤ b.1) prs

/-- Number of pairs whose code lies in the subtree of code `p`. -/
def bucketSize (D : ℕ) (codes : List ℕ) (p : ℕ) : ℕ :=
  codes.countP (fun c => ancSelf D p c)

/-- Modelled from the spec (step 5): truncate a code to the shortest
prefix whose subtree bucket holds at most `M` pairs; if no prefix
qualifies the code is kept whole. -/
def truncCode (D M : ℕ) (codes : List ℕ) (c : ℕ) : ℕ :=
  match (List.range (depthOf D c + 1)).find?
      (fun d => decide (bucketSize D codes (prefAt D c d) ≤ M)) with
  | some d => prefAt D c d
  | none => c

/-- Modelled from the spec: a node record holds the child bitmask and the
ordered owned entity ids. -/
structure Nd where
  childMask : ℕ
  entityIds : List ℕ
deriving DecidableEq

/-- The node table: an association list from location code to node record,
kept sorted by code (depth-major Morton order = numeric order). -/
abbrev Table := List (ℕ × Nd)

/-- All ancestors of a code including itself (depths `0..depth c`). -/
def ancChain (D c : ℕ) : List ℕ := (List.range (depthOf D c + 1)).map (prefAt D c)

/-- The sorted, deduplicated code set of a table built over the given
owner codes: owners plus all their ancestors. -/
def tableCodes (D : ℕ) (owners : List ℕ) : List ℕ :=
  List.insertionSort (· ≤ ·) (owners.flatMap (ancChain D)).dedup

/-- Value of a little-endian bit list (used for child masks). -/
def maskVal : List Bool → ℕ
  | [] => 0
  | b :: bs => (if b then 1 else 0) + 2 * maskVal bs

/-- The child bitmask of code `c` relative to a code set. -/
def maskOf (D : ℕ) (codes : List ℕ) (c : ℕ) : ℕ :=
  maskVal ((List.range (2 ^ D)).map fun j => decide (childC D c j ∈ codes))

/-- Modelled from the spec (step 4): fold the sorted pairs into the node
table.  Every pair's code is truncated by the small-bucket rule; a node is
emitted for every owner code and every ancestor of one; each node record
carries its child bitmask and its owned ids in sorted-pair order. -/
def buildTable (D M : ℕ) (prs : List (ℕ × ℕ)) : Table :=
  let allCodes := prs.map (·.1)
  let owners := allCodes.map (truncCode D M allCodes)
  let codes := tableCodes D owners
  codes.map fun c =>
    (c, { childMask := maskOf D codes c
          entityIds := (prs.filter fun pr => truncCode D M allCodes pr.1 == c).map (·.2) })

/-- Modelled from the spec: sequential bulk build of a box tree. -/
def createBoxTree (D L M k : ℕ) (W : Bx) (boxes : List Bx) : Table :=
  buildTable D M (sortPairs (boxBuildPairs L k W boxes))

/-- Modelled from the spec: sequential bulk build of a point tree. -/
def createPointTree (D L M : ℕ) (W : Bx) (pts : List Pt) : Table :=
  buildTable D M (sortPairs (pointBuildPairs L W pts))

/-! ## Cell geometry -/
/-- Real-space lower corner of a grid cell of coordinates `cs` at depth
`d`, inside world box `[w0s, w1s]`. -/
def cellMin (d : ℕ) : List ℚ → List ℚ → List ℕ → List ℚ
  | w0 :: ws0, w1 :: ws1, c :: cs =>
      qadd w0 (qdiv (qmul (qofNat c) (qsub w1 w0)) (qofNat (2 ^ d))) :: cellMin d ws0 ws1 cs
  | _, _, _ => []

/-- Real-space upper corner of a grid cell. -/
def cellMax (d : ℕ) : List ℚ → List ℚ → List ℕ → List ℚ
  | w0 :: ws0, w1 :: ws1, c :: cs =>
      qadd w0 (qdiv (qmul (qofNat (c + 1)) (qsub w1 w0)) (qofNat (2 ^ d))) :: cellMax d ws0 ws1 cs
  | _, _, _ => []

/-- The real-space box of the cell addressed by location code `c`
(reconstructable from code + world box, spec section 3). -/
def cellBoxOf (D : ℕ) (W : Bx) (c : ℕ) : Bx :=
  ⟨cellMin (depthOf D c) W.Min W.Max (decode D (depthOf D c) c),
   cellMax (depthOf D c) W.Min W.Max (decode D (depthOf D c) c)⟩

/-! ## Query engine (spec section 4.H) -/
/-- Modelled from the spec: `RangeSearch` collects all entities owned by
nodes whose cell meets the query box, filters them by the adaptor
predicate (contained when `fullyContained`, overlapped otherwise), and
returns the deduplicated ids in ascending order. -/
def rangeSearch (D : ℕ) (W : Bx) (t : Table) (boxes : List Bx) (q : Bx)
    (fullyContained : Bool) : List ℕ :=
  let cand := (t.filter fun nd => boxesTouch (cellBoxOf D W nd.1) q).flatMap
    fun nd => nd.2.entityIds
  let hits := cand.filter fun i =>
    match boxes[i]? with
    | some b => if fullyContained then boxInBox q b else boxesOverlapStrict q b
    | none => false
  List.insertionSort (· ≤ ·) hits.dedup

/-- Grid-space test: does the cell of coordinates `coords` (with
`s = L - depth` trailing levels below it) meet the leaf-coordinate range
`[gmin, gmax]` on every dimension? -/
def cellMeetsRange (s : ℕ) : List ℕ → List ℕ → List ℕ → Bool
  | c :: cs, a :: as, b :: bs =>
      (a / 2 ^ s ≤ c && c ≤ b / 2 ^ s) && cellMeetsRange s cs as bs
  | [], [], [] => true
  | _, _, _ => false

/-- The lexicographic order on id pairs (`min first`, spec section 6). -/
def pairLe (p q : ℕ × ℕ) : Prop := p.1 < q.1 ∨ (p.1 = q.1 ∧ p.2 ≤ q.2)

instance : DecidableRel pairLe := fun p q => by unfold pairLe; infer_instance

instance : IsTotal (ℕ × ℕ) pairLe := ⟨by intro a b; unfold pairLe; omega⟩

instance : IsTrans (ℕ × ℕ) pairLe := ⟨by intro a b c; unfold pairLe; omega⟩

instance : IsAntisymm (ℕ × ℕ) pairLe :=
  ⟨by
    intro a b hab hba
    unfold pairLe at hab hba
    have h1 : a.1 = b.1 := by omega
    have h2 : a.2 = b.2 := by omega
    exact Prod.ext h1 h2⟩

/-- Modelled from the spec: the candidate collision pairs of a box tree.
For every node, each owned entity is tested against every other owned
entity of the same node, of any ancestor node, and of any descendant node
whose cell overlaps the entity's box (grid-space test); surviving pairs
are filtered by actual box overlap and normalised to `(min, max)`. -/
def collidePairs (D L : ℕ) (W : Bx) (t : Table) (boxes : List Bx) : List (ℕ × ℕ) :=
  t.flatMap fun a =>
    t.flatMap fun b =>
      if ancSelf D a.1 b.1 then
        a.2.entityIds.flatMap fun i =>
          b.2.entityIds.filterMap fun j =>
            if i ≠ j
                ∧ (a.1 = b.1 ∨ cellMeetsRange (L - depthOf D b.1)
                    (decode D (depthOf D b.1) b.1)
                    (gridMinOf W L (boxes.getD i ⟨[], []⟩))
                    (gridMaxOf W L (boxes.getD i ⟨[], []⟩)) = true)
                ∧ boxesOverlapStrict (boxes.getD i ⟨[], []⟩) (boxes.getD j ⟨[], []⟩) = true
            then some (min i j, max i j) else none
      else []

/-- Modelled from the spec: `CollisionDetection` returns the deduplicated
candidate pairs ordered lexicographically, min id first. -/
def collisionDetection (D L : ℕ) (W : Bx) (t : Table) (boxes : List Bx) : List (ℕ × ℕ) :=
  List.insertionSort pairLe (collidePairs D L W t boxes).dedup

/-! ## The benchmark's brute-force reference `SelfConflicthNaive`
(src/benchmarks/benchmarks.cpp, lines 374-402) -/
/-- The inner loop of `SelfConflicthNaive`: ids colliding with `idCheck`
among the ids strictly above it, in ascending order. -/
def collisionsOfOne (vBox : List Bx) (idCheck : ℕ) : List ℕ :=
  (rangeIcc (idCheck + 1) (vBox.length - 1)).filter fun i =>
    boxesOverlapStrict (vBox.getD idCheck ⟨[], []⟩) (vBox.getD i ⟨[], []⟩)

/-- `SelfConflicthNaive`: for every id in ascending order, emit the pairs
`(idCheck, idCollide)` over its collision list. -/
def selfConflictNaive (vBox : List Bx) : List (ℕ × ℕ) :=
  (List.range vBox.length).flatMap fun idCheck =>
    (collisionsOfOne vBox idCheck).map fun idCollide => (idCheck, idCollide)

/-- The `std::transform` of `SelfConflicthNaive` under an execution
policy: each scheduled index writes its collision list into its own slot
of a pre-sized vector, in arbitrary schedule order. -/
def schedTransform {α : Type} (dflt : α) (f : ℕ → α) (n : ℕ) (sched : List ℕ) : List α :=
  sched.foldl (fun acc i => acc.set i (f i)) (List.replicate n dflt)

/-- `SelfConflicthNaive` with the transform stage executed in an arbitrary
schedule order (modelling `parallel_unsequenced_policy`); the final
flattening loop is sequential as in the source. -/
def selfConflictSched (vBox : List Bx) (sched : List ℕ) : List (ℕ × ℕ) :=
  let vvid := schedTransform [] (collisionsOfOne vBox) vBox.length sched
  (List.range vBox.length).flatMap fun idCheck =>
    (vvid.getD idCheck []).map fun idCollide => (idCheck, idCollide)

/-! ## Concrete scenario 2 (spec section 8; README `QuadtreeBoxC` example) -/
/-- The five boxes of spec scenario 2 / the README quadtree example. -/
def scenario2Boxes : List Bx :=
  [⟨[0, 0], [1, 1]⟩, ⟨[1, 1], [2, 2]⟩, ⟨[2, 2], [3, 3]⟩, ⟨[3, 3], [4, 4]⟩,
   ⟨[mkRat 6 5, mkRat 6 5], [mkRat 14 5, mkRat 14 5]⟩]

/-- Scenario 2's auto-computed world box. -/
def scenario2World : Bx := boxOfBoxes scenario2Boxes

/-- Scenario 2's tree: `max_depth = 3`, `max_elements_per_node = 2`,
default additional split depth 2. -/
def scenario2Tree : Table := createBoxTree 2 3 2 2 scenario2World scenario2Boxes

/-- The scenario 2 query box `[1,1] - [3.1,3.1]`. -/
def scenario2Query : Bx := ⟨[1, 1], [mkRat 31 10, mkRat 31 10]⟩

/-! ## The geometry adaptor `adaptor.xyz.h` (real source) -/
/-- `BasicTypesXYZ::Point2D` (the `float` scalar is modelled as ℚ). -/
structure XYPoint2D where
  x : ℚ
  y : ℚ
deriving DecidableEq

/-- `BasicTypesXYZ::Point3D`. -/
structure XYZPoint3D where
  x : ℚ
  y : ℚ
  z : ℚ
deriving DecidableEq

namespace XYAdaptorBasics

/-- `XYAdaptorBasics::point_comp_c` (adaptor.xyz.h:80-88): select the
component by `dimensionID`; the `std::terminate()` default branch is
modelled as `none`. -/
def point_comp_c (pt : XYPoint2D) (dimensionID : ℕ) : Option ℚ :=
  match dimensionID with
  | 0 => some pt.x
  | 1 => some pt.y
  | _ => none

/-- `XYAdaptorBasics::point_comp` (adaptor.xyz.h:70-78): the mutable
reference accessor, modelled as a component update; the `std::terminate()`
default branch is modelled as `none`. -/
def point_comp (pt : XYPoint2D) (dimensionID : ℕ) (v : ℚ) : Option XYPoint2D :=
  match dimensionID with
  | 0 => some { pt with x := v }
  | 1 => some { pt with y := v }
  | _ => none

end XYAdaptorBasics

namespace XYZAdaptorBasics

/-- `XYZAdaptorBasics::point_comp_c` (adaptor.xyz.h:119-128). -/
def point_comp_c (pt : XYZPoint3D) (dimensionID : ℕ) : Option ℚ :=
  match dimensionID with
  | 0 => some pt.x
  | 1 => some pt.y
  | 2 => some pt.z
  | _ => none

/-- `XYZAdaptorBasics::point_comp` (adaptor.xyz.h:108-117). -/
def point_comp (pt : XYZPoint3D) (dimensionID : ℕ) (v : ℚ) : Option XYZPoint3D :=
  match dimensionID with
  | 0 => some { pt with x := v }
  | 1 => some { pt with y := v }
  | 2 => some { pt with z := v }
  | _ => none

end XYZAdaptorBasics

/-- The strict lexicographic order on id pairs. -/
def pairLt (p q : ℕ × ℕ) : Prop := p.1 < q.1 ∨ (p.1 = q.1 ∧ p.2 < q.2)

/-! ## Parallel build (spec sections 4.E, 5): the per-entity code
computation runs under an arbitrary schedule writing into fixed slots;
sorting and folding are as in the sequential build. -/
/-- Box-tree bulk build with the per-entity code computation executed
under schedule `sched` (modelling parallel-unsequenced mode). -/
def createBoxTreeSched (D L M k : ℕ) (W : Bx) (boxes : List Bx) (sched : List ℕ) : Table :=
  buildTable D M (sortPairs
    ((schedTransform [] (boxPairsOf L k W boxes) boxes.length sched).flatMap id))

/-- Point-tree bulk build with the per-entity code computation executed
under schedule `sched`. -/
def createPointTreeSched (D L M : ℕ) (W : Bx) (pts : List Pt) (sched : List ℕ) : Table :=
  buildTable D M (sortPairs
    ((schedTransform [] (pointPairsOf L W pts) pts.length sched).flatMap id))

/-! ## Edit operations (spec section 4.I) -/
/-- Bit `j` of a child mask (kernel-computable `testBit`). -/
def maskTest (m j : ℕ) : Bool := m / 2 ^ j % 2 == 1

/-- Look up the node record of a code. -/
def tGet (t : Table) (c : ℕ) : Option Nd := (t.find? fun e => e.1 == c).map (·.2)

/-- Replace the record stored under code `c`. -/
def tSet (t : Table) (c : ℕ) (nd : Nd) : Table :=
  t.map fun e => if e.1 = c then (c, nd) else e

/-- Delete the entry of code `c`. -/
def tErase (t : Table) (c : ℕ) : Table := t.filter fun e => e.1 ≠ c

/-- Insert an entry keeping the table sorted by code. -/
def sortedInsert (t : Table) (c : ℕ) (nd : Nd) : Table :=
  match t with
  | [] => [(c, nd)]
  | e :: rest => if c ≤ e.1 then (c, nd) :: e :: rest else e :: sortedInsert rest c nd

/-- Set bit `j` in a node's child mask. -/
def setChildBit (nd : Nd) (j : ℕ) : Nd :=
  { nd with childMask := if maskTest nd.childMask j then nd.childMask else nd.childMask + 2 ^ j }

/-- Clear bit `j` in a node's child mask. -/
def clearChildBit (nd : Nd) (j : ℕ) : Nd :=
  { nd with childMask := if maskTest nd.childMask j then nd.childMask - 2 ^ j else nd.childMask }

/-- Modelled from the spec (`Erase`, cascade step): if the node became
empty and has no children, delete it and clear the corresponding
`child_mask` bit in its parent, cascading upward.  The fuel dominates the
node's depth. -/
def cascadeErase (D : ℕ) : ℕ → ℕ → Table → Table
  | 0, _, t => t
  | fuel + 1, c, t =>
      match tGet t c with
      | none => t
      | some nd =>
          if nd.entityIds.isEmpty ∧ nd.childMask = 0 then
            let t1 := tErase t c
            if c = rootCode then t1
            else
              match tGet t1 (parentC D c) with
              | none => t1
              | some pnd =>
                  cascadeErase D fuel (parentC D c)
                    (tSet t1 (parentC D c) (clearChildBit pnd (childIdx D c)))
          else t

/-- Modelled from the spec (`Erase`): locate the owners of the id, remove
the id, cascade-delete empty childless nodes; an absent id is reported
with the table left unchanged. -/
def eraseOp (D : ℕ) (t : Table) (i : ℕ) : Bool × Table :=
  let owners := (t.filter fun nd => nd.2.entityIds.contains i).map (·.1)
  match owners with
  | [] => (false, t)
  | _ =>
      let t1 := t.map fun nd => (nd.1, ⟨nd.2.childMask, nd.2.entityIds.filter (· ≠ i)⟩)
      (true, owners.foldl (fun acc c => cascadeErase D (depthOf D c + 1) c acc) t1)

/-- The canonical code of a box (spec sections 4.C and 4.G). -/
def canCodeOf (L : ℕ) (W : Bx) (b : Bx) : ℕ :=
  let gmin := gridMinOf W L b
  let gmax := gridMaxOf W L b
  let can := canDepth L gmin gmax
  encode can (gmin.map (· / 2 ^ (L - can)))

/-- The ancestors of `c` (itself included) absent from the table,
shallowest first. -/
def missingChain (D : ℕ) (t : Table) (c : ℕ) : List ℕ :=
  (ancChain D c).filter fun a => tGet t a == none

/-- Modelled from the spec (`Insert`, node creation): create the owner
node and any missing ancestors; each new internal node carries the child
bit toward the owner. -/
def insMissingFold (D : ℕ) (t : Table) (c : ℕ) : Table :=
  (missingChain D t c).foldl (fun acc a =>
      sortedInsert acc a
        ⟨if a = c then 0 else 2 ^ childIdx D (prefAt D c (depthOf D a + 1)), []⟩) t

/-- After creating the missing chain, the deepest pre-existing ancestor
gains the child bit toward the shallowest created node. -/
def insPatch (D : ℕ) (t : Table) (c : ℕ) : Table :=
  let t1 := insMissingFold D t c
  match (missingChain D t c).head? with
  | none => t1
  | some a0 =>
      if a0 = rootCode then t1
      else match tGet t1 (parentC D a0) with
        | none => t1
        | some pnd => tSet t1 (parentC D a0) (setChildBit pnd (childIdx D a0))

/-- Modelled from the spec (`Insert`): create the owner node and any
missing ancestors with their child bits, then append the id to the
owner's list. -/
def insertAtCode (D : ℕ) (t : Table) (c i : ℕ) : Table :=
  let t2 := insPatch D t c
  match tGet t2 c with
  | some nd => tSet t2 c ⟨nd.childMask, nd.entityIds ++ [i]⟩
  | none => t2

/-- Modelled from the spec (`Insert`, demote step): move one owned entity
whose canonical cell lies strictly below the overfull node into its child
cell.  `codeOf` yields the canonical code of an entity (from the box span
for box trees, the leaf code for point trees). -/
def demoteOne (D : ℕ) (codeOf : ℕ → ℕ) (c : ℕ) (t : Table) (e : ℕ) : Table :=
  let ce := codeOf e
  if depthOf D c < depthOf D ce ∧ ancSelf D c ce then
    match tGet t c with
    | none => t
    | some nd =>
        let t1 := tSet t c ⟨nd.childMask, nd.entityIds.filter (· ≠ e)⟩
        insertAtCode D t1 (prefAt D ce (depthOf D c + 1)) e
  else t

/-- Modelled from the spec (`Insert`): compute the canonical code, create
the owner node and missing ancestors, append the id; if the owner's owned
count then exceeds `M` and its depth is below `L`, demote owned entities
into their respective child cells. -/
def insertOpG (D L M : ℕ) (codeOf : ℕ → ℕ) (t : Table) (i : ℕ) : Table :=
  let c := codeOf i
  let t1 := insertAtCode D t c i
  match tGet t1 c with
  | none => t1
  | some nd =>
      if M < nd.entityIds.length ∧ depthOf D c < L then
        nd.entityIds.foldl (demoteOne D codeOf c) t1
      else t1

/-- The canonical-code map of a box span. -/
def boxCodeOf (L : ℕ) (W : Bx) (boxes : List Bx) (i : ℕ) : ℕ :=
  canCodeOf L W (boxes.getD i ⟨[], []⟩)

/-- The leaf-code map of a point span. -/
def pointCodeOf (L : ℕ) (W : Bx) (pts : List Pt) (i : ℕ) : ℕ :=
  pointCode L W (pts.getD i [])

/-- `Insert` on a box tree. -/
def insertOp (D L M : ℕ) (W : Bx) (boxes : List Bx) (t : Table) (i : ℕ) : Table :=
  insertOpG D L M (boxCodeOf L W boxes) t i

/-- Modelled from the spec (`Update` = `Erase` then `Insert`); a missing
id is reported with the table unchanged. -/
def updateOpG (D L M : ℕ) (codeOf : ℕ → ℕ) (t : Table) (i : ℕ) : Bool × Table :=
  match eraseOp D t i with
  | (false, t1) => (false, t1)
  | (true, t1) => (true, insertOpG D L M codeOf t1 i)

/-- `Update` on a box tree. -/
def updateOp (D L M : ℕ) (W : Bx) (boxes : List Bx) (t : Table) (i : ℕ) : Bool × Table :=
  updateOpG D L M (boxCodeOf L W boxes) t i

/-- Does any node of the table own entity `i`? -/
def tableHasId (t : Table) (i : ℕ) : Bool := t.any fun nd => nd.2.entityIds.contains i

/-! ## Well-formed codes and builder structure lemmas -/
/-- A well-formed location code: the Morton encoding of `D` coordinates,
each below `2^d`, at some depth `d ≤ L`. -/
def CodeWF (D L c : ℕ) : Prop :=
  ∃ d cs, d ≤ L ∧ cs.length = D ∧ (∀ x ∈ cs, x < 2 ^ d) ∧ c = encode d cs

/-- The owner code of every (code, id) pair in a pair list. -/
def ownersOf (D M : ℕ) (prs : List (ℕ × ℕ)) : List ℕ :=
  (prs.map (·.1)).map (truncCode D M (prs.map (·.1)))

/-- The node record the builder produces for code `c`. -/
def recordOf (D M : ℕ) (prs : List (ℕ × ℕ)) (codes : List ℕ) (c : ℕ) : Nd :=
  ⟨maskOf D codes c,
    (prs.filter fun pr => truncCode D M (prs.map (·.1)) pr.1 == c).map (·.2)⟩

/-! ## Table primitive lemmas -/
/-- The code set of a table. -/
def keysOf (t : Table) : List ℕ := t.map (·.1)

/-- Modelled from the spec (section 3, invariant 2): every non-root code
present in the table has its parent present, with the child's bit set in
the parent's `child_mask`. -/
def ParentClosed (D : ℕ) (t : Table) : Prop :=
  ∀ c, (tGet t c).isSome = true → c ≠ rootCode →
    ∃ pnd, tGet t (parentC D c) = some pnd
      ∧ maskTest pnd.childMask (childIdx D c) = true

/-- An edit applied to an existing tree: `Insert`, `Update` or `Erase` of
an entity id (spec sections 4.I and 7). -/
inductive EditOp where
  | ins (i : ℕ)
  | upd (i : ℕ)
  | ers (i : ℕ)

/-- Apply one edit to the node table; `codeOf` yields the owner code of an
entity's current geometry. -/
def applyOp (D L M : ℕ) (codeOf : ℕ → ℕ) (t : Table) : EditOp → Table
  | EditOp.ins i => insertOpG D L M codeOf t i
  | EditOp.upd i => (updateOpG D L M codeOf t i).2
  | EditOp.ers i => (eraseOp D t i).2

/-- Apply a sequence of edits to the node table. -/
def applyOps (D L M : ℕ) (codeOf : ℕ → ℕ) (t : Table) (ops : List EditOp) : Table :=
  ops.foldl (applyOp D L M codeOf) t

/-! ## k-nearest neighbours (spec section 4.H) -/
/-- Squared Euclidean distance between two points (computable). -/
def sqDistPts : List ℚ → List ℚ → ℚ
  | a :: as, b :: bs => qadd (qmul (qsub a b) (qsub a b)) (sqDistPts as bs)
  | _, _ => 0

/-- Per-dimension distance from a coordinate to an interval (0 inside). -/
def qclamp2 (lo hi x : ℚ) : ℚ := if x < lo then qsub lo x else if hi < x then qsub x hi else 0

/-- Squared distance lower bound from a query point to a cell box. -/
def minSqCell : List ℚ → List ℚ → List ℚ → ℚ
  | lo :: los, hi :: his, x :: xs =>
      qadd (qmul (qclamp2 lo hi x) (qclamp2 lo hi x)) (minSqCell los his xs)
  | _, _, _ => 0

def minSqDistToBox (b : Bx) (q : Pt) : ℚ := minSqCell b.Min b.Max q

/-- The (squared distance, id) order: ascending distance, ties by
ascending entity id (spec section 4.H). -/
def dLe (a b : ℚ × ℕ) : Prop := a.1 < b.1 ∨ (a.1 = b.1 ∧ a.2 ≤ b.2)

instance : DecidableRel dLe := fun p q => by
  unfold dLe
  infer_instance

instance : IsTotal (ℚ × ℕ) dLe :=
  ⟨by
    intro a b
    unfold dLe
    rcases lt_trichotomy a.1 b.1 with h | h | h
    · exact Or.inl (Or.inl h)
    · rcases Nat.le_total a.2 b.2 with h2 | h2
      · exact Or.inl (Or.inr ⟨h, h2⟩)
      · exact Or.inr (Or.inr ⟨h.symm, h2⟩)
    · exact Or.inr (Or.inl h)⟩

instance : IsTrans (ℚ × ℕ) dLe :=
  ⟨by
    intro a b c hab hbc
    unfold dLe at hab hbc ⊢
    rcases hab with h1 | ⟨h1, h1'⟩
    · rcases hbc with h2 | ⟨h2, h2'⟩
      · exact Or.inl (lt_trans h1 h2)
      · exact Or.inl (h2 ▸ h1)
    · rcases hbc with h2 | ⟨h2, h2'⟩
      · exact Or.inl (h1 ▸ h2)
      · exact Or.inr ⟨h1.trans h2, le_trans h1' h2'⟩⟩

instance : IsAntisymm (ℚ × ℕ) dLe :=
  ⟨by
    intro a b hab hba
    unfold dLe at hab hba
    rcases hab with h1 | ⟨h1, h1'⟩
    · rcases hba with h2 | ⟨h2, h2'⟩
      · exact absurd (lt_trans h1 h2) (lt_irrefl _)
      · exact absurd h1 (h2 ▸ lt_irrefl _)
    · rcases hba with h2 | ⟨h2, h2'⟩
      · exact absurd h2 (h1 ▸ lt_irrefl _)
      · exact Prod.ext h1 (Nat.le_antisymm h1' h2')⟩

/-- The (squared distance, id) key of entity `i`. -/
def distId (pts : List Pt) (q : Pt) (i : ℕ) : ℚ × ℕ := (sqDistPts q (pts.getD i []), i)

/-- Insert a candidate into the running best list, keeping the `k`
smallest under the (distance, id) order. -/
def insBest (k : ℕ) (best : List (ℚ × ℕ)) (x : ℚ × ℕ) : List (ℚ × ℕ) :=
  (List.orderedInsert dLe x best).take k

/-- Modelled from the spec (section 4.H): `GetNearestNeighbors(q, k)`
expands nodes, pruning a node when the k best known (distance, id) keys
all strictly beat the node cell's distance lower bound; owned entities are
folded into the running best list.  Returns ids, nearest first. -/
def knnSearch (D : ℕ) (W : Bx) (t : Table) (pts : List Pt) (q : Pt) (k : ℕ) : List ℕ :=
  (t.foldl (fun best nd =>
      if best.length = k
          ∧ (best.getLastD (0, 0)).1 < minSqDistToBox (cellBoxOf D W nd.1) q
      then best
      else nd.2.entityIds.foldl (fun b i => insBest k b (distId pts q i)) best)
    []).map (·.2)

/-- The linear-scan reference: all (distance, id) keys sorted ascending,
first `k` taken. -/
def naiveKnn (pts : List Pt) (q : Pt) (k : ℕ) : List ℕ :=
  ((((List.range pts.length).map (distId pts q)).insertionSort dLe).take k).map (·.2)

/-! ## Theorems -/

/-! ### Basic code lemmas -/
theorem log2Fuel_eq_log (fuel c : ℕ) (h : c ≤ fuel) : log2Fuel fuel c = Nat.log 2 c := by
  induction fuel generalizing c with
  | zero =>
      have : c = 0 := by omega
      subst this
      simp [log2Fuel]
  | succ fuel ih =>
      by_cases hc : c ≤ 1
      · have hlog : Nat.log 2 c = 0 := Nat.log_eq_zero_iff.mpr (Or.inl (by omega))
        simp [log2Fuel, hc, hlog]
      · have h2 : 2 ≤ c := by omega
        have hdiv : c / 2 ≤ fuel := by
          have := Nat.div_lt_self (by omega : 0 < c) (by norm_num : 1 < 2)
          omega
        simp only [log2Fuel, if_neg hc]
        rw [ih (c / 2) hdiv, Nat.log_of_one_lt_of_le (by norm_num) h2]

theorem lg_eq_log (c : ℕ) : lg c = Nat.log 2 c := log2Fuel_eq_log c c le_rfl

theorem bitsVal_lt (bs : List ℕ) : bitsVal bs < 2 ^ bs.length := by
  induction bs with
  | nil => simp [bitsVal]
  | cons b bs ih =>
      simp only [bitsVal, List.length_cons, pow_succ]
      have hb : b % 2 < 2 := Nat.mod_lt _ (by norm_num)
      omega

theorem lowGroup_lt (cs : List ℕ) : lowGroup cs < 2 ^ cs.length := by
  simpa [lowGroup] using bitsVal_lt (cs.map (· % 2))

theorem encode_bounds (d : ℕ) (cs : List ℕ) (hpos : 0 < cs.length) :
    2 ^ (cs.length * d) ≤ encode d cs ∧ encode d cs < 2 ^ (cs.length * d + cs.length) := by
  induction d generalizing cs with
  | zero =>
      refine ⟨by simp [encode], ?_⟩
      simp only [encode, Nat.mul_zero, Nat.zero_add]
      exact Nat.one_lt_two_pow_iff.mpr hpos.ne'
  | succ d ih =>
      have hlen : (cs.map (· / 2)).length = cs.length := List.length_map _ _
      have h := ih (cs.map (· / 2)) (by rw [hlen]; exact hpos)
      rw [hlen] at h
      have hg := lowGroup_lt cs
      constructor
      · calc 2 ^ (cs.length * (d + 1)) = 2 ^ (cs.length * d) * 2 ^ cs.length := by
              rw [← pow_add]; ring_nf
          _ ≤ encode d (cs.map (· / 2)) * 2 ^ cs.length := Nat.mul_le_mul_right _ h.1
          _ ≤ encode (d + 1) cs := Nat.le_add_right _ _
      · have : encode d (cs.map (· / 2)) * 2 ^ cs.length + lowGroup cs
            < (encode d (cs.map (· / 2)) + 1) * 2 ^ cs.length := by
          rw [Nat.add_mul, Nat.one_mul]
          exact Nat.add_lt_add_left hg _
        calc encode (d + 1) cs < (encode d (cs.map (· / 2)) + 1) * 2 ^ cs.length := this
          _ ≤ 2 ^ (cs.length * d + cs.length) * 2 ^ cs.length :=
              Nat.mul_le_mul_right _ h.2
          _ = 2 ^ (cs.length * (d + 1) + cs.length) := by
              rw [← pow_add]; ring_nf

theorem encode_pos (d : ℕ) (cs : List ℕ) : 0 < encode d cs := by
  induction d generalizing cs with
  | zero => simp [encode]
  | succ d ih =>
      have := ih (cs.map (· / 2))
      have h2 : 0 < 2 ^ cs.length := by positivity
      simp only [encode]
      exact Nat.lt_of_lt_of_le (Nat.mul_pos this h2) (Nat.le_add_right _ _)

theorem depthOf_encode {D : ℕ} (hD : 0 < D) (d : ℕ) (cs : List ℕ) (hlen : cs.length = D) :
    depthOf D (encode d cs) = d := by
  have h := encode_bounds d cs (by omega)
  rw [hlen] at h
  have hle : D * d ≤ Nat.log 2 (encode d cs) := by
    calc D * d = Nat.log 2 (2 ^ (D * d)) := (Nat.log_pow (by norm_num) _).symm
      _ ≤ Nat.log 2 (encode d cs) := Nat.log_mono_right h.1
  have hlt : Nat.log 2 (encode d cs) < D * d + D :=
    Nat.log_lt_of_lt_pow (encode_pos d cs).ne' h.2
  unfold depthOf
  rw [lg_eq_log]
  exact Nat.div_eq_of_lt_le (by rw [Nat.mul_comm d D]; exact hle)
    (by rw [Nat.succ_mul, Nat.mul_comm d D]; exact hlt)

theorem encode_succ_div (d : ℕ) (cs : List ℕ) :
    encode (d + 1) cs / 2 ^ cs.length = encode d (cs.map (· / 2)) := by
  simp only [encode]
  rw [Nat.mul_comm, Nat.mul_add_div (by positivity), Nat.div_eq_of_lt (lowGroup_lt cs),
    Nat.add_zero]

theorem encode_succ_mod (d : ℕ) (cs : List ℕ) :
    encode (d + 1) cs % 2 ^ cs.length = lowGroup cs := by
  simp only [encode]
  rw [Nat.mul_comm, Nat.mul_add_mod, Nat.mod_eq_of_lt (lowGroup_lt cs)]

theorem encode_div_pow (e m : ℕ) (cs : List ℕ) :
    encode (e + m) cs / 2 ^ (cs.length * m) = encode e (cs.map (· / 2 ^ m)) := by
  induction m generalizing cs with
  | zero =>
      have : cs.map (· / 2 ^ 0) = cs := by simp
      simp [this]
  | succ m ih =>
      have hsplit : encode (e + (m + 1)) cs / 2 ^ (cs.length * (m + 1))
          = encode (e + m + 1) cs / 2 ^ cs.length / 2 ^ (cs.length * m) := by
        rw [Nat.div_div_eq_div_mul, ← pow_add]
        ring_nf
      rw [hsplit, encode_succ_div]
      have h2 := ih (cs.map (· / 2))
      rw [List.length_map] at h2
      rw [h2]
      congr 1
      rw [List.map_map]
      apply List.map_congr_left
      intro x _
      simp only [Function.comp_apply]
      rw [Nat.div_div_eq_div_mul]
      congr 1
      rw [pow_succ]
      ring

theorem lowBits_bitsVal (bs : List ℕ) (hb : ∀ b ∈ bs, b < 2) :
    lowBits bs.length (bitsVal bs) = bs := by
  induction bs with
  | nil => simp [lowBits]
  | cons b bs ih =>
      have hb0 : b < 2 := hb b (by simp)
      have hbrest : ∀ x ∈ bs, x < 2 := fun x hx => hb x (by simp [hx])
      simp only [lowBits, List.length_cons, List.range_succ_eq_map, List.map_cons, List.map_map]
      have hdiv : ∀ j : ℕ, bitsVal (b :: bs) / 2 ^ (j + 1) % 2 = bitsVal bs / 2 ^ j % 2 := by
        intro j
        have h1 : bitsVal (b :: bs) / 2 = bitsVal bs := by
          simp only [bitsVal]
          omega
        rw [pow_succ', ← Nat.div_div_eq_div_mul, h1]
      have hhead : bitsVal (b :: bs) / 2 ^ 0 % 2 = b := by
        simp only [pow_zero, Nat.div_one, bitsVal]
        omega
      have htail :
          List.map ((fun j => bitsVal (b :: bs) / 2 ^ j % 2) ∘ Nat.succ) (List.range bs.length)
            = bs := by
        have hihr := ih hbrest
        simp only [lowBits] at hihr
        calc List.map ((fun j => bitsVal (b :: bs) / 2 ^ j % 2) ∘ Nat.succ) (List.range bs.length)
            = List.map (fun j => bitsVal bs / 2 ^ j % 2) (List.range bs.length) := by
              apply List.map_congr_left
              intro j _
              simp only [Function.comp_apply, Nat.succ_eq_add_one]
              exact hdiv j
          _ = bs := hihr
      rw [hhead, htail]

theorem decode_encode {D : ℕ} (d : ℕ) (cs : List ℕ) (hlen : cs.length = D)
    (hlt : ∀ x ∈ cs, x < 2 ^ d) : decode D d (encode d cs) = cs := by
  induction d generalizing cs with
  | zero =>
      simp only [decode]
      symm
      rw [List.eq_replicate_iff]
      exact ⟨hlen, fun b hb => by have := hlt b hb; omega⟩
  | succ d ih =>
      subst hlen
      simp only [decode]
      have hdiv : encode (d + 1) cs / 2 ^ cs.length = encode d (cs.map (· / 2)) :=
        encode_succ_div d cs
      have hmod : encode (d + 1) cs % 2 ^ cs.length = lowGroup cs :=
        encode_succ_mod d cs
      rw [hdiv, hmod]
      have hrec : decode cs.length d (encode d (cs.map (· / 2))) = cs.map (· / 2) := by
        apply ih
        · simp
        · intro x hx
          simp only [List.mem_map] at hx
          obtain ⟨y, hy, rfl⟩ := hx
          have := hlt y hy
          rw [pow_succ] at this
          omega
      have hlow : lowBits cs.length (lowGroup cs) = cs.map (· % 2) := by
        have hlenm : (cs.map (· % 2)).length = cs.length := by simp
        have := lowBits_bitsVal (cs.map (· % 2)) (by
          intro b hb
          simp only [List.mem_map] at hb
          obtain ⟨y, _, rfl⟩ := hb
          exact Nat.mod_lt _ (by norm_num))
        rw [hlenm] at this
        simpa [lowGroup] using this
      rw [hrec, hlow]
      clear hdiv hmod hrec hlow ih hlt
      induction cs with
      | nil => simp
      | cons x xs ihx =>
          simp only [List.map_cons, List.zipWith_cons_cons, ihx]
          congr 1
          omega

theorem encode_injOn {D : ℕ} (d : ℕ) (cs cs' : List ℕ) (hlen : cs.length = D)
    (hlen' : cs'.length = D) (hlt : ∀ x ∈ cs, x < 2 ^ d) (hlt' : ∀ x ∈ cs', x < 2 ^ d)
    (heq : encode d cs = encode d cs') : cs = cs' := by
  have h1 := decode_encode (D := D) d cs hlen hlt
  have h2 := decode_encode (D := D) d cs' hlen' hlt'
  rw [← h1, ← h2, heq]

theorem ancSelfP_trans_chain {D a b x : ℕ} (ha : AncSelfP D a x) (hb : AncSelfP D b x) :
    AncSelfP D a b ∨ AncSelfP D b a := by
  obtain ⟨m, rfl⟩ := ha
  obtain ⟨n, rfl⟩ := hb
  rcases le_total m n with h | h
  · right
    refine ⟨n - m, ?_⟩
    have hmn : m + (n - m) = n := by omega
    have hexp : D * m + D * (n - m) = D * n := by
      rw [← Nat.mul_add, hmn]
    rw [Nat.div_div_eq_div_mul, ← pow_add, hexp]
  · left
    refine ⟨m - n, ?_⟩
    have hmn : n + (m - n) = m := by omega
    have hexp : D * n + D * (m - n) = D * m := by
      rw [← Nat.mul_add, hmn]
    rw [Nat.div_div_eq_div_mul, ← pow_add, hexp]

theorem ancSelfP_refl (D c : ℕ) : AncSelfP D c c := ⟨0, by simp⟩

theorem encode_lt_sentinel (d : ℕ) (cs : List ℕ) :
    encode d cs < 2 ^ (cs.length * d) * 2 := by
  induction d generalizing cs with
  | zero => simp [encode]
  | succ d ih =>
      have h := ih (cs.map (· / 2))
      rw [List.length_map] at h
      have hg := lowGroup_lt cs
      simp only [encode]
      calc encode d (cs.map (· / 2)) * 2 ^ cs.length + lowGroup cs
          < encode d (cs.map (· / 2)) * 2 ^ cs.length + 2 ^ cs.length := by omega
        _ = (encode d (cs.map (· / 2)) + 1) * 2 ^ cs.length := by ring
        _ ≤ 2 ^ (cs.length * d) * 2 * 2 ^ cs.length := Nat.mul_le_mul_right _ (by omega)
        _ = 2 ^ (cs.length * (d + 1)) * 2 := by
            rw [Nat.mul_right_comm, ← pow_add, ← Nat.mul_succ]

theorem encode_div_sentinel {D : ℕ} (hD : 0 < D) (d : ℕ) (cs : List ℕ)
    (hlen : cs.length = D) : encode d cs / 2 ^ (D * d) = rootCode := by
  have hb := encode_bounds d cs (by omega)
  have hs := encode_lt_sentinel d cs
  rw [hlen] at hb hs
  unfold rootCode
  apply Nat.div_eq_of_lt_le
  · simpa [Nat.mul_comm] using hb.1
  · have : 2 * 2 ^ (D * d) = 2 ^ (D * d) * 2 := by ring
    simpa [Nat.succ_mul, this, Nat.mul_comm d D] using hs

theorem ancSelfP_root_encode {D : ℕ} (hD : 0 < D) (d : ℕ) (cs : List ℕ)
    (hlen : cs.length = D) : AncSelfP D rootCode (encode d cs) :=
  ⟨d, (encode_div_sentinel hD d cs hlen).symm⟩

/-! ### Bridges from the computable arithmetic to the ring operations -/
theorem qden_cast_ne (q : ℚ) : ((q.den : ℚ)) ≠ 0 := by
  exact_mod_cast q.den_nz

theorem qnum_cast_eq (q : ℚ) : (q.num : ℚ) = q * q.den := by
  have h : (q.num : ℚ) / q.den = q := Rat.num_div_den q
  calc (q.num : ℚ) = (q.num : ℚ) / q.den * q.den := by
        rw [div_mul_cancel₀ _ (qden_cast_ne q)]
    _ = q * q.den := by rw [h]

theorem qadd_eq (a b : ℚ) : qadd a b = a + b := by
  unfold qadd
  rw [Rat.divInt_eq_div]
  push_cast
  rw [div_eq_iff (mul_ne_zero (qden_cast_ne a) (qden_cast_ne b)), qnum_cast_eq, qnum_cast_eq]
  ring

theorem qsub_eq (a b : ℚ) : qsub a b = a - b := by
  unfold qsub
  rw [Rat.divInt_eq_div]
  push_cast
  rw [div_eq_iff (mul_ne_zero (qden_cast_ne a) (qden_cast_ne b)), qnum_cast_eq, qnum_cast_eq]
  ring

theorem qmul_eq (a b : ℚ) : qmul a b = a * b := by
  unfold qmul
  rw [Rat.divInt_eq_div]
  push_cast
  rw [div_eq_iff (mul_ne_zero (qden_cast_ne a) (qden_cast_ne b)), qnum_cast_eq, qnum_cast_eq]
  ring

theorem qdiv_eq (a b : ℚ) : qdiv a b = a / b := by
  unfold qdiv
  rcases eq_or_ne b 0 with rfl | hb
  · simp [Rat.divInt_eq_div]
  · have hbnum : (b.num : ℚ) ≠ 0 := by
      simpa [Rat.num_eq_zero] using hb
    rw [Rat.divInt_eq_div]
    push_cast
    rw [div_eq_div_iff (mul_ne_zero (qden_cast_ne a) hbnum) hb]
    rw [qnum_cast_eq, qnum_cast_eq]
    ring

theorem qofNat_eq (n : ℕ) : qofNat n = (n : ℚ) := by
  unfold qofNat
  rw [Rat.divInt_eq_div]
  simp

theorem ratFloor_eq_floor (q : ℚ) : q.floor = ⌊q⌋ := by
  rw [Rat.floor_def', ← Rat.floor_def]

theorem gridCoord_eq (w0 w1 : ℚ) (L : ℕ) (x : ℚ) :
    gridCoord w0 w1 L x = min (⌊(x - w0) / (w1 - w0) * (2 ^ L : ℚ)⌋.toNat) (2 ^ L - 1) := by
  unfold gridCoord
  rw [qsub_eq, qsub_eq, qdiv_eq, qofNat_eq, qmul_eq, ratFloor_eq_floor]
  norm_num

set_option maxRecDepth 40000 in
/-- C4: for the quadtree built over the boxes
[(0,0)-(1,1), (1,1)-(2,2), (2,2)-(3,3), (3,3)-(4,4), (1.2,1.2)-(2.8,2.8)]
with max_depth 3 and max_elements_per_node 2, RangeSearch of
[1,1]-[3.1,3.1] returns [1, 2, 4] when fully contained and [1, 2, 3, 4]
when overlap suffices. -/
theorem C4_rangeSearch_scenario2 :
    rangeSearch 2 scenario2World scenario2Tree scenario2Boxes scenario2Query true = [1, 2, 4]
    ∧ rangeSearch 2 scenario2World scenario2Tree scenario2Boxes scenario2Query false
        = [1, 2, 3, 4] :=
  ⟨by decide, by decide⟩

/-- C9: for every 2D/3D point and every dimension index below the
dimension count, the adaptor accessors `point_comp` and `point_comp_c`
return the struct component selected by `dimensionID` (x for 0, y for 1,
z for 2), and the `std::terminate` branch is unreachable. -/
theorem C9_adaptor_component_access (p2 : XYPoint2D) (p3 : XYZPoint3D) (i j : ℕ) (v : ℚ)
    (hi : i < 2) (hj : j < 3) :
    XYAdaptorBasics.point_comp_c p2 i = some (if i = 0 then p2.x else p2.y)
    ∧ XYAdaptorBasics.point_comp p2 i v
        = some (if i = 0 then { p2 with x := v } else { p2 with y := v })
    ∧ XYZAdaptorBasics.point_comp_c p3 j
        = some (if j = 0 then p3.x else if j = 1 then p3.y else p3.z)
    ∧ XYZAdaptorBasics.point_comp p3 j v
        = some (if j = 0 then { p3 with x := v }
            else if j = 1 then { p3 with y := v } else { p3 with z := v }) := by
  match i, hi with
  | 0, _ =>
      match j, hj with
      | 0, _ => exact ⟨rfl, rfl, rfl, rfl⟩
      | 1, _ => exact ⟨rfl, rfl, rfl, rfl⟩
      | 2, _ => exact ⟨rfl, rfl, rfl, rfl⟩
  | 1, _ =>
      match j, hj with
      | 0, _ => exact ⟨rfl, rfl, rfl, rfl⟩
      | 1, _ => exact ⟨rfl, rfl, rfl, rfl⟩
      | 2, _ => exact ⟨rfl, rfl, rfl, rfl⟩

/-- Witness for C9 at a concrete point and dimension indices. -/
theorem C9_adaptor_component_access_witness :
    XYAdaptorBasics.point_comp_c ⟨1, 2⟩ 1 = some (if 1 = 0 then (1:ℚ) else 2)
    ∧ XYAdaptorBasics.point_comp ⟨1, 2⟩ 1 7
        = some (if 1 = 0 then ⟨7, 2⟩ else ⟨(1:ℚ), 7⟩)
    ∧ XYZAdaptorBasics.point_comp_c ⟨3, 4, 5⟩ 2
        = some (if 2 = 0 then (3:ℚ) else if 2 = 1 then 4 else 5)
    ∧ XYZAdaptorBasics.point_comp ⟨3, 4, 5⟩ 2 7
        = some (if 2 = 0 then ⟨7, 4, 5⟩
            else if 2 = 1 then ⟨(3:ℚ), 7, 5⟩ else ⟨(3:ℚ), 4, 7⟩) :=
  C9_adaptor_component_access ⟨1, 2⟩ ⟨3, 4, 5⟩ 1 2 7 (by decide) (by decide)

/-! ## Lemmas about the brute-force reference -/
theorem mem_rangeIcc {lo hi x : ℕ} : x ∈ rangeIcc lo hi ↔ lo ≤ x ∧ x ≤ hi := by
  simp only [rangeIcc, List.mem_map, List.mem_range]
  constructor
  · rintro ⟨t, ht, rfl⟩
    omega
  · rintro ⟨h1, h2⟩
    exact ⟨x - lo, by omega, by omega⟩

theorem pairwise_lt_rangeIcc (lo hi : ℕ) : (rangeIcc lo hi).Pairwise (· < ·) := by
  unfold rangeIcc
  exact (List.pairwise_lt_range _).map _ (fun a b h => by omega)

theorem mem_collisionsOfOne {vBox : List Bx} {idCheck i : ℕ} :
    i ∈ collisionsOfOne vBox idCheck ↔
      idCheck < i ∧ i < vBox.length ∧
        boxesOverlapStrict (vBox.getD idCheck ⟨[], []⟩) (vBox.getD i ⟨[], []⟩) = true := by
  unfold collisionsOfOne
  rw [List.mem_filter, mem_rangeIcc]
  constructor
  · rintro ⟨⟨h1, h2⟩, h3⟩
    refine ⟨by omega, by omega, h3⟩
  · rintro ⟨h1, h2, h3⟩
    exact ⟨⟨by omega, by omega⟩, h3⟩

/-- Pairwise property transport through `flatMap`. -/
theorem pairwise_flatMap {α β : Type} {R : β → β → Prop} {S : α → α → Prop}
    {f : α → List β} {l : List α} (hS : l.Pairwise S)
    (hin : ∀ a ∈ l, (f a).Pairwise R)
    (hcross : ∀ a b, S a b → ∀ x ∈ f a, ∀ y ∈ f b, R x y) :
    (l.flatMap f).Pairwise R := by
  induction l with
  | nil => simp
  | cons a l ih =>
      rw [List.flatMap_cons, List.pairwise_append]
      rcases List.pairwise_cons.mp hS with ⟨hSa, hSl⟩
      refine ⟨hin a (by simp), ih hSl (fun b hb => hin b (by simp [hb])) , ?_⟩
      intro x hx y hy
      rw [List.mem_flatMap] at hy
      obtain ⟨b, hb, hyb⟩ := hy
      exact hcross a b (hSa b hb) x hx y hyb

theorem selfConflictNaive_mem (vBox : List Bx) (p : ℕ × ℕ) :
    p ∈ selfConflictNaive vBox ↔
      p.1 < p.2 ∧ p.2 < vBox.length ∧
        boxesOverlapStrict (vBox.getD p.1 ⟨[], []⟩) (vBox.getD p.2 ⟨[], []⟩) = true := by
  unfold selfConflictNaive
  rw [List.mem_flatMap]
  constructor
  · rintro ⟨idCheck, hid, hp⟩
    rw [List.mem_map] at hp
    obtain ⟨i, hi, rfl⟩ := hp
    rcases mem_collisionsOfOne.mp hi with ⟨h1, h2, h3⟩
    exact ⟨h1, h2, h3⟩
  · rintro ⟨h1, h2, h3⟩
    refine ⟨p.1, by rw [List.mem_range]; omega, ?_⟩
    rw [List.mem_map]
    exact ⟨p.2, mem_collisionsOfOne.mpr ⟨h1, h2, h3⟩, rfl⟩

theorem selfConflictNaive_pairwise (vBox : List Bx) :
    (selfConflictNaive vBox).Pairwise pairLt := by
  unfold selfConflictNaive
  refine pairwise_flatMap (S := (· < ·)) (List.pairwise_lt_range _) ?_ ?_
  · intro a _
    refine ((pairwise_lt_rangeIcc _ _).filter _).map _ ?_
    intro x y h
    right
    exact ⟨rfl, h⟩
  · intro a b hab x hx y hy
    rw [List.mem_map] at hx hy
    obtain ⟨i, _, rfl⟩ := hx
    obtain ⟨j, _, rfl⟩ := hy
    left
    exact hab

theorem foldl_set_getD {α : Type} (f : ℕ → α) (dflt : α) (sched : List ℕ) (acc : List α)
    (i : ℕ) (hi : i < acc.length) :
    (sched.foldl (fun a j => a.set j (f j)) acc).getD i dflt
      = if i ∈ sched then f i else acc.getD i dflt := by
  induction sched generalizing acc with
  | nil => simp
  | cons j rest ih =>
      rw [List.foldl_cons, ih (acc.set j (f j)) (by simpa using hi)]
      by_cases hr : i ∈ rest
      · simp [hr, List.mem_cons]
      · by_cases hji : i = j
        · subst hji
          rw [if_neg hr, if_pos (List.mem_cons_self _ _)]
          rw [List.getD_eq_getElem?_getD, List.getElem?_set_self hi]
          simp
        · rw [if_neg hr, if_neg (by simp [List.mem_cons, hji, hr])]
          rw [List.getD_eq_getElem?_getD,
            List.getElem?_set_ne (fun h => hji h.symm), ← List.getD_eq_getElem?_getD]

theorem selfConflictSched_eq (vBox : List Bx) (sched : List ℕ)
    (hs : ∀ i, i < vBox.length → i ∈ sched) :
    selfConflictSched vBox sched = selfConflictNaive vBox := by
  unfold selfConflictSched selfConflictNaive schedTransform
  rw [List.flatMap, List.flatMap]
  congr 1
  apply List.map_congr_left
  intro idCheck hmem
  rw [List.mem_range] at hmem
  rw [foldl_set_getD _ _ _ _ _ (by simpa using hmem)]
  rw [if_pos (hs idCheck hmem)]

/-- C10: `SelfConflicthNaive` returns each overlapping pair exactly once
as (i, j) with i < j, in ascending lexicographic order, and the schedule
of the transform stage (the execution policy) does not affect the
result. -/
theorem C10_selfConflictNaive_spec (vBox : List Bx) (sched : List ℕ)
    (hs : ∀ i, i < vBox.length → i ∈ sched) :
    (∀ p : ℕ × ℕ, p ∈ selfConflictNaive vBox ↔
        p.1 < p.2 ∧ p.2 < vBox.length ∧
          boxesOverlapStrict (vBox.getD p.1 ⟨[], []⟩) (vBox.getD p.2 ⟨[], []⟩) = true)
    ∧ (selfConflictNaive vBox).Pairwise pairLt
    ∧ selfConflictSched vBox sched = selfConflictNaive vBox :=
  ⟨selfConflictNaive_mem vBox, selfConflictNaive_pairwise vBox,
    selfConflictSched_eq vBox sched hs⟩

/-- Witness for C10: a permuted schedule over the scenario 2 boxes yields
the sequential result. -/
theorem C10_selfConflictNaive_spec_witness :
    selfConflictSched scenario2Boxes [4, 2, 0, 1, 3] = selfConflictNaive scenario2Boxes :=
  (C10_selfConflictNaive_spec scenario2Boxes [4, 2, 0, 1, 3] (by decide)).2.2

theorem foldl_set_length {α : Type} (f : ℕ → α) (sched : List ℕ) (acc : List α) :
    (sched.foldl (fun a j => a.set j (f j)) acc).length = acc.length := by
  induction sched generalizing acc with
  | nil => simp
  | cons j rest ih =>
      rw [List.foldl_cons, ih]
      simp

theorem schedTransform_length {α : Type} (dflt : α) (f : ℕ → α) (n : ℕ) (sched : List ℕ) :
    (schedTransform dflt f n sched).length = n := by
  unfold schedTransform
  rw [foldl_set_length]
  simp

theorem schedTransform_eq {α : Type} (dflt : α) (f : ℕ → α) (n : ℕ) (sched : List ℕ)
    (hs : ∀ i, i < n → i ∈ sched) :
    schedTransform dflt f n sched = (List.range n).map f := by
  apply List.ext_getElem
  · rw [schedTransform_length]
    simp
  · intro i h1 h2
    have hi : i < n := by
      rw [schedTransform_length] at h1
      exact h1
    have hgd : (schedTransform dflt f n sched).getD i dflt = f i := by
      unfold schedTransform
      rw [foldl_set_getD f dflt sched _ i (by simpa using hi), if_pos (hs i hi)]
    rw [List.getD_eq_getElem?_getD, List.getElem?_eq_getElem h1] at hgd
    simp only [Option.getD_some] at hgd
    rw [hgd]
    simp

theorem flatMap_map_id {α β : Type} (f : α → List β) (l : List α) :
    ((l.map f).flatMap fun x => x) = l.flatMap f := by
  induction l with
  | nil => simp
  | cons a l ih => simp [ih]

theorem createBoxTreeSched_eq (D L M k : ℕ) (W : Bx) (boxes : List Bx) (sched : List ℕ)
    (hs : ∀ i, i < boxes.length → i ∈ sched) :
    createBoxTreeSched D L M k W boxes sched = createBoxTree D L M k W boxes := by
  unfold createBoxTreeSched createBoxTree boxBuildPairs
  rw [schedTransform_eq _ _ _ _ hs]
  congr 1
  rw [← flatMap_map_id (boxPairsOf L k W boxes) (List.range boxes.length)]
  rfl

theorem createPointTreeSched_eq (D L M : ℕ) (W : Bx) (pts : List Pt) (sched : List ℕ)
    (hs : ∀ i, i < pts.length → i ∈ sched) :
    createPointTreeSched D L M W pts sched = createPointTree D L M W pts := by
  unfold createPointTreeSched createPointTree pointBuildPairs
  rw [schedTransform_eq _ _ _ _ hs]
  congr 1
  rw [← flatMap_map_id (pointPairsOf L W pts) (List.range pts.length)]
  rfl

/-- C6: building under any parallel-unsequenced schedule yields the node
table of the sequential build (for box trees and point trees alike), and
any two builds over identical inputs — under the same or different
schedules of the same mode — yield identical node tables. -/
theorem C6_parallel_build_equivalence (D L M k : ℕ) (W : Bx) (boxes : List Bx)
    (pts : List Pt) (sched sched' : List ℕ)
    (hs : ∀ i, i < boxes.length → i ∈ sched) (hs' : ∀ i, i < boxes.length → i ∈ sched')
    (hp : ∀ i, i < pts.length → i ∈ sched) (hp' : ∀ i, i < pts.length → i ∈ sched') :
    createBoxTreeSched D L M k W boxes sched = createBoxTree D L M k W boxes
    ∧ createBoxTreeSched D L M k W boxes sched' = createBoxTreeSched D L M k W boxes sched
    ∧ createPointTreeSched D L M W pts sched = createPointTree D L M W pts
    ∧ createPointTreeSched D L M W pts sched' = createPointTreeSched D L M W pts sched := by
  refine ⟨createBoxTreeSched_eq D L M k W boxes sched hs, ?_,
    createPointTreeSched_eq D L M W pts sched hp, ?_⟩
  · rw [createBoxTreeSched_eq D L M k W boxes sched hs,
      createBoxTreeSched_eq D L M k W boxes sched' hs']
  · rw [createPointTreeSched_eq D L M W pts sched hp,
      createPointTreeSched_eq D L M W pts sched' hp']

/-- Witness for C6: the scenario 2 boxes built under two scrambled
schedules agree with the sequential build. -/
theorem C6_parallel_build_equivalence_witness :
    createBoxTreeSched 2 3 2 2 scenario2World scenario2Boxes [4, 2, 0, 1, 3]
      = createBoxTree 2 3 2 2 scenario2World scenario2Boxes
    ∧ createBoxTreeSched 2 3 2 2 scenario2World scenario2Boxes [3, 1, 0, 2, 4]
      = createBoxTreeSched 2 3 2 2 scenario2World scenario2Boxes [4, 2, 0, 1, 3]
    ∧ createPointTreeSched 2 3 2 scenario2World [] [4, 2, 0, 1, 3]
      = createPointTree 2 3 2 scenario2World []
    ∧ createPointTreeSched 2 3 2 scenario2World [] [3, 1, 0, 2, 4]
      = createPointTreeSched 2 3 2 scenario2World [] [4, 2, 0, 1, 3] :=
  C6_parallel_build_equivalence 2 3 2 2 scenario2World scenario2Boxes []
    [4, 2, 0, 1, 3] [3, 1, 0, 2, 4] (by decide) (by decide) (by decide) (by decide)

/-- C8: `Erase` and `Update` on an id owned by no node report the missing
entity (`false`) and leave the node table completely unchanged. -/
theorem C8_missing_entity_on_edit (D L M : ℕ) (W : Bx) (boxes : List Bx) (t : Table) (i : ℕ)
    (h : tableHasId t i = false) :
    eraseOp D t i = (false, t) ∧ updateOp D L M W boxes t i = (false, t) := by
  have howners : (t.filter fun nd => nd.2.entityIds.contains i) = [] := by
    rw [List.filter_eq_nil_iff]
    intro nd hnd
    exact List.any_eq_false.mp h nd hnd
  have herase : eraseOp D t i = (false, t) := by
    unfold eraseOp
    rw [howners]
    rfl
  refine ⟨herase, ?_⟩
  unfold updateOp updateOpG
  rw [herase]

set_option maxRecDepth 40000 in
/-- Witness for C8: erasing and updating the absent id 7 in the scenario 2
tree reports failure and returns the tree unchanged. -/
theorem C8_missing_entity_on_edit_witness :
    eraseOp 2 scenario2Tree 7 = (false, scenario2Tree)
    ∧ updateOp 2 3 2 scenario2World scenario2Boxes scenario2Tree 7
        = (false, scenario2Tree) :=
  C8_missing_entity_on_edit 2 3 2 scenario2World scenario2Boxes scenario2Tree 7 (by decide)

theorem codeWF_pos {D L c : ℕ} (h : CodeWF D L c) : 0 < c := by
  obtain ⟨d, cs, _, _, _, rfl⟩ := h
  exact encode_pos d cs

theorem codeWF_depthOf {D L c : ℕ} (hD : 0 < D) (h : CodeWF D L c) :
    ∃ d cs, d ≤ L ∧ cs.length = D ∧ (∀ x ∈ cs, x < 2 ^ d) ∧ c = encode d cs
      ∧ depthOf D c = d := by
  obtain ⟨d, cs, h1, h2, h3, rfl⟩ := h
  exact ⟨d, cs, h1, h2, h3, rfl, depthOf_encode hD d cs h2⟩

theorem div_pow_eq_zero_of_depth_lt {D L c m : ℕ} (hD : 0 < D) (h : CodeWF D L c)
    (hm : depthOf D c < m) : c / 2 ^ (D * m) = 0 := by
  obtain ⟨d, cs, _, hlen, _, rfl, hdep⟩ := codeWF_depthOf hD h
  apply Nat.div_eq_of_lt
  have hs := encode_lt_sentinel d cs
  rw [hlen] at hs
  calc encode d cs < 2 ^ (D * d) * 2 := hs
    _ = 2 ^ (D * d + 1) := by rw [pow_succ]
    _ ≤ 2 ^ (D * m) := by
        apply Nat.pow_le_pow_right (by norm_num)
        have : d + 1 ≤ m := by omega
        calc D * d + 1 ≤ D * d + D := by omega
          _ = D * (d + 1) := by ring
          _ ≤ D * m := Nat.mul_le_mul_left D this

theorem prefAt_wf {D L c : ℕ} (hD : 0 < D) (h : CodeWF D L c) (e : ℕ)
    (he : e ≤ depthOf D c) :
    CodeWF D L (prefAt D c e) ∧ depthOf D (prefAt D c e) = e := by
  obtain ⟨d, cs, hdL, hlen, hlt, rfl, hdep⟩ := codeWF_depthOf hD h
  rw [hdep] at he
  unfold prefAt
  rw [hdep]
  have hsplit : encode d cs / 2 ^ (D * (d - e)) = encode e (cs.map (· / 2 ^ (d - e))) := by
    have hde : e + (d - e) = d := by omega
    have h2 := encode_div_pow e (d - e) cs
    rw [hlen, hde] at h2
    exact h2
  rw [hsplit]
  have hlen' : (cs.map (· / 2 ^ (d - e))).length = D := by simp [hlen]
  have hlt' : ∀ x ∈ cs.map (· / 2 ^ (d - e)), x < 2 ^ e := by
    intro x hx
    rw [List.mem_map] at hx
    obtain ⟨y, hy, rfl⟩ := hx
    have hyd := hlt y hy
    rw [Nat.div_lt_iff_lt_mul (by positivity), ← pow_add]
    calc y < 2 ^ d := hyd
      _ ≤ 2 ^ (e + (d - e)) := by
          apply Nat.pow_le_pow_right (by norm_num)
          omega
  exact ⟨⟨e, _, le_trans he hdL, hlen', hlt', rfl⟩, depthOf_encode hD e _ hlen'⟩

theorem ancSelfP_wf_elim {D L a c : ℕ} (hD : 0 < D) (hc : CodeWF D L c)
    (h : AncSelfP D a c) (ha : a ≠ 0) :
    ∃ e, e ≤ depthOf D c ∧ a = prefAt D c e ∧ depthOf D a = e ∧ CodeWF D L a := by
  obtain ⟨m, rfl⟩ := h
  by_cases hm : depthOf D c < m
  · exact absurd (div_pow_eq_zero_of_depth_lt hD hc hm) ha
  · push_neg at hm
    have hmm2 : depthOf D c - (depthOf D c - m) = m := by omega
    have heq : prefAt D c (depthOf D c - m) = c / 2 ^ (D * m) := by
      unfold prefAt
      rw [hmm2]
    have hwf := prefAt_wf hD hc (depthOf D c - m) (by omega)
    rw [heq] at hwf
    exact ⟨depthOf D c - m, by omega, heq.symm, hwf.2, hwf.1⟩

theorem ancSelf_iff_ancSelfP {D L a c : ℕ} (hD : 0 < D) (ha : CodeWF D L a)
    (hc : CodeWF D L c) : ancSelf D a c = true ↔ AncSelfP D a c := by
  constructor
  · intro h
    unfold ancSelf at h
    rw [beq_iff_eq] at h
    exact ⟨depthOf D c - depthOf D a, h.symm⟩
  · intro h
    obtain ⟨e, he, rfl, hdep, _⟩ := ancSelfP_wf_elim hD hc h (codeWF_pos ha).ne'
    unfold ancSelf
    rw [beq_iff_eq, hdep]
    rfl

theorem ancSelfP_trans {D a b c : ℕ} (h1 : AncSelfP D a b) (h2 : AncSelfP D b c) :
    AncSelfP D a c := by
  obtain ⟨m, rfl⟩ := h1
  obtain ⟨n, rfl⟩ := h2
  refine ⟨n + m, ?_⟩
  rw [Nat.div_div_eq_div_mul, ← pow_add, ← Nat.mul_add]

theorem mem_ancChain {D c x : ℕ} :
    x ∈ ancChain D c ↔ ∃ e, e ≤ depthOf D c ∧ x = prefAt D c e := by
  unfold ancChain
  simp only [List.mem_map, List.mem_range]
  constructor
  · rintro ⟨e, he, rfl⟩
    exact ⟨e, by omega, rfl⟩
  · rintro ⟨e, he, rfl⟩
    exact ⟨e, by omega, rfl⟩

theorem find?_range'_spec {p : ℕ → Bool} :
    ∀ {n s d : ℕ}, (List.range' s n).find? p = some d →
      p d = true ∧ s ≤ d ∧ ∀ e, s ≤ e → e < d → p e = false := by
  intro n
  induction n with
  | zero => intro s d h; simp at h
  | succ n ih =>
      intro s d h
      rw [List.range'_succ, List.find?_cons] at h
      rcases hps : p s with _ | _
      · rw [hps] at h
        simp only at h
        obtain ⟨h1, h2, h3⟩ := ih h
        refine ⟨h1, by omega, ?_⟩
        intro e he1 he2
        rcases Nat.eq_or_lt_of_le he1 with rfl | hlt
        · exact hps
        · exact h3 e (by omega) he2
      · rw [hps] at h
        simp only [Option.some.injEq] at h
        subst h
        exact ⟨hps, le_rfl, fun e he1 he2 => by omega⟩

theorem find?_range_spec {p : ℕ → Bool} {n d : ℕ} (h : (List.range n).find? p = some d) :
    p d = true ∧ ∀ e, e < d → p e = false := by
  rw [List.range_eq_range'] at h
  obtain ⟨h1, _, h3⟩ := find?_range'_spec h
  exact ⟨h1, fun e he => h3 e (by omega) he⟩

/-- Structure of the truncated owner code: either the shallowest prefix
with a small-enough bucket (all strictly shallower prefixes overfull), or
the code itself when every prefix is overfull. -/
theorem truncCode_spec (D M : ℕ) (codes : List ℕ) (c : ℕ) :
    (∃ dF, dF ≤ depthOf D c ∧ truncCode D M codes c = prefAt D c dF
        ∧ bucketSize D codes (prefAt D c dF) ≤ M
        ∧ ∀ d, d < dF → M < bucketSize D codes (prefAt D c d))
    ∨ (truncCode D M codes c = c
        ∧ ∀ d, d ≤ depthOf D c → M < bucketSize D codes (prefAt D c d)) := by
  unfold truncCode
  rcases hf : (List.range (depthOf D c + 1)).find?
      (fun d => decide (bucketSize D codes (prefAt D c d) ≤ M)) with _ | dF
  · right
    rw [List.find?_eq_none] at hf
    refine ⟨rfl, fun d hd => ?_⟩
    have := hf d (by rw [List.mem_range]; omega)
    simpa using this
  · left
    obtain ⟨h1, h2⟩ := find?_range_spec hf
    have hdF : dF ≤ depthOf D c := by
      have : dF ∈ List.range (depthOf D c + 1) := List.mem_of_find?_eq_some hf
      rw [List.mem_range] at this
      omega
    refine ⟨dF, hdF, rfl, by simpa using h1, fun d hd => ?_⟩
    have := h2 d hd
    simpa using this

theorem truncCode_ancSelfP (D M : ℕ) (codes : List ℕ) (c : ℕ) :
    AncSelfP D (truncCode D M codes c) c := by
  rcases truncCode_spec D M codes c with ⟨dF, _, heq, _, _⟩ | ⟨heq, _⟩
  · rw [heq]
    exact ⟨depthOf D c - dF, rfl⟩
  · rw [heq]
    exact ancSelfP_refl D c

theorem gridCoord_lt (w0 w1 : ℚ) (L : ℕ) (x : ℚ) : gridCoord w0 w1 L x < 2 ^ L := by
  unfold gridCoord
  have h1 : (0:ℕ) < 2 ^ L := by positivity
  omega

theorem gridOf_mem_lt (L : ℕ) (w0s w1s xs : List ℚ) :
    ∀ g ∈ gridOf L w0s w1s xs, g < 2 ^ L := by
  induction w0s generalizing w1s xs with
  | nil => intro g hg; simp [gridOf] at hg
  | cons w0 ws0 ih =>
      intro g hg
      match w1s, xs with
      | [], _ => simp [gridOf] at hg
      | _ :: _, [] => simp [gridOf] at hg
      | w1 :: ws1, x :: xs =>
          simp only [gridOf, List.mem_cons] at hg
          rcases hg with rfl | hg
          · exact gridCoord_lt _ _ _ _
          · exact ih ws1 xs g hg

theorem gridOf_length (L : ℕ) (w0s w1s xs : List ℚ) :
    (gridOf L w0s w1s xs).length = min w0s.length (min w1s.length xs.length) := by
  induction w0s generalizing w1s xs with
  | nil => simp [gridOf]
  | cons w0 ws0 ih =>
      match w1s, xs with
      | [], _ => simp [gridOf]
      | _ :: _, [] => simp [gridOf]
      | w1 :: ws1, x :: xs =>
          simp only [gridOf, List.length_cons, ih ws1 xs]
          omega

theorem mem_prodLists {rs : List (List ℕ)} {cs : List ℕ} :
    cs ∈ prodLists rs ↔ List.Forall₂ (fun x r => x ∈ r) cs rs := by
  induction rs generalizing cs with
  | nil =>
      simp only [prodLists, List.mem_singleton]
      constructor
      · rintro rfl; exact List.Forall₂.nil
      · intro h; cases h; rfl
  | cons r rs ih =>
      simp only [prodLists, List.mem_flatMap, List.mem_map]
      constructor
      · rintro ⟨x, hx, ⟨cs', hcs', rfl⟩⟩
        exact List.Forall₂.cons hx (ih.mp hcs')
      · intro h
        cases h with
        | cons hx hrest => exact ⟨_, hx, _, ih.mpr hrest, rfl⟩

theorem forall₂_mem_imp {α β : Type} {R : α → β → Prop} {P : α → Prop} {l1 : List α}
    {l2 : List β} (h : List.Forall₂ R l1 l2) (himp : ∀ a b, b ∈ l2 → R a b → P a) :
    ∀ a ∈ l1, P a := by
  induction h with
  | nil => simp
  | @cons a b l1t l2t hR _ ih =>
      intro x hx
      rcases List.mem_cons.mp hx with rfl | hx2
      · exact himp x b (by simp) hR
      · exact ih (fun a2 b2 hb2 hr => himp a2 b2 (by simp [hb2]) hr) x hx2

theorem mem_boxPartCodes_wf {D L k : ℕ} {W b : Bx} (hD : 0 < D)
    (hW0 : W.Min.length = D) (hW1 : W.Max.length = D) (hb0 : b.Min.length = D)
    (hb1 : b.Max.length = D) :
    ∀ c ∈ boxPartCodes L k W b, CodeWF D L c := by
  intro c hc
  unfold boxPartCodes at hc
  rw [List.mem_map] at hc
  obtain ⟨cs, hcs, rfl⟩ := hc
  set gmin := gridMinOf W L b with hgmin
  set gmax := gridMaxOf W L b with hgmax
  set can := canDepth L gmin gmax with hcan
  set dp := min (can + k) L with hdp
  have hglen : gmin.length = D := by
    rw [hgmin]
    unfold gridMinOf
    rw [gridOf_length]
    omega
  have hglen2 : gmax.length = D := by
    rw [hgmax]
    unfold gridMaxOf
    rw [gridOf_length]
    omega
  unfold partCoords at hcs
  rw [mem_prodLists] at hcs
  have hlen : cs.length = D := by
    have h1 := List.Forall₂.length_eq hcs
    rw [h1, List.length_map, List.length_zip, hglen, hglen2]
    omega
  have hdpL : dp ≤ L := by
    rw [hdp]
    exact Nat.min_le_right _ _
  refine ⟨dp, cs, hdpL, hlen, ?_, rfl⟩
  refine forall₂_mem_imp hcs ?_
  intro x r hr hxr
  rw [List.mem_map] at hr
  obtain ⟨ab, hab, rfl⟩ := hr
  have hx2 := (mem_rangeIcc.mp hxr).2
  have hmax_lt : ab.2 < 2 ^ L :=
    gridOf_mem_lt L _ _ _ _ (List.of_mem_zip hab).2
  calc x ≤ ab.2 / 2 ^ (L - dp) := hx2
    _ < 2 ^ dp := by
        rw [Nat.div_lt_iff_lt_mul (by positivity), ← pow_add]
        have hLd : dp + (L - dp) = L := by omega
        rw [hLd]
        exact hmax_lt

theorem pointCode_wf {D L : ℕ} {W : Bx} {p : Pt} (hD : 0 < D)
    (hW0 : W.Min.length = D) (hW1 : W.Max.length = D) (hp : p.length = D) :
    CodeWF D L (pointCode L W p) := by
  refine ⟨L, gridOf L W.Min W.Max p, le_rfl, ?_, gridOf_mem_lt L _ _ _, rfl⟩
  rw [gridOf_length]
  omega

theorem buildTable_eq (D M : ℕ) (prs : List (ℕ × ℕ)) :
    buildTable D M prs
      = (tableCodes D (ownersOf D M prs)).map
          (fun c => (c, recordOf D M prs (tableCodes D (ownersOf D M prs)) c)) := rfl

theorem mem_tableCodes {D : ℕ} {owners : List ℕ} {c : ℕ} :
    c ∈ tableCodes D owners ↔ ∃ o ∈ owners, c ∈ ancChain D o := by
  unfold tableCodes
  rw [(List.perm_insertionSort _ _).mem_iff, List.mem_dedup, List.mem_flatMap]

theorem mem_buildTable {D M : ℕ} {prs : List (ℕ × ℕ)} {c : ℕ} {nd : Nd} :
    (c, nd) ∈ buildTable D M prs ↔
      c ∈ tableCodes D (ownersOf D M prs)
        ∧ nd = recordOf D M prs (tableCodes D (ownersOf D M prs)) c := by
  rw [buildTable_eq, List.mem_map]
  constructor
  · rintro ⟨c', hc', heq⟩
    have h1 : c' = c := congrArg Prod.fst heq
    subst h1
    exact ⟨hc', (congrArg Prod.snd heq).symm⟩
  · rintro ⟨hc, rfl⟩
    exact ⟨c, hc, rfl⟩

theorem prefAt_self (D x : ℕ) : prefAt D x (depthOf D x) = x := by
  unfold prefAt
  simp

/-- Every table code is well-formed and lies on the ancestor chain of some
pair code. -/
theorem mem_tableCodes_wf {D L M : ℕ} {prs : List (ℕ × ℕ)} (hD : 0 < D)
    (hwf : ∀ x ∈ prs.map (·.1), CodeWF D L x) :
    ∀ c ∈ tableCodes D (ownersOf D M prs),
      CodeWF D L c ∧ ∃ ph ∈ prs.map (·.1), AncSelfP D c ph := by
  intro c hc
  rw [mem_tableCodes] at hc
  obtain ⟨o, ho, hchain⟩ := hc
  unfold ownersOf at ho
  rw [List.mem_map] at ho
  obtain ⟨ph, hph, rfl⟩ := ho
  have hphwf := hwf ph hph
  have howf : CodeWF D L (truncCode D M (prs.map (·.1)) ph) := by
    rcases truncCode_spec D M (prs.map (·.1)) ph with ⟨dF, hdF, heq, _, _⟩ | ⟨heq, _⟩
    · rw [heq]
      exact (prefAt_wf hD hphwf dF hdF).1
    · rw [heq]
      exact hphwf
  rw [mem_ancChain] at hchain
  obtain ⟨e, he, rfl⟩ := hchain
  have hcwf := (prefAt_wf hD howf e he).1
  refine ⟨hcwf, ph, hph, ?_⟩
  exact ancSelfP_trans (ancSelfP_trans ⟨_, rfl⟩ (truncCode_ancSelfP D M _ ph)) (ancSelfP_refl D ph)

/-- Core of invariant 5: a table code whose subtree bucket is small has no
strict descendant in the table. -/
theorem small_bucket_no_descendant {D L M : ℕ} {prs : List (ℕ × ℕ)} (hD : 0 < D)
    (hwf : ∀ x ∈ prs.map (·.1), CodeWF D L x)
    {c c' : ℕ} (hc : c ∈ tableCodes D (ownersOf D M prs))
    (hc' : c' ∈ tableCodes D (ownersOf D M prs))
    (hbucket : bucketSize D (prs.map (·.1)) c ≤ M)
    (hanc : AncSelfP D c c') : c' = c := by
  obtain ⟨hcwf, _⟩ := mem_tableCodes_wf hD hwf c hc
  obtain ⟨hc'wf, _⟩ := mem_tableCodes_wf hD hwf c' hc'
  rw [mem_tableCodes] at hc'
  obtain ⟨o, ho, hchain⟩ := hc'
  unfold ownersOf at ho
  rw [List.mem_map] at ho
  obtain ⟨ph, hph, rfl⟩ := ho
  have hphwf := hwf ph hph
  rw [mem_ancChain] at hchain
  obtain ⟨e2, he2, rfl⟩ := hchain
  -- c is an ancestor of ph; find its depth among ph's prefixes
  set t := truncCode D M (prs.map (·.1)) ph with ht
  have htanc : AncSelfP D t ph := truncCode_ancSelfP D M _ ph
  have hc'anc : AncSelfP D (prefAt D t e2) t := ⟨depthOf D t - e2, rfl⟩
  have hcanc_ph : AncSelfP D c ph :=
    ancSelfP_trans (ancSelfP_trans hanc hc'anc) htanc
  obtain ⟨ec, hec, hceq, hcdep, _⟩ :=
    ancSelfP_wf_elim hD hphwf hcanc_ph (codeWF_pos hcwf).ne'
  have hbucket_ec : bucketSize D (prs.map (·.1)) (prefAt D ph ec) ≤ M := by
    rw [← hceq]
    exact hbucket
  rcases truncCode_spec D M (prs.map (·.1)) ph with
      ⟨dF, hdF, heqt, _, hmin⟩ | ⟨heqt, hall⟩
  · -- t = prefAt ph dF, minimal
    have hecF : dF ≤ ec := by
      by_contra hlt
      push_neg at hlt
      exact absurd hbucket_ec (not_le.mpr (hmin ec hlt))
    -- depth chain: depth c ≤ depth c' ≤ depth t = dF
    have htwf : CodeWF D L t := by
      rw [ht, heqt]
      exact (prefAt_wf hD hphwf dF hdF).1
    have htdep : depthOf D t = dF := by
      rw [ht, heqt]
      exact (prefAt_wf hD hphwf dF hdF).2
    have hc'dep : depthOf D (prefAt D t e2) = e2 := by
      rw [htdep] at he2
      exact (prefAt_wf hD htwf e2 (by rw [htdep]; exact he2)).2
    have hc'wf2 : CodeWF D L (prefAt D t e2) :=
      (prefAt_wf hD htwf e2 (by rw [htdep]; rw [htdep] at he2; exact he2)).1
    obtain ⟨e1, he1, hceq1, hcdep1, _⟩ :=
      ancSelfP_wf_elim hD hc'wf2 hanc (codeWF_pos hcwf).ne'
    -- ec = depth c = e1 ≤ e2 ≤ dF ≤ ec, so all equal
    have h1 : ec = e1 := by omega
    have h2 : e1 ≤ e2 := by
      rw [← hc'dep]
      exact he1
    have h3 : e2 ≤ dF := by
      rw [← htdep]
      exact he2
    have he12 : e1 = e2 := by omega
    have hfix : prefAt D (prefAt D t e2) e1 = prefAt D t e2 := by
      have h5 : e1 = depthOf D (prefAt D t e2) := by rw [hc'dep]; omega
      rw [h5, prefAt_self]
    rw [hceq1, hfix]
  · have := hall ec hec
    exact absurd hbucket_ec (not_le.mpr this)

theorem boxBuildPairs_codes_wf {D L k : ℕ} {W : Bx} {boxes : List Bx} (hD : 0 < D)
    (hW0 : W.Min.length = D) (hW1 : W.Max.length = D)
    (hbx : ∀ b ∈ boxes, b.Min.length = D ∧ b.Max.length = D) :
    ∀ x ∈ (sortPairs (boxBuildPairs L k W boxes)).map (·.1), CodeWF D L x := by
  intro x hx
  rw [List.mem_map] at hx
  obtain ⟨pr, hpr, rfl⟩ := hx
  unfold sortPairs at hpr
  rw [(List.perm_insertionSort _ _).mem_iff] at hpr
  unfold boxBuildPairs at hpr
  rw [List.mem_flatMap] at hpr
  obtain ⟨i, hi, hpr2⟩ := hpr
  rw [List.mem_range] at hi
  unfold boxPairsOf at hpr2
  rw [List.mem_map] at hpr2
  obtain ⟨code, hcode, rfl⟩ := hpr2
  have hbmem : boxes.getD i ⟨[], []⟩ ∈ boxes := by
    rw [List.getD_eq_getElem _ _ hi]
    exact List.getElem_mem hi
  obtain ⟨h1, h2⟩ := hbx _ hbmem
  exact mem_boxPartCodes_wf hD hW0 hW1 h1 h2 code hcode

theorem record_ids_le_bucket {D L M : ℕ} {prs : List (ℕ × ℕ)} (hD : 0 < D)
    (hwf : ∀ x ∈ prs.map (·.1), CodeWF D L x) (codes : List ℕ) (c : ℕ)
    (hcwf : CodeWF D L c) :
    (recordOf D M prs codes c).entityIds.length ≤ bucketSize D (prs.map (·.1)) c := by
  unfold recordOf bucketSize
  simp only [List.length_map]
  rw [← List.countP_eq_length_filter, List.countP_map]
  apply List.countP_mono_left
  intro pr hpr hp
  simp only [Function.comp_apply]
  rw [beq_iff_eq] at hp
  have hprwf : CodeWF D L pr.1 := hwf pr.1 (List.mem_map.mpr ⟨pr, hpr, rfl⟩)
  rw [ancSelf_iff_ancSelfP hD hcwf hprwf]
  rw [← hp]
  exact truncCode_ancSelfP D M _ pr.1

/-- C7: in every bulk-built box tree, a node whose subtree bucket holds at
most `max_elements_per_node` pairs owns at most that many entities and has
no strict descendant node — no child is ever created solely to hold a
small node's entities. -/
theorem C7_no_split_for_small_nodes (D L M k : ℕ) (W : Bx) (boxes : List Bx)
    (c c' : ℕ) (nd nd' : Nd) (hD : 0 < D)
    (hW0 : W.Min.length = D) (hW1 : W.Max.length = D)
    (hbx : ∀ b ∈ boxes, b.Min.length = D ∧ b.Max.length = D)
    (hmem : (c, nd) ∈ createBoxTree D L M k W boxes)
    (hmem' : (c', nd') ∈ createBoxTree D L M k W boxes)
    (hanc : AncSelfP D c c')
    (hsmall : bucketSize D ((sortPairs (boxBuildPairs L k W boxes)).map (·.1)) c ≤ M) :
    nd.entityIds.length ≤ bucketSize D ((sortPairs (boxBuildPairs L k W boxes)).map (·.1)) c
    ∧ c' = c := by
  have hwf := boxBuildPairs_codes_wf (L := L) (k := k) hD hW0 hW1 hbx
  unfold createBoxTree at hmem hmem'
  rw [mem_buildTable] at hmem hmem'
  obtain ⟨hck, hrec⟩ := hmem
  obtain ⟨hck', _⟩ := hmem'
  have hcwf := (mem_tableCodes_wf hD hwf c hck).1
  constructor
  · rw [hrec]
    exact record_ids_le_bucket hD hwf _ c hcwf
  · exact small_bucket_no_descendant hD hwf hck hck' hsmall hanc

set_option maxRecDepth 40000 in
/-- Witness for C7 at the scenario 2 tree: node 5 owns two entities within
a bucket of two and has no strict descendant. -/
theorem C7_no_split_for_small_nodes_witness :
    (⟨0, [1, 4]⟩ : Nd).entityIds.length
        ≤ bucketSize 2 ((sortPairs (boxBuildPairs 3 2 scenario2World scenario2Boxes)).map (·.1)) 5
    ∧ 5 = 5 :=
  C7_no_split_for_small_nodes 2 3 2 2 scenario2World scenario2Boxes 5 5 ⟨0, [1, 4]⟩ ⟨0, [1, 4]⟩
    (by decide) (by decide) (by decide) (by decide) (by decide) (by decide)
    ⟨0, by decide⟩ (by decide)

/-! ## Child-mask bit arithmetic -/
theorem maskTest_succ (m j : ℕ) : maskTest m (j + 1) = maskTest (m / 2) j := by
  unfold maskTest
  have h : m / 2 ^ (j + 1) = m / 2 / 2 ^ j := by
    rw [Nat.div_div_eq_div_mul, ← pow_succ']
  rw [h]

theorem maskTest_zero (m : ℕ) : maskTest m 0 = (m % 2 == 1) := by
  unfold maskTest
  simp

theorem maskTest_false_mod {m : ℕ} (h : maskTest m 0 = false) : m % 2 = 0 := by
  rw [maskTest_zero, beq_eq_false_iff_ne] at h
  omega

theorem maskTest_true_mod {m : ℕ} (h : maskTest m 0 = true) : m % 2 = 1 := by
  rw [maskTest_zero, beq_iff_eq] at h
  exact h

theorem maskTest_add_pow_of_ne :
    ∀ {j' j m : ℕ}, j' ≠ j → maskTest m j = false → maskTest (m + 2 ^ j) j' = maskTest m j' := by
  intro j'
  induction j' with
  | zero =>
      intro j m hne hbit
      match j, hne with
      | jj + 1, _ =>
          rw [maskTest_zero, maskTest_zero]
          have h2 : 2 ^ (jj + 1) = 2 * 2 ^ jj := by rw [pow_succ']
          have : (m + 2 ^ (jj + 1)) % 2 = m % 2 := by omega
          rw [this]
  | succ jj' ih =>
      intro j m hne hbit
      rw [maskTest_succ, maskTest_succ]
      match j, hne with
      | 0, _ =>
          have hm := maskTest_false_mod hbit
          have : (m + 2 ^ 0) / 2 = m / 2 := by
            simp only [pow_zero]
            omega
          rw [this]
      | jj + 1, hne =>
          have h2 : 2 ^ (jj + 1) = 2 * 2 ^ jj := by rw [pow_succ']
          have hdiv : (m + 2 ^ (jj + 1)) / 2 = m / 2 + 2 ^ jj := by omega
          rw [hdiv]
          refine ih (fun h => hne (by omega)) ?_
          rw [← maskTest_succ]
          exact hbit

theorem maskTest_add_pow_self :
    ∀ {j m : ℕ}, maskTest m j = false → maskTest (m + 2 ^ j) j = true := by
  intro j
  induction j with
  | zero =>
      intro m hbit
      have hm := maskTest_false_mod hbit
      rw [maskTest_zero]
      simp only [pow_zero]
      have h1 : (m + 1) % 2 = 1 := by omega
      rw [h1]
      rfl
  | succ jj ih =>
      intro m hbit
      rw [maskTest_succ]
      have h2 : 2 ^ (jj + 1) = 2 * 2 ^ jj := by rw [pow_succ']
      have hdiv : (m + 2 ^ (jj + 1)) / 2 = m / 2 + 2 ^ jj := by omega
      rw [hdiv]
      refine ih ?_
      rw [← maskTest_succ]
      exact hbit

theorem maskTest_true_ge : ∀ {j m : ℕ}, maskTest m j = true → 2 ^ j ≤ m := by
  intro j
  induction j with
  | zero =>
      intro m hbit
      have := maskTest_true_mod hbit
      simp only [pow_zero]
      omega
  | succ jj ih =>
      intro m hbit
      rw [maskTest_succ] at hbit
      have := ih hbit
      have h2 : 2 ^ (jj + 1) = 2 * 2 ^ jj := by rw [pow_succ']
      omega

theorem maskTest_sub_pow_of_ne :
    ∀ {j' j m : ℕ}, j' ≠ j → maskTest m j = true → maskTest (m - 2 ^ j) j' = maskTest m j' := by
  intro j'
  induction j' with
  | zero =>
      intro j m hne hbit
      match j, hne with
      | jj + 1, _ =>
          have hge := maskTest_true_ge hbit
          rw [maskTest_zero, maskTest_zero]
          have h2 : 2 ^ (jj + 1) = 2 * 2 ^ jj := by rw [pow_succ']
          have : (m - 2 ^ (jj + 1)) % 2 = m % 2 := by omega
          rw [this]
  | succ jj' ih =>
      intro j m hne hbit
      rw [maskTest_succ, maskTest_succ]
      match j, hne with
      | 0, _ =>
          have hm := maskTest_true_mod hbit
          have : (m - 2 ^ 0) / 2 = m / 2 := by
            simp only [pow_zero]
            omega
          rw [this]
      | jj + 1, hne =>
          have hge := maskTest_true_ge hbit
          have h2 : 2 ^ (jj + 1) = 2 * 2 ^ jj := by rw [pow_succ']
          have hdiv : (m - 2 ^ (jj + 1)) / 2 = m / 2 - 2 ^ jj := by omega
          rw [hdiv]
          refine ih (fun h => hne (by omega)) ?_
          rw [← maskTest_succ]
          exact hbit

theorem maskTest_setChildBit_self (nd : Nd) (j : ℕ) :
    maskTest (setChildBit nd j).childMask j = true := by
  rcases hb : maskTest nd.childMask j with _ | _
  · have h2 := maskTest_add_pow_self hb
    simpa [setChildBit, hb] using h2
  · simpa [setChildBit, hb] using hb

theorem maskTest_setChildBit_mono (nd : Nd) (j j' : ℕ)
    (h : maskTest nd.childMask j' = true) :
    maskTest (setChildBit nd j).childMask j' = true := by
  rcases hb : maskTest nd.childMask j with _ | _
  · by_cases hne : j' = j
    · subst hne
      have h2 := maskTest_add_pow_self hb
      simpa [setChildBit, hb] using h2
    · have h2 : maskTest (nd.childMask + 2 ^ j) j' = true := by
        rw [maskTest_add_pow_of_ne hne hb]
        exact h
      simpa [setChildBit, hb] using h2
  · simpa [setChildBit, hb] using h

theorem maskTest_clearChildBit_ne (nd : Nd) (j j' : ℕ) (hne : j' ≠ j) :
    maskTest (clearChildBit nd j).childMask j' = maskTest nd.childMask j' := by
  rcases hb : maskTest nd.childMask j with _ | _
  · simp [clearChildBit, hb]
  · have h2 := maskTest_sub_pow_of_ne hne hb
    simpa [clearChildBit, hb] using h2

theorem maskTest_maskVal (bs : List Bool) : ∀ j : ℕ, maskTest (maskVal bs) j = bs.getD j false := by
  induction bs with
  | nil =>
      intro j
      simp only [maskVal, List.getD]
      unfold maskTest
      simp
  | cons b bs ih =>
      intro j
      match j with
      | 0 =>
          rw [maskTest_zero]
          simp only [List.getD_cons_zero]
          rcases b with _ | _
          · have h1 : maskVal (false :: bs) % 2 = 0 := by
              have h0 : maskVal (false :: bs) = 0 + 2 * maskVal bs := rfl
              rw [h0]
              omega
            rw [h1]
            rfl
          · have h1 : maskVal (true :: bs) % 2 = 1 := by
              have h0 : maskVal (true :: bs) = 1 + 2 * maskVal bs := rfl
              rw [h0]
              omega
            rw [h1]
            rfl
      | j + 1 =>
          rw [maskTest_succ]
          simp only [List.getD_cons_succ]
          have h1 : maskVal (b :: bs) / 2 = maskVal bs := by
            rcases b with _ | _
            · have h0 : maskVal (false :: bs) = 0 + 2 * maskVal bs := rfl
              rw [h0]
              omega
            · have h0 : maskVal (true :: bs) = 1 + 2 * maskVal bs := rfl
              rw [h0]
              omega
          rw [h1]
          exact ih j

theorem tGet_some_mem {t : Table} {c : ℕ} {nd : Nd} (h : tGet t c = some nd) :
    (c, nd) ∈ t := by
  unfold tGet at h
  rcases hf : t.find? fun e => e.1 == c with _ | e
  · rw [hf] at h
    cases h
  · rw [hf] at h
    have h2 : e.2 = nd := Option.some.inj h
    have hmem := List.mem_of_find?_eq_some hf
    have hpred := List.find?_some hf
    rw [beq_iff_eq] at hpred
    have : e = (c, nd) := by
      rcases e with ⟨e1, e2⟩
      simp only at hpred h2
      rw [hpred, h2]
    rw [← this]
    exact hmem

theorem tGet_none_iff {t : Table} {c : ℕ} : tGet t c = none ↔ c ∉ keysOf t := by
  unfold tGet keysOf
  rw [Option.map_eq_none', List.find?_eq_none]
  constructor
  · intro h hc
    rw [List.mem_map] at hc
    obtain ⟨e, he, heq⟩ := hc
    exact h e he (by rw [beq_iff_eq]; exact heq)
  · intro h e he hbe
    rw [beq_iff_eq] at hbe
    exact h (List.mem_map.mpr ⟨e, he, hbe⟩)

theorem tGet_isSome_of_mem {t : Table} {c : ℕ} {nd : Nd} (h : (c, nd) ∈ t) :
    ∃ nd', tGet t c = some nd' := by
  rcases hf : tGet t c with _ | nd'
  · rw [tGet_none_iff] at hf
    exact absurd (List.mem_map.mpr ⟨(c, nd), h, rfl⟩) hf
  · exact ⟨nd', rfl⟩

theorem keysOf_tSet (t : Table) (c : ℕ) (nd : Nd) : keysOf (tSet t c nd) = keysOf t := by
  unfold keysOf tSet
  rw [List.map_map]
  apply List.map_congr_left
  intro e _
  simp only [Function.comp_apply]
  by_cases h : e.1 = c
  · rw [if_pos h]
    exact h.symm
  · rw [if_neg h]

theorem tGet_tSet_ne {t : Table} {c x : ℕ} {nd : Nd} (h : x ≠ c) :
    tGet (tSet t c nd) x = tGet t x := by
  unfold tGet tSet
  induction t with
  | nil => rfl
  | cons e rest ih =>
      simp only [List.map_cons, List.find?_cons]
      by_cases he : e.1 = c
      · rw [if_pos he]
        have h1 : ((c, nd).1 == x) = false := by
          rw [beq_eq_false_iff_ne]
          exact fun hh => h hh.symm
        have h2 : (e.1 == x) = false := by
          rw [beq_eq_false_iff_ne]
          rw [he]
          exact fun hh => h hh.symm
        rw [h1, h2]
        exact ih
      · rw [if_neg he]
        rcases hx : (e.1 == x) with _ | _
        · exact ih
        · rfl

theorem tGet_tSet_self {t : Table} {c : ℕ} {nd nd0 : Nd} (h : tGet t c = some nd0) :
    tGet (tSet t c nd) c = some nd := by
  unfold tGet tSet
  unfold tGet at h
  induction t with
  | nil => simp at h
  | cons e rest ih =>
      simp only [List.map_cons, List.find?_cons]
      by_cases he : e.1 = c
      · rw [if_pos he]
        have h1 : ((c, nd).1 == c) = true := by simp
        rw [h1]
        rfl
      · rw [if_neg he]
        have h2 : (e.1 == c) = false := by
          rw [beq_eq_false_iff_ne]
          exact he
        rw [h2]
        simp only [List.find?_cons, h2] at h
        exact ih h

theorem mem_tSet_elim {t : Table} {c x : ℕ} {nd ndx : Nd} (h : (x, ndx) ∈ tSet t c nd) :
    (x = c ∧ ndx = nd) ∨ ((x, ndx) ∈ t ∧ x ≠ c) ∨ ((x, ndx) ∈ t ∧ x = c) := by
  unfold tSet at h
  rw [List.mem_map] at h
  obtain ⟨e, he, heq⟩ := h
  by_cases hc : e.1 = c
  · rw [if_pos hc] at heq
    left
    exact ⟨(congrArg Prod.fst heq).symm, (congrArg Prod.snd heq).symm⟩
  · rw [if_neg hc] at heq
    right
    left
    rw [heq] at he hc
    exact ⟨he, hc⟩

theorem mem_tErase {t : Table} {c x : ℕ} {ndx : Nd} :
    (x, ndx) ∈ tErase t c ↔ (x, ndx) ∈ t ∧ x ≠ c := by
  unfold tErase
  rw [List.mem_filter]
  simp

theorem tGet_tErase_ne {t : Table} {c x : ℕ} (h : x ≠ c) :
    tGet (tErase t c) x = tGet t x := by
  unfold tGet tErase
  induction t with
  | nil => rfl
  | cons e rest ih =>
      rw [List.filter_cons]
      by_cases he : e.1 = c
      · rw [if_neg (by simp [he])]
        have h2 : (e.1 == x) = false := by
          rw [beq_eq_false_iff_ne, he]
          exact fun hh => h hh.symm
        conv_rhs => rw [List.find?_cons]
        rw [h2]
        exact ih
      · rw [if_pos (by simp [he])]
        simp only [List.find?_cons]
        rcases hx : (e.1 == x) with _ | _
        · exact ih
        · rfl

theorem mem_sortedInsert {t : Table} {c x : ℕ} {nd ndx : Nd} :
    (x, ndx) ∈ sortedInsert t c nd ↔ (x, ndx) ∈ t ∨ (x = c ∧ ndx = nd) := by
  induction t with
  | nil =>
      simp only [sortedInsert, List.mem_singleton, List.not_mem_nil, false_or]
      constructor
      · intro h
        exact ⟨(congrArg Prod.fst h), (congrArg Prod.snd h)⟩
      · rintro ⟨rfl, rfl⟩
        rfl
  | cons e rest ih =>
      simp only [sortedInsert]
      by_cases hle : c ≤ e.1
      · rw [if_pos hle]
        simp only [List.mem_cons]
        constructor
        · rintro (h | h)
          · right
            exact ⟨congrArg Prod.fst h, congrArg Prod.snd h⟩
          · left
            exact h
        · rintro (h | ⟨rfl, rfl⟩)
          · right
            exact h
          · left
            rfl
      · rw [if_neg hle]
        simp only [List.mem_cons, ih]
        tauto

theorem tGet_sortedInsert_ne {t : Table} {c x : ℕ} {nd : Nd} (h : x ≠ c) :
    tGet (sortedInsert t c nd) x = tGet t x := by
  induction t with
  | nil =>
      unfold sortedInsert tGet
      simp only [List.find?_cons, List.find?_nil]
      have h1 : ((c, nd).1 == x) = false := by
        rw [beq_eq_false_iff_ne]
        exact fun hh => h hh.symm
      rw [h1]
  | cons e rest ih =>
      unfold sortedInsert
      by_cases hle : c ≤ e.1
      · rw [if_pos hle]
        unfold tGet
        simp only [List.find?_cons]
        have h1 : ((c, nd).1 == x) = false := by
          rw [beq_eq_false_iff_ne]
          exact fun hh => h hh.symm
        rw [h1]
      · rw [if_neg hle]
        unfold tGet
        simp only [List.find?_cons]
        rcases hx : (e.1 == x) with _ | _
        · exact ih
        · rfl

theorem tGet_sortedInsert_self {t : Table} {c : ℕ} {nd : Nd} (h : tGet t c = none) :
    tGet (sortedInsert t c nd) c = some nd := by
  induction t with
  | nil =>
      unfold sortedInsert tGet
      simp
  | cons e rest ih =>
      unfold tGet at h
      simp only [List.find?_cons] at h
      rcases hx : (e.1 == c) with _ | _
      · rw [hx] at h
        unfold sortedInsert
        by_cases hle : c ≤ e.1
        · rw [if_pos hle]
          unfold tGet
          simp only [List.find?_cons]
          have h1 : ((c, nd).1 == c) = true := by simp
          rw [h1]
          rfl
        · rw [if_neg hle]
          unfold tGet
          simp only [List.find?_cons, hx]
          exact ih h
      · rw [hx] at h
        simp at h

theorem maskTest_zero_mask (j : ℕ) : maskTest 0 j = false := by
  unfold maskTest
  simp

theorem maskTest_maskOf {D : ℕ} (codes : List ℕ) (c j : ℕ) (hj : j < 2 ^ D) :
    maskTest (maskOf D codes c) j = decide (childC D c j ∈ codes) := by
  unfold maskOf
  rw [maskTest_maskVal]
  rw [List.getD_eq_getElem?_getD, List.getElem?_map, List.getElem?_range hj]
  rfl

theorem tGet_tErase_self (t : Table) (c : ℕ) : tGet (tErase t c) c = none := by
  rw [tGet_none_iff]
  intro h
  unfold keysOf tErase at h
  rw [List.mem_map] at h
  obtain ⟨e, he, heq⟩ := h
  rw [List.mem_filter] at he
  have h2 := he.2
  simp only [decide_eq_true_eq] at h2
  exact h2 heq

theorem mem_keysOf_iff_isSome {t : Table} {c : ℕ} :
    c ∈ keysOf t ↔ (tGet t c).isSome = true := by
  rcases h : tGet t c with _ | nd
  · rw [tGet_none_iff] at h
    simp [h]
  · have := tGet_some_mem h
    simp only [Option.isSome_some, iff_true]
    exact List.mem_map.mpr ⟨(c, nd), this, rfl⟩

/-- A non-root code determines itself from its parent and child index. -/
theorem childC_parent_childIdx (D c : ℕ) : childC D (parentC D c) (childIdx D c) = c := by
  unfold childC parentC childIdx
  rw [Nat.mul_comm]
  exact Nat.div_add_mod c (2 ^ D)

/-- Replacing a record without touching its child mask preserves the
parent-closure invariant. -/
theorem parentClosed_tSet_sameMask {D : ℕ} {t : Table} {c : ℕ} {nd nd' : Nd}
    (hpc : ParentClosed D t) (hget : tGet t c = some nd)
    (hmask : nd'.childMask = nd.childMask) :
    ParentClosed D (tSet t c nd') := by
  intro x hx hxr
  have hx' : (tGet t x).isSome = true := by
    by_cases hxc : x = c
    · rw [hxc, hget]
      rfl
    · rw [tGet_tSet_ne hxc] at hx
      exact hx
  obtain ⟨pnd, hp, hbit⟩ := hpc x hx' hxr
  by_cases hpcx : parentC D x = c
  · refine ⟨nd', ?_, ?_⟩
    · rw [hpcx]
      exact tGet_tSet_self hget
    · rw [hpcx] at hp
      rw [hget] at hp
      have : pnd = nd := by
        exact (Option.some.inj hp).symm
      rw [hmask, ← this]
      exact hbit
  · refine ⟨pnd, ?_, hbit⟩
    rw [tGet_tSet_ne hpcx]
    exact hp

/-- Rewriting every record's id list (keys and masks untouched) preserves
the parent-closure invariant; this is the shape of `Erase`'s first pass. -/
theorem tGet_map_ids (t : Table) (f : ℕ → List ℕ → List ℕ) (c : ℕ) :
    tGet (t.map fun nd => (nd.1, ⟨nd.2.childMask, f nd.1 nd.2.entityIds⟩)) c
      = (tGet t c).map fun nd0 => ⟨nd0.childMask, f c nd0.entityIds⟩ := by
  induction t with
  | nil => rfl
  | cons e rest ih =>
      unfold tGet
      simp only [List.map_cons, List.find?_cons]
      rcases hx : (e.1 == c) with _ | _
      · exact ih
      · have h1 : e.1 = c := beq_iff_eq.mp hx
        rw [← h1]
        rfl

theorem parentClosed_map_ids {D : ℕ} {t : Table} (f : ℕ → List ℕ → List ℕ)
    (hpc : ParentClosed D t) :
    ParentClosed D (t.map fun nd => (nd.1, ⟨nd.2.childMask, f nd.1 nd.2.entityIds⟩)) := by
  intro x hx hxr
  rw [tGet_map_ids] at hx
  have hx' : (tGet t x).isSome = true := by
    rcases h : tGet t x with _ | nd0
    · rw [h] at hx
      cases hx
    · rfl
  obtain ⟨pnd, hp, hbit⟩ := hpc x hx' hxr
  refine ⟨⟨pnd.childMask, f (parentC D x) pnd.entityIds⟩, ?_, hbit⟩
  rw [tGet_map_ids, hp]
  rfl

theorem tGet_map_pairs {codes : List ℕ} (f : ℕ → Nd) {c : ℕ} (h : c ∈ codes) :
    tGet (codes.map fun x => (x, f x)) c = some (f c) := by
  induction codes with
  | nil => cases h
  | cons a rest ih =>
      unfold tGet
      simp only [List.map_cons, List.find?_cons]
      rcases hx : (a == c) with _ | _
      · have hne : a ≠ c := by
          rw [beq_eq_false_iff_ne] at hx
          exact hx
        have h2 : c ∈ rest := by
          rcases List.mem_cons.mp h with h3 | h3
          · exact absurd h3.symm hne
          · exact h3
        exact ih h2
      · have h1 : a = c := beq_iff_eq.mp hx
        rw [← h1]
        rfl

theorem keysOf_map_pairs (codes : List ℕ) (f : ℕ → Nd) :
    keysOf (codes.map fun x => (x, f x)) = codes := by
  induction codes with
  | nil => rfl
  | cons a rest ih =>
      unfold keysOf at ih ⊢
      simp only [List.map_cons, List.cons.injEq]
      exact ⟨trivial, ih⟩

/-- Stripping one `D`-bit group from the depth-`e` prefix gives the
depth-`e − 1` prefix. -/
theorem parentC_prefAt {D o : ℕ} (e : ℕ) (h1 : 1 ≤ e) (h2 : e ≤ depthOf D o) :
    parentC D (prefAt D o e) = prefAt D o (e - 1) := by
  unfold parentC prefAt
  rw [Nat.div_div_eq_div_mul, ← pow_add]
  have h3 : D * (depthOf D o - e) + D = D * (depthOf D o - (e - 1)) := by
    have h4 : depthOf D o - (e - 1) = (depthOf D o - e) + 1 := by omega
    rw [h4, Nat.mul_add, Nat.mul_one]
  rw [h3]

/-- The depth-0 prefix of a well-formed code is the root. -/
theorem prefAt_zero_root {D L c : ℕ} (hD : 0 < D) (h : CodeWF D L c) :
    prefAt D c 0 = rootCode := by
  obtain ⟨d, cs, hdL, hlen, hlt, rfl, hdep⟩ := codeWF_depthOf hD h
  unfold prefAt
  rw [hdep, Nat.sub_zero]
  exact encode_div_sentinel hD d cs hlen

/-- The builder's code set is parent-closed: the parent of every non-root
table code is itself a table code. -/
theorem parent_mem_tableCodes {D L M : ℕ} {prs : List (ℕ × ℕ)} (hD : 0 < D)
    (hwf : ∀ x ∈ prs.map (·.1), CodeWF D L x) {c : ℕ}
    (hc : c ∈ tableCodes D (ownersOf D M prs)) (hr : c ≠ rootCode) :
    parentC D c ∈ tableCodes D (ownersOf D M prs) := by
  rw [mem_tableCodes] at hc ⊢
  obtain ⟨o, ho, hchain⟩ := hc
  rw [mem_ancChain] at hchain
  obtain ⟨e, he, rfl⟩ := hchain
  have howf : CodeWF D L o := by
    have hom : o ∈ tableCodes D (ownersOf D M prs) := by
      rw [mem_tableCodes]
      exact ⟨o, ho, mem_ancChain.mpr ⟨depthOf D o, le_refl _, (prefAt_self D o).symm⟩⟩
    exact (mem_tableCodes_wf hD hwf o hom).1
  have he1 : 1 ≤ e := by
    by_contra h0
    push_neg at h0
    interval_cases e
    exact hr (prefAt_zero_root hD howf)
  refine ⟨o, ho, ?_⟩
  rw [mem_ancChain]
  exact ⟨e - 1, by omega, parentC_prefAt e he1 he⟩

/-- The bulk-built table satisfies the parent-closure invariant. -/
theorem buildTable_parentClosed {D L M : ℕ} {prs : List (ℕ × ℕ)} (hD : 0 < D)
    (hwf : ∀ x ∈ prs.map (·.1), CodeWF D L x) :
    ParentClosed D (buildTable D M prs) := by
  intro c hc hr
  have hc' : c ∈ tableCodes D (ownersOf D M prs) := by
    rw [← mem_keysOf_iff_isSome, buildTable_eq, keysOf_map_pairs] at hc
    exact hc
  have hp := parent_mem_tableCodes hD hwf hc' hr
  refine ⟨recordOf D M prs (tableCodes D (ownersOf D M prs)) (parentC D c), ?_, ?_⟩
  · rw [buildTable_eq]
    exact tGet_map_pairs _ hp
  · show maskTest (maskOf D (tableCodes D (ownersOf D M prs)) (parentC D c)) (childIdx D c) = true
    rw [maskTest_maskOf _ _ _ (show childIdx D c < 2 ^ D from Nat.mod_lt c (Nat.pos_pow_of_pos D (by omega)))]
    rw [childC_parent_childIdx]
    exact decide_eq_true hc'

/-- A node whose child mask is zero has no child present in a
parent-closed table. -/
theorem no_child_of_zero_mask {D : ℕ} {t : Table} {c : ℕ} {nd : Nd}
    (hpc : ParentClosed D t) (hget : tGet t c = some nd) (hmask : nd.childMask = 0)
    {x : ℕ} (hx : (tGet t x).isSome = true) (hxr : x ≠ rootCode) :
    parentC D x ≠ c := by
  intro hp
  obtain ⟨pnd, hpg, hbit⟩ := hpc x hx hxr
  rw [hp, hget] at hpg
  have h1 : pnd = nd := (Option.some.inj hpg).symm
  rw [h1, hmask, maskTest_zero_mask] at hbit
  cases hbit

theorem parentClosed_tErase_zero {D : ℕ} {t : Table} {c : ℕ} {nd : Nd}
    (hpc : ParentClosed D t) (hget : tGet t c = some nd) (hmask : nd.childMask = 0) :
    ParentClosed D (tErase t c) := by
  intro x hx hxr
  have hxc : x ≠ c := by
    intro h
    rw [h, tGet_tErase_self] at hx
    cases hx
  rw [tGet_tErase_ne hxc] at hx
  have hpne : parentC D x ≠ c := no_child_of_zero_mask hpc hget hmask hx hxr
  obtain ⟨pnd, hp, hbit⟩ := hpc x hx hxr
  refine ⟨pnd, ?_, hbit⟩
  rw [tGet_tErase_ne hpne]
  exact hp

/-- One step of the erase cascade (delete empty childless node, clear its
bit in the parent) preserves parent closure. -/
theorem parentClosed_cascade_step {D : ℕ} {t : Table} {c : ℕ} {nd pnd : Nd}
    (hpc : ParentClosed D t) (hget : tGet t c = some nd) (hmask : nd.childMask = 0)
    (hp : tGet (tErase t c) (parentC D c) = some pnd) :
    ParentClosed D
      (tSet (tErase t c) (parentC D c) (clearChildBit pnd (childIdx D c))) := by
  have hpc1 : ParentClosed D (tErase t c) := parentClosed_tErase_zero hpc hget hmask
  intro x hx hxr
  have hx1 : (tGet (tErase t c) x).isSome = true := by
    by_cases hxc : x = parentC D c
    · rw [hxc, hp]
      rfl
    · rw [tGet_tSet_ne hxc] at hx
      exact hx
  obtain ⟨qnd, hq, hbit⟩ := hpc1 x hx1 hxr
  by_cases hq1 : parentC D x = parentC D c
  · have hxc : x ≠ c := by
      intro h
      rw [h, tGet_tErase_self] at hx1
      cases hx1
    have hij : childIdx D x ≠ childIdx D c := by
      intro h
      apply hxc
      rw [← childC_parent_childIdx D x, hq1, h, childC_parent_childIdx]
    refine ⟨clearChildBit pnd (childIdx D c), ?_, ?_⟩
    · rw [hq1]
      exact tGet_tSet_self hp
    · rw [maskTest_clearChildBit_ne pnd _ _ hij]
      have h2 : qnd = pnd := by
        rw [hq1, hp] at hq
        exact (Option.some.inj hq).symm
      rw [← h2]
      exact hbit
  · refine ⟨qnd, ?_, hbit⟩
    rw [tGet_tSet_ne hq1]
    exact hq

/-- The full erase cascade preserves parent closure. -/
theorem cascadeErase_parentClosed {D : ℕ} :
    ∀ (fuel c : ℕ) {t : Table}, ParentClosed D t →
      ParentClosed D (cascadeErase D fuel c t) := by
  intro fuel
  induction fuel with
  | zero =>
      intro c t h
      exact h
  | succ fuel ih =>
      intro c t h
      unfold cascadeErase
      rcases hget : tGet t c with _ | nd
      · exact h
      · show ParentClosed D
          (if nd.entityIds.isEmpty = true ∧ nd.childMask = 0 then
            (let t1 := tErase t c
             if c = rootCode then t1
             else match tGet t1 (parentC D c) with
               | none => t1
               | some pnd =>
                   cascadeErase D fuel (parentC D c)
                     (tSet t1 (parentC D c) (clearChildBit pnd (childIdx D c))))
           else t)
        by_cases hcond : nd.entityIds.isEmpty = true ∧ nd.childMask = 0
        · rw [if_pos hcond]
          by_cases hcr : c = rootCode
          · rw [if_pos hcr]
            exact parentClosed_tErase_zero h hget hcond.2
          · rw [if_neg hcr]
            rcases hp : tGet (tErase t c) (parentC D c) with _ | pnd
            · exact parentClosed_tErase_zero h hget hcond.2
            · exact ih (parentC D c) (parentClosed_cascade_step h hget hcond.2 hp)
        · rw [if_neg hcond]
          exact h

theorem foldl_cascadeErase_parentClosed {D : ℕ} (l : List ℕ) :
    ∀ {t : Table}, ParentClosed D t →
      ParentClosed D (l.foldl (fun acc c => cascadeErase D (depthOf D c + 1) c acc) t) := by
  induction l with
  | nil =>
      intro t h
      exact h
  | cons a rest ih =>
      intro t h
      exact ih (cascadeErase_parentClosed _ _ h)

/-- `Erase` preserves parent closure. -/
theorem eraseOp_parentClosed {D : ℕ} {t : Table} {i : ℕ} (hpc : ParentClosed D t) :
    ParentClosed D (eraseOp D t i).2 := by
  unfold eraseOp
  simp only []
  split
  · exact hpc
  · exact foldl_cascadeErase_parentClosed _
      (parentClosed_map_ids (fun _ ids => ids.filter (· ≠ i)) hpc)

theorem maskTest_pow_self (j : ℕ) : maskTest (2 ^ j) j = true := by
  have h := maskTest_add_pow_self (maskTest_zero_mask j)
  simpa using h

theorem depthOf_rootCode (D : ℕ) : depthOf D rootCode = 0 := by
  simp [depthOf, lg, log2Fuel, rootCode]

theorem optBeq_none_iff {o : Option Nd} : (o == none) = true ↔ o = none := by
  cases o <;> simp

theorem mem_missingChain {D : ℕ} {t : Table} {c a : ℕ} :
    a ∈ missingChain D t c ↔
      (∃ e, e ≤ depthOf D c ∧ a = prefAt D c e) ∧ tGet t a = none := by
  unfold missingChain
  rw [List.mem_filter, mem_ancChain, optBeq_none_iff]

theorem missingChain_eq_map {D : ℕ} (t : Table) (c : ℕ) :
    missingChain D t c
      = ((List.range (depthOf D c + 1)).filter
          fun e => tGet t (prefAt D c e) == none).map (prefAt D c) := by
  unfold missingChain ancChain
  rw [List.filter_map]
  rfl

theorem head?_filter_range' (q : ℕ → Bool) :
    ∀ (m s : ℕ) {e0 : ℕ}, ((List.range' s m).filter q).head? = some e0 →
      q e0 = true ∧ s ≤ e0 ∧ e0 < s + m ∧ ∀ e, s ≤ e → e < e0 → q e = false := by
  intro m
  induction m with
  | zero =>
      intro s e0 h
      cases h
  | succ m ih =>
      intro s e0 h
      rw [List.range'_succ, List.filter_cons] at h
      by_cases hq : q s = true
      · rw [if_pos hq] at h
        have h1 : e0 = s := (Option.some.inj h).symm
        subst h1
        exact ⟨hq, le_refl _, by omega, fun e h1 h2 => absurd (lt_of_lt_of_le h2 h1) (lt_irrefl e)⟩
      · rw [if_neg hq] at h
        obtain ⟨hq0, hs, hlt, hmin⟩ := ih (s + 1) h
        refine ⟨hq0, by omega, by omega, ?_⟩
        intro e h1 h2
        by_cases hes : e = s
        · rw [hes]
          exact Bool.eq_false_iff.mpr hq
        · exact hmin e (by omega) h2

theorem tGet_foldl_sortedInsert_notmem (rec : ℕ → Nd) :
    ∀ (l : List ℕ) (t : Table) (x : ℕ), x ∉ l →
      tGet (l.foldl (fun acc a => sortedInsert acc a (rec a)) t) x = tGet t x := by
  intro l
  induction l with
  | nil =>
      intro t x _
      rfl
  | cons b rest ih =>
      intro t x hx
      have hxb : x ≠ b := fun h => hx (h ▸ List.mem_cons_self b rest)
      have hxr : x ∉ rest := fun h => hx (List.mem_cons_of_mem b h)
      show tGet (rest.foldl (fun acc a => sortedInsert acc a (rec a)) (sortedInsert t b (rec b))) x = tGet t x
      rw [ih _ x hxr, tGet_sortedInsert_ne hxb]

theorem tGet_foldl_sortedInsert_mem (rec : ℕ → Nd) :
    ∀ (l : List ℕ) (t : Table) (a : ℕ), l.Nodup → a ∈ l → tGet t a = none →
      tGet (l.foldl (fun acc a => sortedInsert acc a (rec a)) t) a = some (rec a) := by
  intro l
  induction l with
  | nil =>
      intro t a _ ha _
      cases ha
  | cons b rest ih =>
      intro t a hnd ha hget
      show tGet (rest.foldl (fun acc a => sortedInsert acc a (rec a)) (sortedInsert t b (rec b))) a = some (rec a)
      by_cases hab : a = b
      · subst hab
        have hnb : a ∉ rest := (List.nodup_cons.mp hnd).1
        rw [tGet_foldl_sortedInsert_notmem rec rest _ a hnb]
        exact tGet_sortedInsert_self hget
      · have har : a ∈ rest := by
          rcases List.mem_cons.mp ha with h | h
          · exact absurd h hab
          · exact h
        refine ih _ a (List.nodup_cons.mp hnd).2 har ?_
        rw [tGet_sortedInsert_ne hab]
        exact hget

theorem tGet_insMissingFold_notmem {D : ℕ} {t : Table} {c x : ℕ}
    (hx : x ∉ missingChain D t c) :
    tGet (insMissingFold D t c) x = tGet t x :=
  tGet_foldl_sortedInsert_notmem _ _ _ _ hx

theorem missingChain_nodup {D L : ℕ} {t : Table} {c : ℕ} (hD : 0 < D)
    (hwf : CodeWF D L c) : (missingChain D t c).Nodup := by
  rw [missingChain_eq_map]
  apply List.Nodup.map_on
  · intro x hx y hy hxy
    have hx' : x ≤ depthOf D c := by
      have := List.mem_range.mp (List.mem_of_mem_filter hx)
      omega
    have hy' : y ≤ depthOf D c := by
      have := List.mem_range.mp (List.mem_of_mem_filter hy)
      omega
    have h1 := (prefAt_wf hD hwf x hx').2
    rw [hxy, (prefAt_wf hD hwf y hy').2] at h1
    omega
  · exact (List.nodup_range _).filter _

theorem tGet_insMissingFold_mem {D L : ℕ} {t : Table} {c a : ℕ} (hD : 0 < D)
    (hwf : CodeWF D L c) (ha : a ∈ missingChain D t c) :
    tGet (insMissingFold D t c) a
      = some ⟨if a = c then 0 else 2 ^ childIdx D (prefAt D c (depthOf D a + 1)), []⟩ :=
  tGet_foldl_sortedInsert_mem _ _ _ _ (missingChain_nodup hD hwf) ha
    (mem_missingChain.mp ha).2

/-- The node-creation and bit-patch stages of `Insert` preserve parent
closure. -/
theorem insPatch_parentClosed {D L : ℕ} {t : Table} {c : ℕ} (hD : 0 < D)
    (hwf : CodeWF D L c) (hpc : ParentClosed D t) :
    ParentClosed D (insPatch D t c) := by
  have hwfp : ∀ e, e ≤ depthOf D c →
      CodeWF D L (prefAt D c e) ∧ depthOf D (prefAt D c e) = e :=
    fun e he => prefAt_wf hD hwf e he
  have hinj : ∀ e e', e ≤ depthOf D c → e' ≤ depthOf D c →
      prefAt D c e = prefAt D c e' → e = e' := by
    intro e e' he he' heq
    have h1 := (hwfp e he).2
    rw [heq, (hwfp e' he').2] at h1
    omega
  have hprefroot : prefAt D c 0 = rootCode := prefAt_zero_root hD hwf
  have hne_root : ∀ e, 1 ≤ e → e ≤ depthOf D c → prefAt D c e ≠ rootCode := by
    intro e h1 h2 heq
    have hd := (hwfp e h2).2
    rw [heq, depthOf_rootCode] at hd
    omega
  have hclose : ∀ e, 1 ≤ e → e ≤ depthOf D c →
      tGet t (prefAt D c (e - 1)) = none → tGet t (prefAt D c e) = none := by
    intro e h1 h2 hgp
    rcases hg : tGet t (prefAt D c e) with _ | nd
    · rfl
    · exfalso
      have hiss : (tGet t (prefAt D c e)).isSome = true := by
        rw [hg]
        rfl
      obtain ⟨pnd, hp, -⟩ := hpc _ hiss (hne_root e h1 h2)
      rw [parentC_prefAt e h1 h2, hgp] at hp
      cases hp
  have hmem : ∀ a, a ∈ missingChain D t c ↔
      ∃ e, e ≤ depthOf D c ∧ a = prefAt D c e ∧ tGet t (prefAt D c e) = none := by
    intro a
    rw [mem_missingChain]
    constructor
    · rintro ⟨⟨e, he, rfl⟩, hg⟩
      exact ⟨e, he, rfl, hg⟩
    · rintro ⟨e, he, rfl, hg⟩
      exact ⟨⟨e, he, rfl⟩, hg⟩
  unfold insPatch
  simp only []
  rcases hhead : (missingChain D t c).head? with _ | a0
  · have hnil : missingChain D t c = [] := by
      rwa [List.head?_eq_none_iff] at hhead
    show ParentClosed D (insMissingFold D t c)
    unfold insMissingFold
    rw [hnil]
    exact hpc
  · have hh2 : (((List.range (depthOf D c + 1)).filter
        fun e => tGet t (prefAt D c e) == none).map (prefAt D c)).head? = some a0 := by
      rw [← missingChain_eq_map]
      exact hhead
    rw [List.head?_map] at hh2
    rcases hE : ((List.range (depthOf D c + 1)).filter
        fun e => tGet t (prefAt D c e) == none).head? with _ | e0
    · rw [hE] at hh2
      cases hh2
    · rw [hE] at hh2
      have ha0e : a0 = prefAt D c e0 := (Option.some.inj hh2).symm
      have hE' : (((List.range' 0 (depthOf D c + 1)).filter
          fun e => tGet t (prefAt D c e) == none)).head? = some e0 := by
        rw [← List.range_eq_range']
        exact hE
      obtain ⟨hq0b, -, he0lt, hminE⟩ := head?_filter_range' _ _ _ hE'
      have hq0 : (tGet t (prefAt D c e0) == none) = true := hq0b
      rw [optBeq_none_iff] at hq0
      have he0n : e0 ≤ depthOf D c := by omega
      have hall : ∀ e, e0 ≤ e → e ≤ depthOf D c → tGet t (prefAt D c e) = none := by
        have hstep : ∀ k, e0 + k ≤ depthOf D c → tGet t (prefAt D c (e0 + k)) = none := by
          intro k
          induction k with
          | zero =>
              intro _
              simpa using hq0
          | succ k ih =>
              intro hk
              have h1 : 1 ≤ e0 + (k + 1) := by omega
              refine hclose (e0 + (k + 1)) h1 hk ?_
              have h3 : e0 + (k + 1) - 1 = e0 + k := by omega
              rw [h3]
              exact ih (by omega)
        intro e he1 he2
        have h4 : e = e0 + (e - e0) := by omega
        rw [h4]
        exact hstep _ (by omega)
      have hmem2 : ∀ e, e ≤ depthOf D c →
          (prefAt D c e ∈ missingChain D t c ↔ e0 ≤ e) := by
        intro e he
        constructor
        · intro hmm
          by_contra h5
          push_neg at h5
          have h6b := hminE e (Nat.zero_le _) h5
          have h6 : (tGet t (prefAt D c e) == none) = false := h6b
          obtain ⟨e', he', heq, hg⟩ := (hmem _).mp hmm
          have h7 : e = e' := hinj e e' he he' heq
          rw [← h7] at hg
          have h8 := optBeq_none_iff.mpr hg
          rw [h6] at h8
          cases h8
        · intro h5
          exact (hmem _).mpr ⟨e, he, rfl, hall e h5 he⟩
      have hget1new : ∀ e, e0 ≤ e → e ≤ depthOf D c →
          tGet (insMissingFold D t c) (prefAt D c e)
            = some ⟨if prefAt D c e = c then 0
                else 2 ^ childIdx D (prefAt D c (depthOf D (prefAt D c e) + 1)), []⟩ := by
        intro e h1 h2
        exact tGet_insMissingFold_mem hD hwf ((hmem2 e h2).mpr h1)
      have hget1old : ∀ x, (∀ e, e0 ≤ e → e ≤ depthOf D c → x ≠ prefAt D c e) →
          tGet (insMissingFold D t c) x = tGet t x := by
        intro x hx
        apply tGet_insMissingFold_notmem
        intro hmm
        obtain ⟨e, he, heq, -⟩ := (hmem _).mp hmm
        have h5 : e0 ≤ e := (hmem2 e he).mp (heq ▸ hmm)
        exact hx e h5 he heq
      have ht1pres : ∀ x, (tGet (insMissingFold D t c) x).isSome = true →
          (tGet t x).isSome = true
            ∨ ∃ e, e0 ≤ e ∧ e ≤ depthOf D c ∧ x = prefAt D c e := by
        intro x hx
        by_cases hmm : x ∈ missingChain D t c
        · right
          obtain ⟨e, he, heq, -⟩ := (hmem _).mp hmm
          exact ⟨e, (hmem2 e he).mp (heq ▸ hmm), he, heq⟩
        · left
          rwa [tGet_insMissingFold_notmem hmm] at hx
      have hnew_parent : ∀ e, e0 + 1 ≤ e → e ≤ depthOf D c →
          ∃ qnd, tGet (insMissingFold D t c) (parentC D (prefAt D c e)) = some qnd
            ∧ maskTest qnd.childMask (childIdx D (prefAt D c e)) = true := by
        intro e h1 h2
        have hpp : parentC D (prefAt D c e) = prefAt D c (e - 1) :=
          parentC_prefAt e (by omega) h2
        have h3 : e - 1 ≤ depthOf D c := by omega
        have h5 := hget1new (e - 1) (by omega) h3
        have h6 : prefAt D c (e - 1) ≠ c := by
          intro heq
          have h7 : prefAt D c (depthOf D c) = c := prefAt_self D c
          have h8 := hinj (e - 1) (depthOf D c) h3 (le_refl _) (by rw [heq, h7])
          omega
        refine ⟨⟨if prefAt D c (e - 1) = c then 0
            else 2 ^ childIdx D (prefAt D c (depthOf D (prefAt D c (e - 1)) + 1)), []⟩,
          by rw [hpp]; exact h5, ?_⟩
        rw [if_neg h6]
        rw [(hwfp (e - 1) h3).2]
        have h9 : e - 1 + 1 = e := by omega
        rw [h9]
        exact maskTest_pow_self _
      have hold_parent : ∀ x, (tGet t x).isSome = true → x ≠ rootCode →
          ∃ qnd, tGet (insMissingFold D t c) (parentC D x) = some qnd
            ∧ maskTest qnd.childMask (childIdx D x) = true := by
        intro x hx hxr
        obtain ⟨pnd, hp, hbit⟩ := hpc x hx hxr
        refine ⟨pnd, ?_, hbit⟩
        have h0 : tGet (insMissingFold D t c) (parentC D x) = tGet t (parentC D x) := by
          apply hget1old
          intro e h1 h2 heq
          rw [heq, hall e h1 h2] at hp
          cases hp
        rw [h0]
        exact hp
      show ParentClosed D
        (if a0 = rootCode then insMissingFold D t c
         else match tGet (insMissingFold D t c) (parentC D a0) with
           | none => insMissingFold D t c
           | some pnd =>
               tSet (insMissingFold D t c) (parentC D a0) (setChildBit pnd (childIdx D a0)))
      by_cases hroot : a0 = rootCode
      · rw [if_pos hroot]
        have he00 : e0 = 0 := by
          have h1 := (hwfp e0 he0n).2
          rw [← ha0e, hroot, depthOf_rootCode] at h1
          omega
        intro x hx hxr
        rcases ht1pres x hx with hold | ⟨e, heE, hen, rfl⟩
        · exact hold_parent x hold hxr
        · have he1 : 1 ≤ e := by
            rcases Nat.eq_zero_or_pos e with h | h
            · rw [h, hprefroot] at hxr
              exact absurd rfl hxr
            · exact h
          exact hnew_parent e (by omega) hen
      · rw [if_neg hroot]
        have he01 : 1 ≤ e0 := by
          rcases Nat.eq_zero_or_pos e0 with h | h
          · rw [h] at ha0e
            rw [ha0e, hprefroot] at hroot
            exact absurd rfl hroot
          · exact h
        have hpeq : parentC D a0 = prefAt D c (e0 - 1) := by
          rw [ha0e]
          exact parentC_prefAt e0 he01 he0n
        have hqfb := hminE (e0 - 1) (Nat.zero_le _) (by omega)
        have hqf : (tGet t (prefAt D c (e0 - 1)) == none) = false := hqfb
        have hp0ne : tGet t (prefAt D c (e0 - 1)) ≠ none := by
          intro h
          have h8 := optBeq_none_iff.mpr h
          rw [hqf] at h8
          cases h8
        have hp0old : tGet (insMissingFold D t c) (prefAt D c (e0 - 1))
            = tGet t (prefAt D c (e0 - 1)) := by
          apply hget1old
          intro e h1 h2 heq
          have := hinj (e0 - 1) e (by omega) h2 heq
          omega
        rcases hp0 : tGet (insMissingFold D t c) (parentC D a0) with _ | pnd
        · exfalso
          rw [hpeq, hp0old] at hp0
          exact hp0ne hp0
        · show ParentClosed D
            (tSet (insMissingFold D t c) (parentC D a0) (setChildBit pnd (childIdx D a0)))
          intro x hx hxr
          have hx1 : (tGet (insMissingFold D t c) x).isSome = true := by
            by_cases hxp : x = parentC D a0
            · rw [hxp, hp0]
              rfl
            · rw [tGet_tSet_ne hxp] at hx
              exact hx
          rcases ht1pres x hx1 with hold | ⟨e, heE, hen, rfl⟩
          · obtain ⟨qnd, hq, hb⟩ := hold_parent x hold hxr
            by_cases hxp : parentC D x = parentC D a0
            · refine ⟨setChildBit pnd (childIdx D a0), ?_, ?_⟩
              · rw [hxp]
                exact tGet_tSet_self hp0
              · have h1 : qnd = pnd := by
                  rw [hxp, hp0] at hq
                  exact (Option.some.inj hq).symm
                exact maskTest_setChildBit_mono pnd _ _ (h1 ▸ hb)
            · refine ⟨qnd, ?_, hb⟩
              rw [tGet_tSet_ne hxp]
              exact hq
          · by_cases hee0 : e = e0
            · refine ⟨setChildBit pnd (childIdx D a0), ?_, ?_⟩
              · have hxp : parentC D (prefAt D c e) = parentC D a0 := by
                  rw [hee0, ← ha0e]
                rw [hxp]
                exact tGet_tSet_self hp0
              · have h1 : childIdx D (prefAt D c e) = childIdx D a0 := by
                  rw [hee0, ← ha0e]
                rw [h1]
                exact maskTest_setChildBit_self pnd _
            · obtain ⟨qnd, hq, hb⟩ := hnew_parent e (by omega) hen
              have hpne : parentC D (prefAt D c e) ≠ parentC D a0 := by
                rw [parentC_prefAt e (by omega) hen, hpeq]
                intro heq
                have := hinj (e - 1) (e0 - 1) (by omega) (by omega) heq
                omega
              refine ⟨qnd, ?_, hb⟩
              rw [tGet_tSet_ne hpne]
              exact hq

/-- `Insert` at a well-formed code preserves parent closure. -/
theorem insertAtCode_parentClosed {D L : ℕ} {t : Table} {c : ℕ} (i : ℕ) (hD : 0 < D)
    (hwf : CodeWF D L c) (hpc : ParentClosed D t) :
    ParentClosed D (insertAtCode D t c i) := by
  have h2 := insPatch_parentClosed hD hwf hpc
  unfold insertAtCode
  simp only []
  rcases hg : tGet (insPatch D t c) c with _ | nd
  · exact h2
  · show ParentClosed D (tSet (insPatch D t c) c ⟨nd.childMask, nd.entityIds ++ [i]⟩)
    exact parentClosed_tSet_sameMask h2 hg rfl

/-- The demote step of `Insert` preserves parent closure. -/
theorem demoteOne_parentClosed {D L : ℕ} (codeOf : ℕ → ℕ) {c : ℕ} {t : Table} (e : ℕ)
    (hD : 0 < D) (hcode : ∀ j, CodeWF D L (codeOf j)) (hpc : ParentClosed D t) :
    ParentClosed D (demoteOne D codeOf c t e) := by
  unfold demoteOne
  simp only []
  by_cases hguard : depthOf D c < depthOf D (codeOf e) ∧ ancSelf D c (codeOf e) = true
  · rw [if_pos hguard]
    rcases hg : tGet t c with _ | nd
    · exact hpc
    · show ParentClosed D
        (insertAtCode D (tSet t c ⟨nd.childMask, nd.entityIds.filter (· ≠ e)⟩)
          (prefAt D (codeOf e) (depthOf D c + 1)) e)
      refine insertAtCode_parentClosed (L := L) e hD ?_ ?_
      · exact (prefAt_wf hD (hcode e) (depthOf D c + 1) (by omega)).1
      · exact parentClosed_tSet_sameMask hpc hg rfl
  · rw [if_neg hguard]
    exact hpc

theorem foldl_demoteOne_parentClosed {D L : ℕ} (codeOf : ℕ → ℕ) (c : ℕ) (l : List ℕ)
    (hD : 0 < D) (hcode : ∀ j, CodeWF D L (codeOf j)) :
    ∀ {t : Table}, ParentClosed D t →
      ParentClosed D (l.foldl (demoteOne D codeOf c) t) := by
  induction l with
  | nil =>
      intro t h
      exact h
  | cons a rest ih =>
      intro t h
      exact ih (demoteOne_parentClosed codeOf a hD hcode h)

/-- `Insert` preserves parent closure. -/
theorem insertOpG_parentClosed {D L M : ℕ} (codeOf : ℕ → ℕ) {t : Table} (i : ℕ)
    (hD : 0 < D) (hcode : ∀ j, CodeWF D L (codeOf j)) (hpc : ParentClosed D t) :
    ParentClosed D (insertOpG D L M codeOf t i) := by
  unfold insertOpG
  simp only []
  have h1 : ParentClosed D (insertAtCode D t (codeOf i) i) :=
    insertAtCode_parentClosed i hD (hcode i) hpc
  rcases hg : tGet (insertAtCode D t (codeOf i) i) (codeOf i) with _ | nd
  · exact h1
  · show ParentClosed D
      (if M < nd.entityIds.length ∧ depthOf D (codeOf i) < L then
        nd.entityIds.foldl (demoteOne D codeOf (codeOf i)) (insertAtCode D t (codeOf i) i)
       else insertAtCode D t (codeOf i) i)
    by_cases hcond : M < nd.entityIds.length ∧ depthOf D (codeOf i) < L
    · rw [if_pos hcond]
      exact foldl_demoteOne_parentClosed codeOf (codeOf i) nd.entityIds hD hcode h1
    · rw [if_neg hcond]
      exact h1

/-- `Update` preserves parent closure. -/
theorem updateOpG_parentClosed {D L M : ℕ} (codeOf : ℕ → ℕ) {t : Table} (i : ℕ)
    (hD : 0 < D) (hcode : ∀ j, CodeWF D L (codeOf j)) (hpc : ParentClosed D t) :
    ParentClosed D (updateOpG D L M codeOf t i).2 := by
  unfold updateOpG
  rcases he : eraseOp D t i with ⟨b, t1⟩
  have h1 : ParentClosed D t1 := by
    have h2 := eraseOp_parentClosed (i := i) hpc
    rw [he] at h2
    exact h2
  cases b
  · exact h1
  · exact insertOpG_parentClosed codeOf i hD hcode h1

/-- C2: for every tree produced by the bulk builder over well-formed codes
or by any further sequence of Insert/Update/Erase operations, every
non-root location code `c` present in the node table has `parent(c)`
present as well, with the bit of `c`'s child index set in `parent(c)`'s
`child_mask`. -/
theorem C2_parent_closure (D L M : ℕ) (codeOf : ℕ → ℕ) (prs : List (ℕ × ℕ))
    (ops : List EditOp) (hD : 0 < D)
    (hprs : ∀ x ∈ prs.map (·.1), CodeWF D L x)
    (hcode : ∀ j, CodeWF D L (codeOf j)) :
    ParentClosed D (applyOps D L M codeOf (buildTable D M prs) ops) := by
  have h0 : ParentClosed D (buildTable D M prs) := buildTable_parentClosed hD hprs
  suffices h : ∀ (l : List EditOp) (t : Table), ParentClosed D t →
      ParentClosed D (applyOps D L M codeOf t l) from h ops _ h0
  intro l
  induction l with
  | nil =>
      intro t h
      exact h
  | cons op rest ih =>
      intro t h
      refine ih _ ?_
      cases op with
      | ins i => exact insertOpG_parentClosed codeOf i hD hcode h
      | upd i => exact updateOpG_parentClosed codeOf i hD hcode h
      | ers i => exact eraseOp_parentClosed h

/-- Witness: a concrete binary tree (D = 1, L = 2, M = 1) built from two
leaf codes, then erase, insert and update edits; the resulting table is
parent-closed. -/
theorem C2_parent_closure_witness :
    ParentClosed 1 (applyOps 1 2 1 (fun j => 5) (buildTable 1 1 [(4, 0), (5, 1)])
      [EditOp.ers 0, EditOp.ins 2, EditOp.upd 1]) :=
  C2_parent_closure 1 2 1 (fun j => 5) [(4, 0), (5, 1)]
    [EditOp.ers 0, EditOp.ins 2, EditOp.upd 1] (by decide)
    (by
      intro x hx
      have hx2 : x = 4 ∨ x = 5 := by
        simpa using hx
      rcases hx2 with h | h
      · exact ⟨2, [0], by omega, rfl, by decide, by rw [h]; decide⟩
      · exact ⟨2, [1], by omega, rfl, by decide, by rw [h]; decide⟩)
    (fun j => ⟨2, [1], by omega, rfl, by decide, rfl⟩)

theorem tGet_eq_of_mem_nodup {t : Table} {c : ℕ} {nd : Nd}
    (hkeys : (keysOf t).Nodup) (hmem : (c, nd) ∈ t) : tGet t c = some nd := by
  induction t with
  | nil => cases hmem
  | cons e rest ih =>
      unfold keysOf at hkeys
      rw [List.map_cons, List.nodup_cons] at hkeys
      unfold tGet
      simp only [List.find?_cons]
      rcases hx : (e.1 == c) with _ | _
      · have h1 : e.1 ≠ c := by
          rw [beq_eq_false_iff_ne] at hx
          exact hx
        rcases List.mem_cons.mp hmem with h | h
        · rw [← h] at h1
          exact absurd rfl h1
        · exact ih hkeys.2 h
      · have h1 : e.1 = c := beq_iff_eq.mp hx
        rcases List.mem_cons.mp hmem with h | h
        · rw [← h]
          rfl
        · exfalso
          apply hkeys.1
          rw [h1]
          exact List.mem_map.mpr ⟨(c, nd), h, rfl⟩

theorem missingChain_map_filter (D : ℕ) (t : Table) (i c : ℕ) :
    missingChain D (t.map fun e => (e.1, ⟨e.2.childMask, e.2.entityIds.filter (· ≠ i)⟩)) c
      = missingChain D t c := by
  unfold missingChain
  apply List.filter_congr
  intro a _
  rw [tGet_map_ids t (fun x ids => ids.filter (· ≠ i))]
  cases tGet t a
  · rfl
  · rfl

/-- The erase cascade stops at a node that keeps ids or children. -/
theorem cascadeErase_succ_noop {D fuel c : ℕ} {t : Table} {nd : Nd}
    (hget : tGet t c = some nd)
    (hcond : ¬(nd.entityIds.isEmpty = true ∧ nd.childMask = 0)) :
    cascadeErase D (fuel + 1) c t = t := by
  unfold cascadeErase
  rw [hget]
  show (if nd.entityIds.isEmpty = true ∧ nd.childMask = 0 then
      (let t1 := tErase t c
       if c = rootCode then t1
       else match tGet t1 (parentC D c) with
         | none => t1
         | some pnd =>
             cascadeErase D fuel (parentC D c)
               (tSet t1 (parentC D c) (clearChildBit pnd (childIdx D c))))
     else t) = t
  rw [if_neg hcond]

/-- C5 (amended): the Erase-then-Insert round trip restores the node table
when the entity is singly owned at its canonical code with its id last in
the owner's list, every ancestor of the owner is present, the erase does
not trigger the empty-node cascade, and the reinsertion does not trigger a
demote.  The unrestricted round-trip claim is refuted by
the counterexample on the spec's own scenario 2. -/
theorem C5_erase_insert_roundtrip (D L M : ℕ) (codeOf : ℕ → ℕ) (t : Table) (i : ℕ)
    (nd : Nd) (ids0 : List ℕ)
    (hkeys : (keysOf t).Nodup)
    (hfilter : t.filter (fun e => e.2.entityIds.contains i) = [(codeOf i, nd)])
    (hids : nd.entityIds = ids0 ++ [i])
    (hnotin : i ∉ ids0)
    (hnc : ¬(ids0 = [] ∧ nd.childMask = 0))
    (hmiss : missingChain D t (codeOf i) = [])
    (hnod : ¬(M < nd.entityIds.length ∧ depthOf D (codeOf i) < L)) :
    insertOpG D L M codeOf (eraseOp D t i).2 i = t := by
  have hmem : (codeOf i, nd) ∈ t := by
    have h1 : (codeOf i, nd) ∈ t.filter (fun e => e.2.entityIds.contains i) := by
      rw [hfilter]
      exact List.mem_singleton_self _
    exact List.mem_of_mem_filter h1
  have hget : tGet t (codeOf i) = some nd := tGet_eq_of_mem_nodup hkeys hmem
  have howners : (t.filter fun e => e.2.entityIds.contains i).map (fun e => e.1)
      = [codeOf i] := by
    rw [hfilter]
    rfl
  have hfilt_ids : nd.entityIds.filter (· ≠ i) = ids0 := by
    rw [hids, List.filter_append]
    have h1 : ids0.filter (· ≠ i) = ids0 := by
      rw [List.filter_eq_self]
      intro a ha
      simp only [decide_eq_true_eq]
      intro h
      exact hnotin (h ▸ ha)
    have h2 : ([i] : List ℕ).filter (· ≠ i) = [] := by simp
    rw [h1, h2, List.append_nil]
  have hget1 : tGet (t.map fun e => (e.1, ⟨e.2.childMask, e.2.entityIds.filter (· ≠ i)⟩))
      (codeOf i) = some ⟨nd.childMask, ids0⟩ := by
    rw [tGet_map_ids t (fun x ids => ids.filter (· ≠ i)), hget]
    show some (⟨nd.childMask, nd.entityIds.filter (· ≠ i)⟩ : Nd) = some ⟨nd.childMask, ids0⟩
    rw [hfilt_ids]
  have herase2 : (eraseOp D t i).2
      = t.map fun e => (e.1, ⟨e.2.childMask, e.2.entityIds.filter (· ≠ i)⟩) := by
    unfold eraseOp
    simp only []
    rw [howners]
    show cascadeErase D (depthOf D (codeOf i) + 1) (codeOf i)
        (t.map fun e => (e.1, ⟨e.2.childMask, e.2.entityIds.filter (· ≠ i)⟩))
      = t.map fun e => (e.1, ⟨e.2.childMask, e.2.entityIds.filter (· ≠ i)⟩)
    refine cascadeErase_succ_noop hget1 ?_
    intro h
    apply hnc
    refine ⟨?_, h.2⟩
    have h1 : ids0.isEmpty = true := h.1
    exact List.isEmpty_iff.mp h1
  have hget2 : tGet ((eraseOp D t i).2) (codeOf i) = some ⟨nd.childMask, ids0⟩ := by
    rw [herase2]
    exact hget1
  have hmiss2 : missingChain D ((eraseOp D t i).2) (codeOf i) = [] := by
    rw [herase2, missingChain_map_filter]
    exact hmiss
  have hfold : insMissingFold D ((eraseOp D t i).2) (codeOf i) = (eraseOp D t i).2 := by
    unfold insMissingFold
    rw [hmiss2]
    rfl
  have hpatch : insPatch D ((eraseOp D t i).2) (codeOf i) = (eraseOp D t i).2 := by
    unfold insPatch
    simp only []
    rw [hmiss2]
    exact hfold
  have hins : insertAtCode D ((eraseOp D t i).2) (codeOf i) i
      = tSet ((eraseOp D t i).2) (codeOf i) ⟨nd.childMask, ids0 ++ [i]⟩ := by
    unfold insertAtCode
    simp only []
    rw [hpatch, hget2]
  unfold insertOpG
  simp only []
  rw [hins]
  have hget3 : tGet (tSet ((eraseOp D t i).2) (codeOf i) ⟨nd.childMask, ids0 ++ [i]⟩)
      (codeOf i) = some ⟨nd.childMask, ids0 ++ [i]⟩ := tGet_tSet_self hget2
  rw [hget3]
  show (if M < (⟨nd.childMask, ids0 ++ [i]⟩ : Nd).entityIds.length
          ∧ depthOf D (codeOf i) < L then
      (⟨nd.childMask, ids0 ++ [i]⟩ : Nd).entityIds.foldl (demoteOne D codeOf (codeOf i))
        (tSet ((eraseOp D t i).2) (codeOf i) ⟨nd.childMask, ids0 ++ [i]⟩)
    else tSet ((eraseOp D t i).2) (codeOf i) ⟨nd.childMask, ids0 ++ [i]⟩) = t
  rw [if_neg]
  · rw [herase2]
    unfold tSet
    rw [List.map_map]
    have hcongr : ∀ e ∈ t,
        ((fun e => if e.1 = codeOf i then (codeOf i, (⟨nd.childMask, ids0 ++ [i]⟩ : Nd))
            else e)
          ∘ fun e => (e.1, (⟨e.2.childMask, e.2.entityIds.filter (· ≠ i)⟩ : Nd))) e
          = id e := by
      intro e he
      simp only [Function.comp_apply, id_eq]
      by_cases he1 : e.1 = codeOf i
      · have heq : e = (codeOf i, nd) := by
          have h2 := List.inj_on_of_nodup_map hkeys he hmem
          exact h2 he1
        rw [if_pos he1, heq]
        have h3 : (⟨nd.childMask, ids0 ++ [i]⟩ : Nd) = nd := by
          rw [← hids]
        rw [h3]
      · rw [if_neg he1]
        have hni : i ∉ e.2.entityIds := by
          intro hin
          have h2 : e ∈ t.filter (fun e => e.2.entityIds.contains i) :=
            List.mem_filter.mpr ⟨he, List.elem_eq_true_of_mem hin⟩
          rw [hfilter, List.mem_singleton] at h2
          rw [h2] at he1
          exact he1 rfl
        have hfe : e.2.entityIds.filter (· ≠ i) = e.2.entityIds := by
          rw [List.filter_eq_self]
          intro a ha
          simp only [decide_eq_true_eq]
          intro h
          exact hni (h ▸ ha)
        rw [hfe]
    rw [List.map_congr_left hcongr, List.map_id]
  · intro hcon
    apply hnod
    refine ⟨?_, hcon.2⟩
    rw [hids]
    exact hcon.1

set_option maxRecDepth 100000 in
/-- The unrestricted C5 round-trip fails on the spec's own scenario 2: box
4 is replicated by the additional split depth, but reinsertion places it
only at its canonical code. -/
theorem C5_roundtrip_counterexample :
    tableHasId scenario2Tree 4 = true
      ∧ insertOp 2 3 2 scenario2World scenario2Boxes (eraseOp 2 scenario2Tree 4).2 4
        ≠ scenario2Tree := ⟨by decide, by decide⟩

/-- Witness: a concrete D = 1 tree where entity 2 is singly owned at leaf
code 5; erasing and reinserting it restores the table. -/
theorem C5_erase_insert_roundtrip_witness :
    insertOpG 1 2 2 (fun j => 5) (eraseOp 1 (buildTable 1 2 [(4, 0), (5, 1), (5, 2)]) 2).2 2
      = buildTable 1 2 [(4, 0), (5, 1), (5, 2)] :=
  C5_erase_insert_roundtrip 1 2 2 (fun j => 5) (buildTable 1 2 [(4, 0), (5, 1), (5, 2)]) 2
    ⟨0, [1, 2]⟩ [1] (by decide) (by decide) (by decide) (by decide) (by decide)
    (by decide) (by decide)

theorem all2_eq_true_iff (f : ℚ → ℚ → Bool) :
    ∀ (as bs : List ℚ),
      (all2 f as bs = true) ↔ List.Forall₂ (fun x y => f x y = true) as bs := by
  intro as
  induction as with
  | nil =>
      intro bs
      cases bs with
      | nil =>
          simp only [all2]
          exact ⟨fun _ => List.Forall₂.nil, fun _ => trivial⟩
      | cons b bs =>
          simp only [all2]
          constructor
          · intro h
            cases h
          · intro h
            cases h
  | cons a as ih =>
      intro bs
      cases bs with
      | nil =>
          simp only [all2]
          constructor
          · intro h
            cases h
          · intro h
            cases h
      | cons b bs =>
          simp only [all2, Bool.and_eq_true, List.forall₂_cons, ih]

theorem boxesOverlapStrict_comm (a b : Bx) :
    boxesOverlapStrict a b = boxesOverlapStrict b a := by
  unfold boxesOverlapStrict
  rw [Bool.and_comm]

theorem boxesOverlapStrict_iff {a b : Bx} :
    boxesOverlapStrict a b = true ↔
      List.Forall₂ (· < ·) a.Min b.Max ∧ List.Forall₂ (· < ·) b.Min a.Max := by
  unfold boxesOverlapStrict
  rw [Bool.and_eq_true, all2_eq_true_iff, all2_eq_true_iff]
  constructor
  · rintro ⟨h1, h2⟩
    constructor
    · exact h1.imp fun x y h => by simpa using h
    · exact h2.imp fun x y h => by simpa using h
  · rintro ⟨h1, h2⟩
    constructor
    · exact h1.imp fun x y h => by simpa using h
    · exact h2.imp fun x y h => by simpa using h

theorem gridCoord_mono {w0 w1 : ℚ} (hw : w0 < w1) (L : ℕ) {x y : ℚ} (hxy : x ≤ y) :
    gridCoord w0 w1 L x ≤ gridCoord w0 w1 L y := by
  rw [gridCoord_eq, gridCoord_eq]
  have hpos : (0:ℚ) < w1 - w0 := by linarith
  have h2 : (x - w0) / (w1 - w0) * (2 ^ L : ℚ) ≤ (y - w0) / (w1 - w0) * (2 ^ L : ℚ) := by
    have h1 : (x - w0) / (w1 - w0) ≤ (y - w0) / (w1 - w0) := by
      rw [div_le_div_iff_of_pos_right hpos]
      linarith
    have h0 : (0:ℚ) ≤ (2 ^ L : ℚ) := by positivity
    exact mul_le_mul_of_nonneg_right h1 h0
  have h4 := Int.floor_le_floor h2
  have h5 := Int.toNat_le_toNat h4
  omega

theorem gridOf_mono (L : ℕ) :
    ∀ (w0s w1s xs ys : List ℚ), List.Forall₂ (· < ·) w0s w1s →
      List.Forall₂ (· ≤ ·) xs ys →
      List.Forall₂ (· ≤ ·) (gridOf L w0s w1s xs) (gridOf L w0s w1s ys) := by
  intro w0s
  induction w0s with
  | nil =>
      intro w1s xs ys hw _
      cases hw
      exact List.Forall₂.nil
  | cons w0 ws0 ih =>
      intro w1s xs ys hw hxy
      cases hw with
      | cons h1 hw' =>
          cases hxy with
          | nil => exact List.Forall₂.nil
          | cons hx hxy' =>
              exact List.Forall₂.cons (gridCoord_mono h1 L hx) (ih _ _ _ hw' hxy')

theorem forall₂_le_zipWith_max_left :
    ∀ {as bs : List ℕ}, as.length = bs.length →
      List.Forall₂ (· ≤ ·) as (List.zipWith max as bs) := by
  intro as
  induction as with
  | nil =>
      intro bs _
      exact List.Forall₂.nil
  | cons a as ih =>
      intro bs hlen
      cases bs with
      | nil => cases hlen
      | cons b bs =>
          exact List.Forall₂.cons (Nat.le_max_left a b) (ih (by simpa using hlen))

theorem forall₂_le_zipWith_max_right :
    ∀ {as bs : List ℕ}, as.length = bs.length →
      List.Forall₂ (· ≤ ·) bs (List.zipWith max as bs) := by
  intro as
  induction as with
  | nil =>
      intro bs hlen
      cases bs with
      | nil => exact List.Forall₂.nil
      | cons b bs => cases hlen
  | cons a as ih =>
      intro bs hlen
      cases bs with
      | nil => exact List.Forall₂.nil
      | cons b bs =>
          exact List.Forall₂.cons (Nat.le_max_right a b) (ih (by simpa using hlen))

theorem forall₂_zipWith_max_le :
    ∀ {as bs cs : List ℕ}, List.Forall₂ (· ≤ ·) as cs → List.Forall₂ (· ≤ ·) bs cs →
      List.Forall₂ (· ≤ ·) (List.zipWith max as bs) cs := by
  intro as
  induction as with
  | nil =>
      intro bs cs h1 _
      cases h1
      exact List.Forall₂.nil
  | cons a as ih =>
      intro bs cs h1 h2
      cases h1 with
      | cons ha h1' =>
          cases h2 with
          | cons hb h2' =>
              exact List.Forall₂.cons (by omega) (ih h1' h2')

theorem forall₂_mem_ranges {f : ℕ → ℕ} (hf : ∀ a b, a ≤ b → f a ≤ f b) :
    ∀ {gmin g gmax : List ℕ}, List.Forall₂ (· ≤ ·) gmin g →
      List.Forall₂ (· ≤ ·) g gmax →
      List.Forall₂ (fun x r => x ∈ r) (g.map f)
        ((gmin.zip gmax).map fun ab => rangeIcc (f ab.1) (f ab.2)) := by
  intro gmin g gmax h1
  induction h1 generalizing gmax with
  | nil =>
      intro h2
      cases h2
      exact List.Forall₂.nil
  | cons hax h1' ih =>
      intro h2
      cases h2 with
      | cons hxb h2' =>
          simp only [List.map_cons, List.zip_cons_cons]
          exact List.Forall₂.cons (mem_rangeIcc.mpr ⟨hf _ _ hax, hf _ _ hxb⟩) (ih h2')

theorem mem_boxPartCodes_between {L k : ℕ} {W b : Bx} {g : List ℕ}
    (h1 : List.Forall₂ (· ≤ ·) (gridMinOf W L b) g)
    (h2 : List.Forall₂ (· ≤ ·) g (gridMaxOf W L b)) :
    encode (min (canDepth L (gridMinOf W L b) (gridMaxOf W L b) + k) L)
        (g.map (· / 2 ^ (L - min (canDepth L (gridMinOf W L b) (gridMaxOf W L b) + k) L)))
      ∈ boxPartCodes L k W b := by
  unfold boxPartCodes
  simp only []
  apply List.mem_map.mpr
  refine ⟨g.map (· / 2 ^ (L - min (canDepth L (gridMinOf W L b) (gridMaxOf W L b) + k) L)),
    ?_, rfl⟩
  unfold partCoords
  rw [mem_prodLists]
  exact forall₂_mem_ranges (fun a b h => Nat.div_le_div_right h) h1 h2

theorem ancSelfP_encode_div {D L dp : ℕ} {g : List ℕ} (hlen : g.length = D)
    (hdp : dp ≤ L) :
    AncSelfP D (encode dp (g.map (· / 2 ^ (L - dp)))) (encode L g) := by
  refine ⟨L - dp, ?_⟩
  have h := encode_div_pow dp (L - dp) g
  rw [hlen] at h
  have hof : dp + (L - dp) = L := by omega
  rw [hof] at h
  exact h.symm

theorem cellMeetsRange_true_of_between (s : ℕ) :
    ∀ {gmin g gmax : List ℕ}, List.Forall₂ (· ≤ ·) gmin g →
      List.Forall₂ (· ≤ ·) g gmax →
      cellMeetsRange s (g.map (· / 2 ^ s)) gmin gmax = true := by
  intro gmin g gmax h1
  induction h1 generalizing gmax with
  | nil =>
      intro h2
      cases h2
      rfl
  | cons hax h1' ih =>
      intro h2
      cases h2 with
      | cons hxb h2' =>
          simp only [List.map_cons, cellMeetsRange, Bool.and_eq_true]
          refine ⟨⟨?_, ?_⟩, ih h2'⟩
          · exact decide_eq_true (Nat.div_le_div_right hax)
          · exact decide_eq_true (Nat.div_le_div_right hxb)

/-- The single node owning a given part code of entity `i` in the built
box tree, with `i` among its owned ids. -/
theorem table_owner_mem {D L M k : ℕ} {W : Bx} {boxes : List Bx} {i cb : ℕ}
    (hi : i < boxes.length) (hcb : cb ∈ boxPartCodes L k W (boxes.getD i ⟨[], []⟩)) :
    ∃ nd : Nd,
      (truncCode D M ((sortPairs (boxBuildPairs L k W boxes)).map (·.1)) cb, nd)
        ∈ createBoxTree D L M k W boxes
      ∧ i ∈ nd.entityIds := by
  have hpair : (cb, i) ∈ sortPairs (boxBuildPairs L k W boxes) := by
    have h1 : (cb, i) ∈ boxBuildPairs L k W boxes := by
      unfold boxBuildPairs
      rw [List.mem_flatMap]
      refine ⟨i, List.mem_range.mpr hi, ?_⟩
      unfold boxPairsOf
      exact List.mem_map.mpr ⟨cb, hcb, rfl⟩
    unfold sortPairs
    exact (List.perm_insertionSort _ _).mem_iff.mpr h1
  have hcmem : cb ∈ (sortPairs (boxBuildPairs L k W boxes)).map (·.1) :=
    List.mem_map.mpr ⟨(cb, i), hpair, rfl⟩
  have homem : truncCode D M ((sortPairs (boxBuildPairs L k W boxes)).map (·.1)) cb
      ∈ ownersOf D M (sortPairs (boxBuildPairs L k W boxes)) := by
    unfold ownersOf
    exact List.mem_map.mpr ⟨cb, hcmem, rfl⟩
  have htc : truncCode D M ((sortPairs (boxBuildPairs L k W boxes)).map (·.1)) cb
      ∈ tableCodes D (ownersOf D M (sortPairs (boxBuildPairs L k W boxes))) := by
    rw [mem_tableCodes]
    exact ⟨_, homem, mem_ancChain.mpr ⟨depthOf D _, le_refl _, (prefAt_self D _).symm⟩⟩
  refine ⟨recordOf D M (sortPairs (boxBuildPairs L k W boxes))
      (tableCodes D (ownersOf D M (sortPairs (boxBuildPairs L k W boxes))))
      (truncCode D M ((sortPairs (boxBuildPairs L k W boxes)).map (·.1)) cb), ?_, ?_⟩
  · show _ ∈ createBoxTree D L M k W boxes
    unfold createBoxTree
    exact mem_buildTable.mpr ⟨htc, rfl⟩
  · show i ∈ ((sortPairs (boxBuildPairs L k W boxes)).filter
        fun pr => truncCode D M ((sortPairs (boxBuildPairs L k W boxes)).map (·.1)) pr.1
          == truncCode D M ((sortPairs (boxBuildPairs L k W boxes)).map (·.1)) cb).map
      (·.2)
    apply List.mem_map.mpr
    refine ⟨(cb, i), List.mem_filter.mpr ⟨hpair, ?_⟩, rfl⟩
    exact beq_iff_eq.mpr rfl

/-- Every id owned by a node of the built box tree indexes a box of the
span. -/
theorem table_ids_lt {D L M k : ℕ} {W : Bx} {boxes : List Bx} {c : ℕ} {nd : Nd}
    (hmem : (c, nd) ∈ createBoxTree D L M k W boxes) :
    ∀ i ∈ nd.entityIds, i < boxes.length := by
  intro i hi
  unfold createBoxTree at hmem
  rw [mem_buildTable] at hmem
  rw [hmem.2] at hi
  unfold recordOf at hi
  have hi2 : i ∈ ((sortPairs (boxBuildPairs L k W boxes)).filter
      fun pr => truncCode D M ((sortPairs (boxBuildPairs L k W boxes)).map (·.1)) pr.1
        == c).map (·.2) := hi
  rw [List.mem_map] at hi2
  obtain ⟨pr, hpr, rfl⟩ := hi2
  have hpr2 : pr ∈ sortPairs (boxBuildPairs L k W boxes) := List.mem_of_mem_filter hpr
  unfold sortPairs at hpr2
  rw [(List.perm_insertionSort _ _).mem_iff] at hpr2
  unfold boxBuildPairs at hpr2
  rw [List.mem_flatMap] at hpr2
  obtain ⟨j, hj, hpr3⟩ := hpr2
  unfold boxPairsOf at hpr3
  rw [List.mem_map] at hpr3
  obtain ⟨code, -, heq⟩ := hpr3
  rw [List.mem_range] at hj
  have : pr.2 = j := by
    rw [← heq]
  rw [this]
  exact hj

/-- An ancestor-or-self of the leaf code of `g` is the encoding of `g`'s
coordinates truncated to its depth. -/
theorem owner_coords {D L : ℕ} {o : ℕ} {g : List ℕ} (hD : 0 < D)
    (hlen : g.length = D) (hglt : ∀ x ∈ g, x < 2 ^ L)
    (howf : CodeWF D L o) (hanc : AncSelfP D o (encode L g)) :
    ∃ e, e ≤ L ∧ o = encode e (g.map (· / 2 ^ (L - e))) ∧ depthOf D o = e
      ∧ decode D (depthOf D o) o = g.map (· / 2 ^ (L - e)) := by
  have hlwf : CodeWF D L (encode L g) := ⟨L, g, le_refl _, hlen, hglt, rfl⟩
  obtain ⟨e, he, heq, hdep, -⟩ :=
    ancSelfP_wf_elim hD hlwf hanc (by have := codeWF_pos howf; omega)
  have hdl : depthOf D (encode L g) = L := depthOf_encode hD L g hlen
  rw [hdl] at he
  have hpref : prefAt D (encode L g) e = encode e (g.map (· / 2 ^ (L - e))) := by
    unfold prefAt
    rw [hdl]
    have h := encode_div_pow e (L - e) g
    rw [hlen] at h
    have hof : e + (L - e) = L := by omega
    rw [hof] at h
    exact h
  rw [hpref] at heq
  refine ⟨e, he, heq, ?_, ?_⟩
  · rw [heq]
    rw [heq] at hdep
    exact hdep
  · rw [heq] at hdep ⊢
    rw [hdep]
    apply decode_encode e _ (by rw [List.length_map, hlen])
    intro x hx
    rw [List.mem_map] at hx
    obtain ⟨y, hy, rfl⟩ := hx
    have h1 := hglt y hy
    rw [Nat.div_lt_iff_lt_mul (by positivity), ← pow_add]
    have hof : e + (L - e) = L := by omega
    rw [hof]
    exact h1

/-- Soundness: every pair reported by the tree walk is a genuine ordered
overlapping pair of the span. -/
theorem collidePairs_sound {D L M k : ℕ} {W : Bx} {boxes : List Bx} {p : ℕ × ℕ}
    (hp : p ∈ collidePairs D L W (createBoxTree D L M k W boxes) boxes) :
    p.1 < p.2 ∧ p.2 < boxes.length ∧
      boxesOverlapStrict (boxes.getD p.1 ⟨[], []⟩) (boxes.getD p.2 ⟨[], []⟩) = true := by
  unfold collidePairs at hp
  rw [List.mem_flatMap] at hp
  obtain ⟨a, ha, hp⟩ := hp
  rw [List.mem_flatMap] at hp
  obtain ⟨b, hb, hp⟩ := hp
  by_cases hanc : ancSelf D a.1 b.1 = true
  · rw [if_pos hanc] at hp
    rw [List.mem_flatMap] at hp
    obtain ⟨i, hi, hp⟩ := hp
    rw [List.mem_filterMap] at hp
    obtain ⟨j, hj, hp⟩ := hp
    by_cases hcond : i ≠ j
        ∧ (a.1 = b.1 ∨ cellMeetsRange (L - depthOf D b.1)
            (decode D (depthOf D b.1) b.1)
            (gridMinOf W L (boxes.getD i ⟨[], []⟩))
            (gridMaxOf W L (boxes.getD i ⟨[], []⟩)) = true)
        ∧ boxesOverlapStrict (boxes.getD i ⟨[], []⟩) (boxes.getD j ⟨[], []⟩) = true
    · rw [if_pos hcond] at hp
      have hpe : p = (min i j, max i j) := (Option.some.inj hp).symm
      have ha2 : (a.1, a.2) ∈ createBoxTree D L M k W boxes := by
        rw [Prod.mk.eta]
        exact ha
      have hb2 : (b.1, b.2) ∈ createBoxTree D L M k W boxes := by
        rw [Prod.mk.eta]
        exact hb
      have hilt : i < boxes.length := table_ids_lt ha2 i hi
      have hjlt : j < boxes.length := table_ids_lt hb2 j hj
      obtain ⟨hne, -, hover⟩ := hcond
      rw [hpe]
      rcases Nat.lt_or_ge i j with hij | hij
      · have h1 : min i j = i := by omega
        have h2 : max i j = j := by omega
        rw [h1, h2]
        exact ⟨hij, hjlt, hover⟩
      · have hji : j < i := by omega
        have h1 : min i j = j := by omega
        have h2 : max i j = i := by omega
        rw [h1, h2]
        refine ⟨hji, hilt, ?_⟩
        rw [boxesOverlapStrict_comm]
        exact hover
    · rw [if_neg hcond] at hp
      cases hp
  · rw [if_neg hanc] at hp
    cases hp

/-- Completeness: every ordered overlapping pair of the span is reported
by the tree walk, because both entities own nodes on the ancestor chain of
the leaf cell of a shared grid point. -/
theorem collidePairs_complete {D L M k : ℕ} {W : Bx} {boxes : List Bx} {i j : ℕ}
    (hD : 0 < D) (hW0 : W.Min.length = D) (hW1 : W.Max.length = D)
    (hW : List.Forall₂ (· < ·) W.Min W.Max)
    (hbx : ∀ b ∈ boxes, b.Min.length = D ∧ b.Max.length = D)
    (hvalid : ∀ b ∈ boxes, List.Forall₂ (· ≤ ·) b.Min b.Max)
    (hij : i < j) (hjlt : j < boxes.length)
    (hover : boxesOverlapStrict (boxes.getD i ⟨[], []⟩) (boxes.getD j ⟨[], []⟩) = true) :
    (i, j) ∈ collidePairs D L W (createBoxTree D L M k W boxes) boxes := by
  have hilt : i < boxes.length := by omega
  have hbi : boxes.getD i ⟨[], []⟩ ∈ boxes := by
    rw [List.getD_eq_getElem _ _ hilt]
    exact List.getElem_mem hilt
  have hbj : boxes.getD j ⟨[], []⟩ ∈ boxes := by
    rw [List.getD_eq_getElem _ _ hjlt]
    exact List.getElem_mem hjlt
  obtain ⟨hbiMin, hbiMax⟩ := hbx _ hbi
  obtain ⟨hbjMin, hbjMax⟩ := hbx _ hbj
  have hvi := hvalid _ hbi
  have hvj := hvalid _ hbj
  have hover2 := boxesOverlapStrict_iff.mp hover
  obtain ⟨hoIJ, hoJI⟩ := hover2
  set gI0 := gridMinOf W L (boxes.getD i ⟨[], []⟩) with hgI0
  set gI1 := gridMaxOf W L (boxes.getD i ⟨[], []⟩) with hgI1
  set gJ0 := gridMinOf W L (boxes.getD j ⟨[], []⟩) with hgJ0
  set gJ1 := gridMaxOf W L (boxes.getD j ⟨[], []⟩) with hgJ1
  have hleIJ : List.Forall₂ (· ≤ ·) gI0 gJ1 :=
    gridOf_mono L _ _ _ _ hW (hoIJ.imp fun a b h => le_of_lt h)
  have hleJI : List.Forall₂ (· ≤ ·) gJ0 gI1 :=
    gridOf_mono L _ _ _ _ hW (hoJI.imp fun a b h => le_of_lt h)
  have hleII : List.Forall₂ (· ≤ ·) gI0 gI1 := gridOf_mono L _ _ _ _ hW hvi
  have hleJJ : List.Forall₂ (· ≤ ·) gJ0 gJ1 := gridOf_mono L _ _ _ _ hW hvj
  have hlenI0 : gI0.length = D := by
    rw [hgI0]
    unfold gridMinOf
    rw [gridOf_length, hW0, hW1, hbiMin]
    omega
  have hlenJ0 : gJ0.length = D := by
    rw [hgJ0]
    unfold gridMinOf
    rw [gridOf_length, hW0, hW1, hbjMin]
    omega
  set g := List.zipWith max gI0 gJ0 with hg
  have h1I : List.Forall₂ (· ≤ ·) gI0 g :=
    forall₂_le_zipWith_max_left (by rw [hlenI0, hlenJ0])
  have h1J : List.Forall₂ (· ≤ ·) gJ0 g :=
    forall₂_le_zipWith_max_right (by rw [hlenI0, hlenJ0])
  have h2I : List.Forall₂ (· ≤ ·) g gI1 := forall₂_zipWith_max_le hleII hleJI
  have h2J : List.Forall₂ (· ≤ ·) g gJ1 := forall₂_zipWith_max_le hleIJ hleJJ
  have hglen : g.length = D := by
    rw [hg, List.length_zipWith, hlenI0, hlenJ0]
    omega
  have hglt : ∀ x ∈ g, x < 2 ^ L := by
    refine forall₂_mem_imp h2I ?_
    intro a b hb hab
    have hblt : b < 2 ^ L := by
      rw [hgI1] at hb
      unfold gridMaxOf at hb
      exact gridOf_mem_lt L _ _ _ b hb
    omega
  have hcbI : encode (min (canDepth L gI0 gI1 + k) L)
      (g.map (· / 2 ^ (L - min (canDepth L gI0 gI1 + k) L)))
      ∈ boxPartCodes L k W (boxes.getD i ⟨[], []⟩) := mem_boxPartCodes_between h1I h2I
  have hcbJ : encode (min (canDepth L gJ0 gJ1 + k) L)
      (g.map (· / 2 ^ (L - min (canDepth L gJ0 gJ1 + k) L)))
      ∈ boxPartCodes L k W (boxes.getD j ⟨[], []⟩) := mem_boxPartCodes_between h1J h2J
  obtain ⟨ndI, hmemI0, hiI⟩ := table_owner_mem (D := D) (M := M) hilt hcbI
  obtain ⟨ndJ, hmemJ0, hjJ⟩ := table_owner_mem (D := D) (M := M) hjlt hcbJ
  set oI := truncCode D M ((sortPairs (boxBuildPairs L k W boxes)).map (·.1))
      (encode (min (canDepth L gI0 gI1 + k) L)
        (g.map (· / 2 ^ (L - min (canDepth L gI0 gI1 + k) L)))) with hoI
  set oJ := truncCode D M ((sortPairs (boxBuildPairs L k W boxes)).map (·.1))
      (encode (min (canDepth L gJ0 gJ1 + k) L)
        (g.map (· / 2 ^ (L - min (canDepth L gJ0 gJ1 + k) L)))) with hoJ
  have hwfall := boxBuildPairs_codes_wf (L := L) (k := k) hD hW0 hW1 hbx
  have hwfI : CodeWF D L oI := by
    have h1 := hmemI0
    unfold createBoxTree at h1
    rw [mem_buildTable] at h1
    exact (mem_tableCodes_wf hD hwfall _ h1.1).1
  have hwfJ : CodeWF D L oJ := by
    have h1 := hmemJ0
    unfold createBoxTree at h1
    rw [mem_buildTable] at h1
    exact (mem_tableCodes_wf hD hwfall _ h1.1).1
  have hancI : AncSelfP D oI (encode L g) :=
    ancSelfP_trans (truncCode_ancSelfP D M _ _)
      (ancSelfP_encode_div hglen (Nat.min_le_right _ L))
  have hancJ : AncSelfP D oJ (encode L g) :=
    ancSelfP_trans (truncCode_ancSelfP D M _ _)
      (ancSelfP_encode_div hglen (Nat.min_le_right _ L))
  have hover0 : boxesOverlapStrict (boxes.getD i ⟨[], []⟩) (boxes.getD j ⟨[], []⟩)
      = true := boxesOverlapStrict_iff.mpr ⟨hoIJ, hoJI⟩
  rcases ancSelfP_trans_chain hancI hancJ with hanc | hanc
  · -- oI is an ancestor of oJ: pick the shallow node for i, the deep one for j
    unfold collidePairs
    rw [List.mem_flatMap]
    refine ⟨(oI, ndI), hmemI0, ?_⟩
    rw [List.mem_flatMap]
    refine ⟨(oJ, ndJ), hmemJ0, ?_⟩
    rw [if_pos ((ancSelf_iff_ancSelfP hD hwfI hwfJ).mpr hanc)]
    rw [List.mem_flatMap]
    refine ⟨i, hiI, ?_⟩
    rw [List.mem_filterMap]
    refine ⟨j, hjJ, ?_⟩
    rw [if_pos ?_]
    · have h1 : min i j = i := by omega
      have h2 : max i j = j := by omega
      rw [h1, h2]
    · refine ⟨by omega, ?_, hover0⟩
      by_cases heqO : oI = oJ
      · left
        exact heqO
      · right
        obtain ⟨e, heL, hoJeq, hdepJ, hdecJ⟩ := owner_coords hD hglen hglt hwfJ hancJ
        show cellMeetsRange (L - depthOf D oJ) (decode D (depthOf D oJ) oJ)
          (gridMinOf W L (boxes.getD i ⟨[], []⟩))
          (gridMaxOf W L (boxes.getD i ⟨[], []⟩)) = true
        rw [hdecJ, hdepJ]
        exact cellMeetsRange_true_of_between _ h1I h2I
  · -- oJ is an ancestor of oI: pick the shallow node for j, the deep one for i
    unfold collidePairs
    rw [List.mem_flatMap]
    refine ⟨(oJ, ndJ), hmemJ0, ?_⟩
    rw [List.mem_flatMap]
    refine ⟨(oI, ndI), hmemI0, ?_⟩
    rw [if_pos ((ancSelf_iff_ancSelfP hD hwfJ hwfI).mpr hanc)]
    rw [List.mem_flatMap]
    refine ⟨j, hjJ, ?_⟩
    rw [List.mem_filterMap]
    refine ⟨i, hiI, ?_⟩
    rw [if_pos ?_]
    · have h1 : min j i = i := by omega
      have h2 : max j i = j := by omega
      rw [h1, h2]
    · refine ⟨by omega, ?_, ?_⟩
      · by_cases heqO : oJ = oI
        · left
          exact heqO
        · right
          obtain ⟨e, heL, hoIeq, hdepI, hdecI⟩ := owner_coords hD hglen hglt hwfI hancI
          show cellMeetsRange (L - depthOf D oI) (decode D (depthOf D oI) oI)
            (gridMinOf W L (boxes.getD j ⟨[], []⟩))
            (gridMaxOf W L (boxes.getD j ⟨[], []⟩)) = true
          rw [hdecI, hdepI]
          exact cellMeetsRange_true_of_between _ h1J h2J
      · rw [boxesOverlapStrict_comm]
        exact hover0

theorem pairLt_ne {p q : ℕ × ℕ} (h : pairLt p q) : p ≠ q := by
  intro heq
  rw [heq] at h
  unfold pairLt at h
  omega

/-- C1: for every box span over a valid world box, CollisionDetection on
the built tree returns exactly the ordered overlapping id pairs — the
output of the brute-force scan `SelfConflicthNaive` — here proved as list
equality since both outputs carry the canonical ascending order. -/
theorem C1_collision_detection (D L M k : ℕ) (W : Bx) (boxes : List Bx)
    (hD : 0 < D) (hW0 : W.Min.length = D) (hW1 : W.Max.length = D)
    (hW : List.Forall₂ (· < ·) W.Min W.Max)
    (hbx : ∀ b ∈ boxes, b.Min.length = D ∧ b.Max.length = D)
    (hvalid : ∀ b ∈ boxes, List.Forall₂ (· ≤ ·) b.Min b.Max) :
    collisionDetection D L W (createBoxTree D L M k W boxes) boxes
      = selfConflictNaive boxes := by
  have hmem : ∀ p : ℕ × ℕ,
      p ∈ (collidePairs D L W (createBoxTree D L M k W boxes) boxes).dedup
        ↔ p ∈ selfConflictNaive boxes := by
    intro p
    rw [List.mem_dedup, selfConflictNaive_mem]
    constructor
    · exact collidePairs_sound
    · rintro ⟨h1, h2, h3⟩
      have h4 := collidePairs_complete (L := L) (M := M) (k := k)
        hD hW0 hW1 hW hbx hvalid h1 h2 h3
      rwa [Prod.mk.eta] at h4
  unfold collisionDetection
  apply List.eq_of_perm_of_sorted (r := pairLe)
  · refine (List.perm_insertionSort pairLe _).trans ?_
    refine (List.perm_ext_iff_of_nodup (List.nodup_dedup _) ?_).mpr hmem
    exact (selfConflictNaive_pairwise boxes).imp fun h => pairLt_ne h
  · exact List.sorted_insertionSort pairLe _
  · refine (selfConflictNaive_pairwise boxes).imp ?_
    intro a b h
    rcases h with h1 | ⟨h1, h2⟩
    · exact Or.inl h1
    · exact Or.inr ⟨h1, le_of_lt h2⟩

set_option maxRecDepth 100000 in
/-- Witness: on the spec's scenario 2 the tree walk and the brute-force
scan agree (both yield the pairs (1,4) and (2,4)). -/
theorem C1_collision_detection_witness :
    collisionDetection 2 3 scenario2World (createBoxTree 2 3 2 2 scenario2World scenario2Boxes)
        scenario2Boxes
      = selfConflictNaive scenario2Boxes :=
  C1_collision_detection 2 3 2 2 scenario2World scenario2Boxes (by decide) (by decide)
    (by decide) (by decide) (by decide) (by decide)

theorem sort_perm_congr {l l' : List (ℚ × ℕ)} (h : l.Perm l') :
    List.insertionSort dLe l = List.insertionSort dLe l' :=
  List.eq_of_perm_of_sorted
    ((List.perm_insertionSort dLe l).trans (h.trans (List.perm_insertionSort dLe l').symm))
    (List.sorted_insertionSort dLe l) (List.sorted_insertionSort dLe l')

theorem take_take_cons (b : ℚ × ℕ) (l : List (ℚ × ℕ)) (k : ℕ) :
    (b :: l.take k).take k = (b :: l).take k := by
  cases k with
  | zero => rfl
  | succ m =>
      simp only [List.take_succ_cons]
      rw [List.take_take]
      have h : min m (m + 1) = m := by omega
      rw [h]

theorem orderedInsert_take_take (x : ℚ × ℕ) :
    ∀ (s : List (ℚ × ℕ)) (k : ℕ),
      (List.orderedInsert dLe x (s.take k)).take k
        = (List.orderedInsert dLe x s).take k := by
  intro s
  induction s with
  | nil =>
      intro k
      rw [List.take_nil]
  | cons b s' ih =>
      intro k
      cases k with
      | zero => rfl
      | succ k' =>
          simp only [List.take_succ_cons, List.orderedInsert]
          by_cases hr : dLe x b
          · rw [if_pos hr, if_pos hr]
            simp only [List.take_succ_cons]
            rw [take_take_cons]
          · rw [if_neg hr, if_neg hr]
            simp only [List.take_succ_cons]
            rw [ih k']

theorem orderedInsert_take_skip (z : ℚ × ℕ) :
    ∀ (s : List (ℚ × ℕ)) (k : ℕ), k ≤ s.length → (∀ w ∈ s.take k, ¬ dLe z w) →
      (List.orderedInsert dLe z s).take k = s.take k := by
  intro s
  induction s with
  | nil =>
      intro k hk _
      have h : k = 0 := by simpa using hk
      rw [h]
      rfl
  | cons b s' ih =>
      intro k hk hw
      cases k with
      | zero => rfl
      | succ k' =>
          have hb : ¬ dLe z b := hw b (by simp [List.take_succ_cons])
          simp only [List.orderedInsert]
          rw [if_neg hb]
          simp only [List.take_succ_cons]
          rw [ih k' (by simpa using hk)]
          intro w hw2
          exact hw w (by simp [List.take_succ_cons, hw2])

theorem sorted_le_getLastD :
    ∀ {l : List (ℚ × ℕ)}, l.Sorted dLe → ∀ w ∈ l, ∀ d, dLe w (l.getLastD d) := by
  intro l
  induction l with
  | nil =>
      intro _ w hw
      cases hw
  | cons a t ih =>
      intro hs w hw d
      rcases List.mem_cons.mp hw with rfl | hw2
      · cases t with
        | nil => exact Or.inr ⟨rfl, le_refl _⟩
        | cons b t' =>
            have hab : dLe w b := (List.sorted_cons.mp hs).1 b (by simp)
            have hbl := ih (List.sorted_cons.mp hs).2 b (by simp) w
            exact IsTrans.trans w b _ hab hbl
      · cases t with
        | nil => cases hw2
        | cons b t' =>
            exact ih (List.sorted_cons.mp hs).2 w hw2 a

theorem sorted_take_sort (P : List (ℚ × ℕ)) (k : ℕ) :
    ((List.insertionSort dLe P).take k).Sorted dLe :=
  List.Pairwise.sublist (List.take_sublist _ _) (List.sorted_insertionSort dLe P)

theorem insBest_fold (k : ℕ) (pts : List Pt) (q : Pt) :
    ∀ (ids : List ℕ) (P : List (ℚ × ℕ)),
      ids.foldl (fun b i => insBest k b (distId pts q i)) ((List.insertionSort dLe P).take k)
        = (List.insertionSort dLe (P ++ ids.map (distId pts q))).take k := by
  intro ids
  induction ids with
  | nil =>
      intro P
      simp
  | cons i ids' ih =>
      intro P
      rw [List.foldl_cons]
      have h1 : insBest k ((List.insertionSort dLe P).take k) (distId pts q i)
          = (List.insertionSort dLe (distId pts q i :: P)).take k := by
        unfold insBest
        rw [orderedInsert_take_take]
        rfl
      rw [h1, ih (distId pts q i :: P), List.map_cons]
      have hperm : ((distId pts q i :: P) ++ ids'.map (distId pts q)).Perm
          (P ++ distId pts q i :: ids'.map (distId pts q)) := by
        rw [List.cons_append]
        exact List.perm_middle.symm
      rw [sort_perm_congr hperm]

theorem sort_take_skip_node (k : ℕ) (lb : ℚ) :
    ∀ (xs P : List (ℚ × ℕ)),
      ((List.insertionSort dLe P).take k).length = k →
      (((List.insertionSort dLe P).take k).getLastD (0, 0)).1 < lb →
      (∀ x ∈ xs, lb ≤ x.1) →
      (List.insertionSort dLe (P ++ xs)).take k = (List.insertionSort dLe P).take k := by
  intro xs
  induction xs with
  | nil =>
      intro P _ _ _
      simp
  | cons z xs' ih =>
      intro P hlen hlast hxs
      have hih := ih P hlen hlast (fun x hx => hxs x (by simp [hx]))
      have hperm : (P ++ z :: xs').Perm (z :: (P ++ xs')) := List.perm_middle
      rw [sort_perm_congr hperm, List.insertionSort]
      have hk : k ≤ (List.insertionSort dLe (P ++ xs')).length := by
        have h1 : min k (List.insertionSort dLe P).length = k := by
          rw [← List.length_take]
          exact hlen
      -- lengths
        have h2 : (List.insertionSort dLe P).length = P.length := List.length_insertionSort _ _
        have h3 : (List.insertionSort dLe (P ++ xs')).length = P.length + xs'.length := by
          rw [List.length_insertionSort, List.length_append]
        omega
      rw [orderedInsert_take_skip z _ k hk ?_]
      · exact hih
      · intro w hw
        rw [hih] at hw
        have hsort := sorted_take_sort P k
        have hwl := sorted_le_getLastD hsort w hw (0, 0)
        have hw1 : w.1 ≤ (((List.insertionSort dLe P).take k).getLastD (0, 0)).1 := by
          rcases hwl with h | ⟨h, -⟩
          · exact le_of_lt h
          · exact le_of_eq h
        have hz := hxs z (by simp)
        intro hcon
        rcases hcon with h | ⟨h, -⟩
        · have : z.1 < lb := lt_of_lt_of_le h (le_trans hw1 (le_of_lt hlast))
          exact absurd (lt_of_le_of_lt hz this) (lt_irrefl _)
        · have : z.1 < lb := h ▸ lt_of_le_of_lt hw1 hlast
          exact absurd (lt_of_le_of_lt hz this) (lt_irrefl _)

theorem knnFold_spec (k : ℕ) (pts : List Pt) (q : Pt) (D : ℕ) (W : Bx) :
    ∀ (nodes : List (ℕ × Nd)) (P : List (ℚ × ℕ)),
      (∀ nd ∈ nodes, ∀ i ∈ nd.2.entityIds,
          minSqDistToBox (cellBoxOf D W nd.1) q ≤ sqDistPts q (pts.getD i [])) →
      nodes.foldl (fun best nd =>
          if best.length = k
              ∧ (best.getLastD (0, 0)).1 < minSqDistToBox (cellBoxOf D W nd.1) q
          then best
          else nd.2.entityIds.foldl (fun b i => insBest k b (distId pts q i)) best)
        ((List.insertionSort dLe P).take k)
      = (List.insertionSort dLe
          (P ++ nodes.flatMap fun nd => nd.2.entityIds.map (distId pts q))).take k := by
  intro nodes
  induction nodes with
  | nil =>
      intro P _
      simp
  | cons nd rest ih =>
      intro P hlb
      have hlb' : ∀ nd' ∈ rest, ∀ i ∈ nd'.2.entityIds,
          minSqDistToBox (cellBoxOf D W nd'.1) q ≤ sqDistPts q (pts.getD i []) :=
        fun nd' h => hlb nd' (by simp [h])
      rw [List.foldl_cons, List.flatMap_cons, ← List.append_assoc]
      by_cases hcond : ((List.insertionSort dLe P).take k).length = k
          ∧ (((List.insertionSort dLe P).take k).getLastD (0, 0)).1
              < minSqDistToBox (cellBoxOf D W nd.1) q
      · rw [if_pos hcond]
        have hskip : (List.insertionSort dLe (P ++ nd.2.entityIds.map (distId pts q))).take k
            = (List.insertionSort dLe P).take k := by
          refine sort_take_skip_node k (minSqDistToBox (cellBoxOf D W nd.1) q) _ P
            hcond.1 hcond.2 ?_
          intro x hx
          rw [List.mem_map] at hx
          obtain ⟨i, hi, rfl⟩ := hx
          exact hlb nd (by simp) i hi
        calc rest.foldl _ ((List.insertionSort dLe P).take k)
            = rest.foldl _ ((List.insertionSort dLe
                (P ++ nd.2.entityIds.map (distId pts q))).take k) := by rw [hskip]
          _ = _ := ih (P ++ nd.2.entityIds.map (distId pts q)) hlb'
      · rw [if_neg hcond]
        rw [insBest_fold]
        exact ih (P ++ nd.2.entityIds.map (distId pts q)) hlb'

theorem qclamp2_sq_le {lo hi x p : ℚ} (h1 : lo ≤ p) (h2 : p ≤ hi) :
    qmul (qclamp2 lo hi x) (qclamp2 lo hi x) ≤ qmul (qsub x p) (qsub x p) := by
  rw [qmul_eq, qmul_eq, qsub_eq]
  unfold qclamp2
  by_cases hx1 : x < lo
  · rw [if_pos hx1, qsub_eq]
    nlinarith
  · rw [if_neg hx1]
    by_cases hx2 : hi < x
    · rw [if_pos hx2, qsub_eq]
      nlinarith
    · rw [if_neg hx2]
      nlinarith [mul_self_nonneg (x - p)]

theorem minSqCell_le_sqDist :
    ∀ {lo p : List ℚ}, List.Forall₂ (· ≤ ·) lo p →
      ∀ {hi : List ℚ}, List.Forall₂ (· ≤ ·) p hi →
      ∀ (q : List ℚ), minSqCell lo hi q ≤ sqDistPts q p := by
  intro lo p h1
  induction h1 with
  | nil =>
      intro hi h2 q
      cases h2
      cases q with
      | nil => exact le_refl _
      | cons x xs => exact le_refl _
  | cons hab h1' ih =>
      intro hi h2 q
      cases h2 with
      | cons hbc h2' =>
          cases q with
          | nil => exact le_refl _
          | cons x xs =>
              simp only [minSqCell, sqDistPts]
              rw [qadd_eq, qadd_eq]
              exact add_le_add (qclamp2_sq_le hab hbc) (ih h2' xs)

theorem gridCoord_bounds {w0 w1 x : ℚ} (hw : w0 < w1) (hx0 : w0 ≤ x) (hx1 : x ≤ w1)
    (L : ℕ) :
    ((gridCoord w0 w1 L x : ℕ) : ℚ) ≤ (x - w0) / (w1 - w0) * (2 ^ L : ℚ)
      ∧ (x - w0) / (w1 - w0) * (2 ^ L : ℚ) ≤ ((gridCoord w0 w1 L x : ℕ) : ℚ) + 1 := by
  rw [gridCoord_eq]
  have hr0 : (0:ℚ) ≤ (x - w0) / (w1 - w0) * (2 ^ L : ℚ) := by
    apply mul_nonneg (div_nonneg (by linarith) (by linarith)) (by positivity)
  have hr1 : (x - w0) / (w1 - w0) * (2 ^ L : ℚ) ≤ (2 ^ L : ℚ) := by
    have h1 : (x - w0) / (w1 - w0) ≤ 1 := by
      rw [div_le_one (by linarith)]
      linarith
    calc (x - w0) / (w1 - w0) * (2 ^ L : ℚ) ≤ 1 * (2 ^ L : ℚ) :=
          mul_le_mul_of_nonneg_right h1 (by positivity)
      _ = (2 ^ L : ℚ) := one_mul _
  have hfl : (0:ℤ) ≤ ⌊(x - w0) / (w1 - w0) * (2 ^ L : ℚ)⌋ := Int.floor_nonneg.mpr hr0
  have htn : ((⌊(x - w0) / (w1 - w0) * (2 ^ L : ℚ)⌋.toNat : ℕ) : ℚ)
      = (⌊(x - w0) / (w1 - w0) * (2 ^ L : ℚ)⌋ : ℚ) := by
    exact_mod_cast congrArg (fun z : ℤ => (z : ℚ)) (Int.toNat_of_nonneg hfl)
  constructor
  · have h1 : min (⌊(x - w0) / (w1 - w0) * (2 ^ L : ℚ)⌋.toNat) (2 ^ L - 1)
        ≤ ⌊(x - w0) / (w1 - w0) * (2 ^ L : ℚ)⌋.toNat := Nat.min_le_left _ _
    calc ((min (⌊(x - w0) / (w1 - w0) * (2 ^ L : ℚ)⌋.toNat) (2 ^ L - 1) : ℕ) : ℚ)
        ≤ ((⌊(x - w0) / (w1 - w0) * (2 ^ L : ℚ)⌋.toNat : ℕ) : ℚ) := by
          exact_mod_cast h1
      _ = (⌊(x - w0) / (w1 - w0) * (2 ^ L : ℚ)⌋ : ℚ) := htn
      _ ≤ (x - w0) / (w1 - w0) * (2 ^ L : ℚ) := Int.floor_le _
  · by_cases hcl : ⌊(x - w0) / (w1 - w0) * (2 ^ L : ℚ)⌋.toNat ≤ 2 ^ L - 1
    · rw [Nat.min_eq_left hcl]
      have h2 := Int.lt_floor_add_one ((x - w0) / (w1 - w0) * (2 ^ L : ℚ))
      rw [← htn] at h2
      exact le_of_lt h2
    · rw [Nat.min_eq_right (by omega)]
      have h3 : (((2 ^ L - 1 : ℕ) : ℚ) + 1) = (2 ^ L : ℚ) := by
        have h4 : (1:ℕ) ≤ 2 ^ L := Nat.one_le_two_pow
        push_cast [h4]
        ring
      rw [h3]
      exact hr1

theorem cell_entry_bounds {w0 w1 x : ℚ} (hw : w0 < w1) (hx0 : w0 ≤ x) (hx1 : x ≤ w1)
    {L e : ℕ} (he : e ≤ L) :
    qadd w0 (qdiv (qmul (qofNat (gridCoord w0 w1 L x / 2 ^ (L - e))) (qsub w1 w0))
        (qofNat (2 ^ e))) ≤ x
    ∧ x ≤ qadd w0 (qdiv (qmul (qofNat (gridCoord w0 w1 L x / 2 ^ (L - e) + 1)) (qsub w1 w0))
        (qofNat (2 ^ e))) := by
  obtain ⟨hg1, hg2⟩ := gridCoord_bounds hw hx0 hx1 L
  have hwpos : (0:ℚ) < w1 - w0 := by linarith
  have hepos : (0:ℚ) < (2 ^ e : ℚ) := by positivity
  have hspos : (0:ℚ) < (2 ^ (L - e) : ℚ) := by positivity
  have hLpos : (0:ℚ) < (2 ^ L : ℚ) := by positivity
  have hpow : ((2 ^ L : ℕ) : ℚ) = (2 ^ e : ℚ) * (2 ^ (L - e) : ℚ) := by
    have h1 : e + (L - e) = L := by omega
    push_cast
    rw [← pow_add, h1]
  have hxr : (x - w0) / (w1 - w0) * (2 ^ L : ℚ) * (w1 - w0) = (x - w0) * (2 ^ L : ℚ) := by
    field_simp
  have hdivmul : ((gridCoord w0 w1 L x / 2 ^ (L - e) : ℕ) : ℚ) * (2 ^ (L - e) : ℚ)
      ≤ ((gridCoord w0 w1 L x : ℕ) : ℚ) := by
    have h1 : (gridCoord w0 w1 L x / 2 ^ (L - e)) * 2 ^ (L - e) ≤ gridCoord w0 w1 L x :=
      Nat.div_mul_le_self _ _
    exact_mod_cast h1
  have hdivmul2 : ((gridCoord w0 w1 L x : ℕ) : ℚ) + 1
      ≤ (((gridCoord w0 w1 L x / 2 ^ (L - e) : ℕ) : ℚ) + 1) * (2 ^ (L - e) : ℚ) := by
    have h1 : gridCoord w0 w1 L x + 1 ≤ (gridCoord w0 w1 L x / 2 ^ (L - e) + 1) * 2 ^ (L - e) := by
      have h2 := Nat.div_add_mod (gridCoord w0 w1 L x) (2 ^ (L - e))
      have h3 : gridCoord w0 w1 L x % 2 ^ (L - e) < 2 ^ (L - e) :=
        Nat.mod_lt _ (by positivity)
      nlinarith
    exact_mod_cast h1
  constructor
  · rw [qadd_eq, qdiv_eq, qmul_eq, qofNat_eq, qofNat_eq, qsub_eq]
    have key : ((gridCoord w0 w1 L x / 2 ^ (L - e) : ℕ) : ℚ) * (w1 - w0) ≤ (x - w0) * (2 ^ e : ℚ) := by
      have h5 : ((gridCoord w0 w1 L x / 2 ^ (L - e) : ℕ) : ℚ) * (2 ^ (L - e) : ℚ) * (w1 - w0)
          ≤ (x - w0) * (2 ^ e : ℚ) * (2 ^ (L - e) : ℚ) := by
        have h6 : ((gridCoord w0 w1 L x / 2 ^ (L - e) : ℕ) : ℚ) * (2 ^ (L - e) : ℚ)
            ≤ (x - w0) / (w1 - w0) * (2 ^ L : ℚ) := le_trans hdivmul hg1
        have h7 := mul_le_mul_of_nonneg_right h6 (le_of_lt hwpos)
        rw [hxr] at h7
        calc ((gridCoord w0 w1 L x / 2 ^ (L - e) : ℕ) : ℚ) * (2 ^ (L - e) : ℚ) * (w1 - w0)
            ≤ (x - w0) * ((2 ^ L : ℕ) : ℚ) := by
              push_cast
              push_cast at h7
              linarith
          _ = (x - w0) * (2 ^ e : ℚ) * (2 ^ (L - e) : ℚ) := by
              rw [hpow]
              ring
      nlinarith
    push_cast
    push_cast at key
    have h9 : (((gridCoord w0 w1 L x / 2 ^ (L - e) : ℕ) : ℚ) * (w1 - w0)) / (2 ^ e : ℚ)
        ≤ x - w0 := by
      rw [div_le_iff hepos]
      linarith
    linarith
  · rw [qadd_eq, qdiv_eq, qmul_eq, qofNat_eq, qofNat_eq, qsub_eq]
    have key : (x - w0) * (2 ^ e : ℚ) ≤ (((gridCoord w0 w1 L x / 2 ^ (L - e) : ℕ) : ℚ) + 1) * (w1 - w0) := by
      have h5 : (x - w0) * (2 ^ e : ℚ) * (2 ^ (L - e) : ℚ)
          ≤ (((gridCoord w0 w1 L x / 2 ^ (L - e) : ℕ) : ℚ) + 1) * (2 ^ (L - e) : ℚ) * (w1 - w0) := by
        have h6 : (x - w0) / (w1 - w0) * (2 ^ L : ℚ)
            ≤ (((gridCoord w0 w1 L x / 2 ^ (L - e) : ℕ) : ℚ) + 1) * (2 ^ (L - e) : ℚ) :=
          le_trans hg2 hdivmul2
        have h7 := mul_le_mul_of_nonneg_right h6 (le_of_lt hwpos)
        rw [hxr] at h7
        calc (x - w0) * (2 ^ e : ℚ) * (2 ^ (L - e) : ℚ)
            = (x - w0) * ((2 ^ L : ℕ) : ℚ) := by
              rw [hpow]
              ring
          _ ≤ (((gridCoord w0 w1 L x / 2 ^ (L - e) : ℕ) : ℚ) + 1) * (2 ^ (L - e) : ℚ) * (w1 - w0) := by
              push_cast
              push_cast at h7
              linarith
      nlinarith
    push_cast
    push_cast at key
    have h9 : x - w0 ≤ ((((gridCoord w0 w1 L x / 2 ^ (L - e) : ℕ) : ℚ) + 1) * (w1 - w0)) / (2 ^ e : ℚ) := by
      rw [le_div_iff hepos]
      linarith
    linarith

theorem cell_corners_between {L e : ℕ} (he : e ≤ L) :
    ∀ (w0s w1s ps : List ℚ), List.Forall₂ (· < ·) w0s w1s →
      List.Forall₂ (· ≤ ·) w0s ps → List.Forall₂ (· ≤ ·) ps w1s →
      List.Forall₂ (· ≤ ·)
          (cellMin e w0s w1s ((gridOf L w0s w1s ps).map (· / 2 ^ (L - e)))) ps
        ∧ List.Forall₂ (· ≤ ·) ps
          (cellMax e w0s w1s ((gridOf L w0s w1s ps).map (· / 2 ^ (L - e)))) := by
  intro w0s
  induction w0s with
  | nil =>
      intro w1s ps h1 h2 h3
      cases h1
      cases h2
      exact ⟨List.Forall₂.nil, List.Forall₂.nil⟩
  | cons w0 ws0 ih =>
      intro w1s ps h1 h2 h3
      cases h1 with
      | cons hw h1' =>
          cases h2 with
          | cons hx0 h2' =>
              cases h3 with
              | cons hx1 h3' =>
                  simp only [gridOf, List.map_cons, cellMin, cellMax]
                  obtain ⟨ha, hb⟩ := cell_entry_bounds hw hx0 hx1 he
                  obtain ⟨hrest1, hrest2⟩ := ih _ _ h1' h2' h3'
                  exact ⟨List.Forall₂.cons ha hrest1, List.Forall₂.cons hb hrest2⟩

theorem pointBuildPairs_codes_wf {D L : ℕ} {W : Bx} {pts : List Pt} (hD : 0 < D)
    (hW0 : W.Min.length = D) (hW1 : W.Max.length = D)
    (hpts : ∀ p ∈ pts, p.length = D) :
    ∀ x ∈ (sortPairs (pointBuildPairs L W pts)).map (·.1), CodeWF D L x := by
  intro x hx
  rw [List.mem_map] at hx
  obtain ⟨pr, hpr, rfl⟩ := hx
  unfold sortPairs at hpr
  rw [(List.perm_insertionSort _ _).mem_iff] at hpr
  unfold pointBuildPairs at hpr
  rw [List.mem_flatMap] at hpr
  obtain ⟨i, hi, hpr2⟩ := hpr
  rw [List.mem_range] at hi
  unfold pointPairsOf at hpr2
  rw [List.mem_singleton] at hpr2
  rw [hpr2]
  have hpmem : pts.getD i [] ∈ pts := by
    rw [List.getD_eq_getElem _ _ hi]
    exact List.getElem_mem hi
  exact pointCode_wf hD hW0 hW1 (hpts _ hpmem)

/-- Every pair of the point builder is (leaf code of its point, its id). -/
theorem mem_pointPairs_elim {L : ℕ} {W : Bx} {pts : List Pt} {pr : ℕ × ℕ}
    (hpr : pr ∈ sortPairs (pointBuildPairs L W pts)) :
    pr.2 < pts.length ∧ pr.1 = pointCode L W (pts.getD pr.2 []) := by
  unfold sortPairs at hpr
  rw [(List.perm_insertionSort _ _).mem_iff] at hpr
  unfold pointBuildPairs at hpr
  rw [List.mem_flatMap] at hpr
  obtain ⟨i, hi, hpr2⟩ := hpr
  rw [List.mem_range] at hi
  unfold pointPairsOf at hpr2
  rw [List.mem_singleton] at hpr2
  rw [hpr2]
  exact ⟨hi, rfl⟩

/-- In the built point tree, a node's cell lower-bounds the distance to
every point it owns. -/
theorem node_lb_builder {D L M : ℕ} {W : Bx} {pts : List Pt} {c : ℕ} {nd : Nd}
    (hD : 0 < D) (hW0 : W.Min.length = D) (hW1 : W.Max.length = D)
    (hW : List.Forall₂ (· < ·) W.Min W.Max)
    (hpts : ∀ p ∈ pts, p.length = D)
    (hin : ∀ p ∈ pts, List.Forall₂ (· ≤ ·) W.Min p ∧ List.Forall₂ (· ≤ ·) p W.Max)
    (hmem : (c, nd) ∈ createPointTree D L M W pts) :
    ∀ i ∈ nd.entityIds, ∀ q : Pt,
      minSqDistToBox (cellBoxOf D W c) q ≤ sqDistPts q (pts.getD i []) := by
  intro i hi q
  unfold createPointTree at hmem
  rw [mem_buildTable] at hmem
  obtain ⟨htc, hrec⟩ := hmem
  rw [hrec] at hi
  have hi2 : i ∈ ((sortPairs (pointBuildPairs L W pts)).filter
      fun pr => truncCode D M ((sortPairs (pointBuildPairs L W pts)).map (·.1)) pr.1
        == c).map (·.2) := hi
  rw [List.mem_map] at hi2
  obtain ⟨pr, hprf, rfl⟩ := hi2
  rw [List.mem_filter] at hprf
  obtain ⟨hprm, hprt⟩ := hprf
  rw [beq_iff_eq] at hprt
  obtain ⟨hilt, hcode⟩ := mem_pointPairs_elim hprm
  have hpmem : pts.getD pr.2 [] ∈ pts := by
    rw [List.getD_eq_getElem _ _ hilt]
    exact List.getElem_mem hilt
  have hplen : (pts.getD pr.2 []).length = D := hpts _ hpmem
  obtain ⟨hin0, hin1⟩ := hin _ hpmem
  -- the node code is an ancestor of the point's leaf code
  have hanc : AncSelfP D c (encode L (gridOf L W.Min W.Max (pts.getD pr.2 []))) := by
    have h1 := truncCode_ancSelfP D M
      ((sortPairs (pointBuildPairs L W pts)).map (·.1)) pr.1
    rw [hprt] at h1
    rw [hcode] at h1
    exact h1
  have hwfc : CodeWF D L c := by
    have h2 := (mem_tableCodes_wf hD
      (pointBuildPairs_codes_wf hD hW0 hW1 hpts) c htc).1
    exact h2
  have hglen : (gridOf L W.Min W.Max (pts.getD pr.2 [])).length = D := by
    rw [gridOf_length, hW0, hW1, hplen]
    omega
  obtain ⟨e, heL, hceq, hdep, hdec⟩ :=
    owner_coords hD hglen (gridOf_mem_lt L _ _ _) hwfc hanc
  unfold cellBoxOf minSqDistToBox
  simp only []
  rw [hdec, hdep]
  have hcorners := cell_corners_between heL W.Min W.Max (pts.getD pr.2 []) hW hin0 hin1
  exact minSqCell_le_sqDist hcorners.1 hcorners.2 q

theorem flatMap_filter_partition {α : Type} (f : α → ℕ) :
    ∀ (codes : List ℕ) (prs : List α), codes.Nodup → (∀ pr ∈ prs, f pr ∈ codes) →
      (codes.flatMap fun c => prs.filter fun pr => f pr == c).Perm prs := by
  intro codes
  induction codes with
  | nil =>
      intro prs _ hall
      cases prs with
      | nil => simp
      | cons a l => exact absurd (hall a (by simp)) (by simp)
  | cons c cs ih =>
      intro prs hnd hall
      rw [List.flatMap_cons]
      have hcnotin : c ∉ cs := (List.nodup_cons.mp hnd).1
      have hfc : ∀ c' ∈ cs, (prs.filter fun pr => f pr == c')
          = ((prs.filter fun pr => !(f pr == c)).filter fun pr => f pr == c') := by
        intro c' hc'
        rw [List.filter_filter]
        apply List.filter_congr
        intro a _
        rcases hfa : (f a == c') with _ | _
        · rfl
        · have h1 : f a = c' := beq_iff_eq.mp hfa
          have h2 : (f a == c) = false := by
            rw [beq_eq_false_iff_ne, h1]
            intro h3
            exact hcnotin (h3 ▸ hc')
          rw [h2]
          rfl
      have hflateq : (cs.flatMap fun c' => prs.filter fun pr => f pr == c')
          = cs.flatMap fun c' => (prs.filter fun pr => !(f pr == c)).filter
              fun pr => f pr == c' := by
        unfold List.flatMap
        apply congrArg List.flatten
        exact List.map_congr_left hfc
      have hperm2 : (cs.flatMap fun c' => prs.filter fun pr => f pr == c').Perm
          (prs.filter fun pr => !(f pr == c)) := by
        rw [hflateq]
        apply ih _ (List.nodup_cons.mp hnd).2
        intro pr hpr
        rw [List.mem_filter] at hpr
        have h1 := hall pr hpr.1
        rcases List.mem_cons.mp h1 with h2 | h2
        · exfalso
          have h3 := hpr.2
          rw [h2] at h3
          simp at h3
        · exact h2
      exact (hperm2.append_left _).trans (List.filter_append_perm _ prs)

/-- The ids stored across all nodes of a built table are a permutation of
the input pair ids. -/
theorem buildTable_ids_perm (D M : ℕ) (prs : List (ℕ × ℕ)) :
    ((buildTable D M prs).flatMap fun nd => nd.2.entityIds).Perm (prs.map (·.2)) := by
  rw [buildTable_eq]
  have h1 : ((tableCodes D (ownersOf D M prs)).map
        (fun c => (c, recordOf D M prs (tableCodes D (ownersOf D M prs)) c))).flatMap
        (fun nd => nd.2.entityIds)
      = (tableCodes D (ownersOf D M prs)).flatMap
          (fun c => ((prs.filter fun pr =>
            truncCode D M (prs.map (·.1)) pr.1 == c).map (·.2))) := by
    rw [List.flatMap_map]
    rfl
  rw [h1]
  have h2 : (tableCodes D (ownersOf D M prs)).flatMap
        (fun c => ((prs.filter fun pr => truncCode D M (prs.map (·.1)) pr.1 == c).map (·.2)))
      = ((tableCodes D (ownersOf D M prs)).flatMap
          (fun c => prs.filter fun pr => truncCode D M (prs.map (·.1)) pr.1 == c)).map
        (·.2) := by
    rw [List.map_flatMap]
  rw [h2]
  apply List.Perm.map
  apply flatMap_filter_partition
  · have h3 : (tableCodes D (ownersOf D M prs)).Perm
        ((ownersOf D M prs).flatMap (ancChain D)).dedup := by
      unfold tableCodes
      exact List.perm_insertionSort _ _
    exact h3.nodup_iff.mpr (List.nodup_dedup _)
  · intro pr hpr
    rw [mem_tableCodes]
    refine ⟨truncCode D M (prs.map (·.1)) pr.1, ?_, ?_⟩
    · unfold ownersOf
      exact List.mem_map.mpr ⟨pr.1, List.mem_map.mpr ⟨pr, hpr, rfl⟩, rfl⟩
    · exact mem_ancChain.mpr ⟨depthOf D _, le_refl _, (prefAt_self D _).symm⟩

theorem pointBuildPairs_ids (L : ℕ) (W : Bx) (pts : List Pt) :
    (pointBuildPairs L W pts).map (·.2) = List.range pts.length := by
  unfold pointBuildPairs pointPairsOf
  rw [List.map_flatMap]
  have h2 : (List.range pts.length).flatMap
        (fun i => ([(pointCode L W (pts.getD i []), i)]).map (·.2))
      = (List.range pts.length).flatMap (fun i => [i]) := rfl
  rw [h2]
  induction pts.length with
  | zero => rfl
  | succ n ih =>
      rw [List.range_succ, List.flatMap_append, ih]
      rfl

/-- C3: on the built point tree, `GetNearestNeighbors(q, k)` returns
exactly the ids of the k smallest Euclidean distances to `q` — the
linear-scan reference — ordered by ascending distance with ties broken by
ascending id. -/
theorem C3_nearest_neighbors (D L M : ℕ) (W : Bx) (pts : List Pt) (q : Pt) (k : ℕ)
    (hD : 0 < D) (hW0 : W.Min.length = D) (hW1 : W.Max.length = D)
    (hW : List.Forall₂ (· < ·) W.Min W.Max)
    (hpts : ∀ p ∈ pts, p.length = D)
    (hin : ∀ p ∈ pts, List.Forall₂ (· ≤ ·) W.Min p ∧ List.Forall₂ (· ≤ ·) p W.Max) :
    knnSearch D W (createPointTree D L M W pts) pts q k = naiveKnn pts q k := by
  unfold knnSearch naiveKnn
  have hlbAll : ∀ nd ∈ createPointTree D L M W pts, ∀ i ∈ nd.2.entityIds,
      minSqDistToBox (cellBoxOf D W nd.1) q ≤ sqDistPts q (pts.getD i []) := by
    intro nd hnd i hi
    have hnd2 : (nd.1, nd.2) ∈ createPointTree D L M W pts := by
      rw [Prod.mk.eta]
      exact hnd
    exact node_lb_builder hD hW0 hW1 hW hpts hin hnd2 i hi q
  have h0 : ([] : List (ℚ × ℕ)) = (List.insertionSort dLe ([] : List (ℚ × ℕ))).take k := by
    simp
  rw [h0, knnFold_spec k pts q D W (createPointTree D L M W pts) [] hlbAll,
    List.nil_append]
  have hperm :
      ((createPointTree D L M W pts).flatMap
          fun nd => nd.2.entityIds.map (distId pts q)).Perm
        ((List.range pts.length).map (distId pts q)) := by
    have h1 : ((createPointTree D L M W pts).flatMap
          fun nd => nd.2.entityIds.map (distId pts q))
        = (((createPointTree D L M W pts).flatMap fun nd => nd.2.entityIds).map
            (distId pts q)) := by
      rw [List.map_flatMap]
    rw [h1]
    apply List.Perm.map
    have h2 := buildTable_ids_perm D M (sortPairs (pointBuildPairs L W pts))
    have h3 : ((sortPairs (pointBuildPairs L W pts)).map (·.2)).Perm
        (List.range pts.length) := by
      have h4 : ((pointBuildPairs L W pts).map (·.2)) = List.range pts.length :=
        pointBuildPairs_ids L W pts
      have h5 := (List.perm_insertionSort
        (fun a b : ℕ × ℕ => a.1 ≤ b.1) (pointBuildPairs L W pts)).map (·.2)
      rw [h4] at h5
      exact h5
    exact h2.trans h3
  rw [sort_perm_congr hperm]

set_option maxRecDepth 100000 in
/-- Witness: the README octree example — points (0,0,0), (1,1,1),
(2,2,2), query (1.1, 1.1, 1.1), k = 2; both searches return [1, 2]. -/
theorem C3_nearest_neighbors_witness :
    knnSearch 3 (boxOfPoints [[0,0,0],[1,1,1],[2,2,2]])
        (createPointTree 3 3 2 (boxOfPoints [[0,0,0],[1,1,1],[2,2,2]]) [[0,0,0],[1,1,1],[2,2,2]])
        [[0,0,0],[1,1,1],[2,2,2]] [mkRat 11 10, mkRat 11 10, mkRat 11 10] 2
      = naiveKnn [[0,0,0],[1,1,1],[2,2,2]] [mkRat 11 10, mkRat 11 10, mkRat 11 10] 2 :=
  C3_nearest_neighbors 3 3 2 (boxOfPoints [[0,0,0],[1,1,1],[2,2,2]]) [[0,0,0],[1,1,1],[2,2,2]]
    [mkRat 11 10, mkRat 11 10, mkRat 11 10] 2 (by decide) (by decide) (by decide) (by decide)
    (by decide) (by decide)
